import Mathlib

/-!
# bsh, the Bowdoin shell; the bit puzzles; the command-line parser; the cache simulator

Namespace `Bsh` is a shallow embedding of `src/bsh.c` (job table, launcher, signal
handlers), namespace `Puzzles` of the functions of `src/puzzles.c`, namespace `Command`
of `src/command.c`, namespace `Cachesim` of `src/cachesim.c`.

In `Bsh`, the global variables of the shell
(`jobs`, `nextjid`, `verbose`) and everything the shell does to the outside
(output, system calls) are the fields of `World`; a C function that reads or
writes them is a function on `World`.  Integers (`int`, `pid_t`) are `Int`;
the arithmetic of the shell (`nextjid++`, `maxjid(jobs)+1`) stays far from the
limits of `int` in every run considered here, so no wrap-around is modelled there;
the number `atoi` reads from a selector is cut to the 32 bits of an `int`.
Signals are not blocked in `waitfg` and `do_bgfg`: a schedule says which handlers run
before the loop test of `waitfg`, between the test and `sigsuspend`, during `sigsuspend`,
and in `do_bgfg` between the lookup of the job and the write of its state.
A pointer `job_t*` into the table is the index of the slot, `NULL` is `none`.
-/

namespace Bsh

/-! ## Constants -/

/-- Max line size (`#define MAXLINE 1024`). -/
def MAXLINE : Nat := 1024
/-- Max jobs at any point in time (`#define MAXJOBS 16`). -/
def MAXJOBS : Nat := 16

/-- Job state: undefined. -/
def UNDEF : Int := 0
/-- Job state: running in foreground. -/
def FG : Int := 1
/-- Job state: running in background. -/
def BG : Int := 2
/-- Job state: stopped. -/
def ST : Int := 3

/-- Signal numbers of `signal.h` on Linux/x86. -/
def SIGINT : Int := 2
def SIGCHLD : Int := 17
def SIGCONT : Int := 18
def SIGTSTP : Int := 20

/-- The terminating byte of a C string. -/
def NUL : Char := Char.ofNat 0

/-! ## Data model -/

/-- The job struct.  `cmdline` is the whole `char cmdline[MAXLINE]` buffer; the
command line it holds is the C string that starts the buffer (`cstr`). -/
structure job_t where
  pid : Int
  jid : Int
  state : Int
  cmdline : List Char
deriving DecidableEq, Repr

/-- What the shell does to the outside world, in program order. -/
inductive Action where
  /-- Output through stdio (`printf`, `fprintf(stdout, ...)`). -/
  | printf (s : String)
  /-- Output through `write(1, ...)` (`safe_printf`). -/
  | write (s : String)
  /-- The call `sigprocmask(SIG_BLOCK, &mask, NULL)` with SIGCHLD in `mask`. -/
  | block
  /-- The call `sigprocmask(SIG_UNBLOCK, &mask, NULL)` with SIGCHLD in `mask`. -/
  | unblock
  /-- The call `fork()` and what it returned. -/
  | fork (ret : Int)
  /-- The call `setpgid(0, 0)`. -/
  | setpgid
  /-- The call `execve(path, argv, environ)` and what it returned. -/
  | execve (path : String) (ret : Int)
  /-- The call `kill(target, sig)`. -/
  | kill (target : Int) (sig : Int)
  /-- The call `sigsuspend(&mask)` with an empty mask. -/
  | sigsuspend
  /-- Entry into `addjob(jobs, pid, state, cmdline)`. -/
  | addjobCall (pid : Int) (state : Int)
  /-- Entry into `waitfg(pid)`. -/
  | waitfgCall (pid : Int)
deriving DecidableEq, Repr

/-- The global variables of the shell process and the log of its actions. -/
structure World where
  jobs : List job_t
  nextjid : Int
  verbose : Int
  /-- The text `strerror(errno)` gives when `unix_error` asks for it. -/
  strerror : String
  trace : List Action
deriving DecidableEq, Repr

/-- Appends one action to the log. -/
def World.emit (w : World) (a : Action) : World :=
  { w with trace := w.trace ++ [a] }

/-- The slot `jobs[i]`. -/
def jobAt (jobs : List job_t) (i : Nat) : job_t :=
  jobs.getD i ⟨0, 0, 0, []⟩

/-- The C string held in a buffer: the bytes before the first NUL. -/
def cstr (buf : List Char) : List Char :=
  buf.takeWhile (fun c => c != NUL)

/-- The call `strcpy(dst, src)`: the string `src` and its NUL overwrite the start of
the buffer, the bytes of `dst` behind them stay. -/
def strcpy (dst src : List Char) : List Char :=
  cstr src ++ [NUL] ++ dst.drop ((cstr src).length + 1)

/-- The conversion `%d` of printf. -/
def fmtd (n : Int) : String := toString n

/-- The conversion `%s` of printf on a buffer. -/
def fmts (buf : List Char) : String := String.mk (cstr buf)

/-! ## Helper routines that manipulate the job list -/

/-- The loop `for (i = 0; i < MAXJOBS; i++) if (p(jobs[i])) return i;` started at
index `i` with `n` iterations left; `none` when the loop runs to its end. -/
def scanFrom (p : job_t → Bool) (jobs : List job_t) : Nat → Nat → Option Nat
  | 0, _ => none
  | n + 1, i => if p (jobAt jobs i) then some i else scanFrom p jobs n (i + 1)

/-- The first index below MAXJOBS whose slot satisfies `p`. -/
def scan (p : job_t → Bool) (jobs : List job_t) : Option Nat :=
  scanFrom p jobs MAXJOBS 0

/-- Clear the entries in a job struct (clearjob). -/
def clearjob (job : job_t) : job_t :=
  { pid := 0, jid := 0, state := UNDEF, cmdline := job.cmdline.set 0 NUL }

/-- The loop of initjobs from index `i` with `n` iterations left. -/
def initjobsFrom (jobs : List job_t) : Nat → Nat → List job_t
  | 0, _ => jobs
  | n + 1, i => initjobsFrom (jobs.set i (clearjob (jobAt jobs i))) n (i + 1)

/-- Initialize the job list (initjobs). -/
def initjobs (jobs : List job_t) : List job_t :=
  initjobsFrom jobs MAXJOBS 0

/-- The loop of maxjid from index `i` with `n` iterations left and running maximum `max`. -/
def maxjidFrom (jobs : List job_t) : Nat → Nat → Int → Int
  | 0, _, max => max
  | n + 1, i, max =>
    maxjidFrom jobs n (i + 1) (if (jobAt jobs i).jid > max then (jobAt jobs i).jid else max)

/-- Returns largest allocated job ID (maxjid). -/
def maxjid (jobs : List job_t) : Int :=
  maxjidFrom jobs MAXJOBS 0 0

/-- The body of addjob, after the call has been logged. -/
def addjobBody (w : World) (pid state : Int) (cmdline : List Char) : Int × World :=
  if pid < 1 then (0, w)
  else
    match scan (fun j => j.pid == 0) w.jobs with
    | some i =>
      let job : job_t :=
        { pid := pid, state := state, jid := w.nextjid,
          cmdline := strcpy (jobAt w.jobs i).cmdline cmdline }
      let w1 : World :=
        { w with jobs := w.jobs.set i job,
                 nextjid := if w.nextjid + 1 > MAXJOBS then 1 else w.nextjid + 1 }
      let w2 : World :=
        if w.verbose ≠ 0 then
          w1.emit (.printf ("Added job [" ++ fmtd job.jid ++ "] " ++ fmtd job.pid ++ " "
            ++ fmts job.cmdline ++ "\n"))
        else w1
      (1, w2)
    | none => (0, w.emit (.printf "Tried to create too many jobs\n"))

/-- Add a job to the job list (addjob).  Returns the `int` result and the new world. -/
def addjob (w : World) (pid state : Int) (cmdline : List Char) : Int × World :=
  addjobBody (w.emit (.addjobCall pid state)) pid state cmdline

/-- Delete a job whose PID=pid from the job list (deletejob). -/
def deletejob (w : World) (pid : Int) : Int × World :=
  if pid < 1 then (0, w)
  else
    match scan (fun j => j.pid == pid) w.jobs with
    | some i =>
      let jobs1 := w.jobs.set i (clearjob (jobAt w.jobs i))
      (1, { w with jobs := jobs1, nextjid := maxjid jobs1 + 1 })
    | none => (0, w)

/-- Return PID of current foreground job, 0 if no such job (fgpid). -/
def fgpid (jobs : List job_t) : Int :=
  match scan (fun j => j.state == FG) jobs with
  | some i => (jobAt jobs i).pid
  | none => 0

/-- Find a job (by PID) on the job list (getjobpid). -/
def getjobpid (jobs : List job_t) (pid : Int) : Option Nat :=
  if pid < 1 then none else scan (fun j => j.pid == pid) jobs

/-- Find a job (by JID) on the job list (getjobjid). -/
def getjobjid (jobs : List job_t) (jid : Int) : Option Nat :=
  if jid < 1 then none else scan (fun j => j.jid == jid) jobs

/-- Map process ID to job ID (pid2jid), on the global job list. -/
def pid2jid (w : World) (pid : Int) : Int :=
  if pid < 1 then 0
  else
    match scan (fun j => j.pid == pid) w.jobs with
    | some i => (jobAt w.jobs i).jid
    | none => 0

/-- The job list of a process at start: static storage is all zero bytes. -/
def zeroJobs : List job_t :=
  List.replicate MAXJOBS ⟨0, 0, 0, List.replicate MAXLINE NUL⟩

/-- The shell after `initjobs(jobs)` in main: `nextjid = 1`, nothing done yet;
`verbose` is 1 when the shell was started with `-v`. -/
def initWorld (verbose : Int) : World :=
  { jobs := initjobs zeroJobs, nextjid := 1, verbose := verbose, strerror := "", trace := [] }

/-! ## Control, system calls and signals -/

/-- How a piece of the shell's code ends. -/
inductive Ctl where
  /-- It returned to its caller. -/
  | ret
  /-- It called `exit(code)`: the process is gone. -/
  | exit (code : Int)
  /-- It dereferenced a NULL pointer. -/
  | fault
  /-- Its `execve` succeeded: the process runs another program. -/
  | exec
  /-- It is suspended in `sigsuspend` and no further signal is scheduled. -/
  | blocked
deriving DecidableEq, Repr

/-- The status `waitpid` stores, read through WIFSTOPPED/WSTOPSIG, WIFSIGNALED/WTERMSIG;
whatever is neither stopped nor signaled is a normal termination. -/
inductive Status where
  | stopped (sig : Int)
  | signaled (sig : Int)
  | exited (code : Int)
deriving DecidableEq, Repr

/-- One signal delivered to the shell, with what the system calls of its handler return:
for SIGCHLD the successive results `(pid, status)` of `waitpid(-1, &status, WNOHANG | WUNTRACED)`
(a schedule that ends is continued by the result 0), for SIGINT and SIGTSTP the result of `kill`. -/
inductive Signal where
  | chld (waits : List (Int × Status))
  | int (killRet : Int)
  | tstp (killRet : Int)
deriving DecidableEq, Repr

/-- One turn of the loop `while (fgpid(jobs) != 0) sigsuspend(&mask);` of waitfg with the
signals delivered in it.  No signal is blocked while waitfg runs, so the handler of a
signal runs as soon as the signal is delivered. -/
structure Turn where
  /-- Delivered before the loop tests `fgpid(jobs) != 0`. -/
  before : List Signal
  /-- Delivered after a test that found a foreground job and before `sigsuspend` sleeps:
  their handlers have returned when `sigsuspend` starts, so they do not wake it. -/
  early : List Signal
  /-- The signal that is delivered while `sigsuspend` sleeps and makes it return; `none`
  when no further signal is delivered. -/
  asleep : Option Signal
deriving DecidableEq, Repr

/-- The turn in which the only signal is delivered while `sigsuspend` sleeps. -/
def Turn.wake (sig : Signal) : Turn :=
  ⟨[], [], some sig⟩

/-- What the system calls of one `eval` return, and the signals delivered in the turns of
the loop of `waitfg`. -/
structure Env where
  forkRet : Int
  /-- Result of `sigprocmask(SIG_UNBLOCK, ...)` in the child. -/
  unblockChild : Int
  execveRet : Int
  /-- Result of `sigprocmask(SIG_UNBLOCK, ...)` before `waitfg` in the parent. -/
  unblockFg : Int
  /-- Result of the last `sigprocmask(SIG_UNBLOCK, ...)` in the parent. -/
  unblockEnd : Int
  /-- Result of `kill` in `do_bgfg`. -/
  killRet : Int
  signals : List Turn
deriving DecidableEq, Repr

/-- The library function `isspace` in the C locale. -/
def isspace (c : Char) : Bool :=
  c == ' ' || (9 ≤ c.toNat && c.toNat ≤ 13)

/-- The digits loop of `strtol` in base 10, before the result is fitted to a `long`. -/
def atoiDigits : List Char → Int → Int
  | [], acc => acc
  | c :: cs, acc =>
    if 48 ≤ c.toNat && c.toNat ≤ 57 then atoiDigits cs (acc * 10 + ((c.toNat : Int) - 48)) else acc

/-- The largest `long` of Linux/x86-64 (`LONG_MAX`); the smallest is `-LONG_MAX - 1`. -/
def LONG_MAX : Int := 9223372036854775807

/-- The library function `strtol(s, NULL, 10)`: white space, an optional sign, then decimal
digits up to the first other character; 0 when there is no digit, and the nearest `long`
when the number does not fit one. -/
def strtol (s : List Char) : Int :=
  match s.dropWhile isspace with
  | '-' :: r => max (- atoiDigits r 0) (-LONG_MAX - 1)
  | '+' :: r => min (atoiDigits r 0) LONG_MAX
  | r => min (atoiDigits r 0) LONG_MAX

/-- The conversion `(int) x` of a `long`: the low 32 bits, read in two's complement. -/
def toInt32 (x : Int) : Int :=
  (x + 2147483648) % 4294967296 - 2147483648

/-- The library function `atoi`, which is `(int) strtol(s, NULL, 10)`: the number the
string starts with when it fits an `int`, else what the cut to 32 bits leaves of it. -/
def atoi (s : List Char) : Int :=
  toInt32 (strtol s)

/-- Reports a failed system call and ends the process (unix_error). -/
def unix_error (w : World) (msg : String) : Ctl × World :=
  (.exit 1, w.emit (.printf (msg ++ ": " ++ w.strerror ++ "\n")))

/-- The body of the loop of listjobs for slot `i`. -/
def listjobsSlot (w : World) (i : Nat) : World :=
  let job := jobAt w.jobs i
  if job.pid ≠ 0 then
    let w1 := w.emit (.printf ("[" ++ fmtd job.jid ++ "] (" ++ fmtd job.pid ++ ") "))
    let w2 :=
      if job.state = BG then w1.emit (.printf "Running ")
      else if job.state = FG then w1.emit (.printf "Foreground ")
      else if job.state = ST then w1.emit (.printf "Stopped ")
      else w1.emit (.printf ("listjobs: Internal error: job[" ++ fmtd i ++ "].state="
        ++ fmtd job.state ++ " "))
    w2.emit (.printf (fmts job.cmdline))
  else w

/-- The loop of listjobs from index `i` with `n` iterations left. -/
def listjobsFrom (w : World) : Nat → Nat → World
  | 0, _ => w
  | n + 1, i => listjobsFrom (listjobsSlot w i) n (i + 1)

/-- Print the job list (listjobs). -/
def listjobs (w : World) : World :=
  listjobsFrom w MAXJOBS 0

/-! ## Signal handlers -/

/-- The body of the loop of sigchld_handler for one child `pid > 0` that `waitpid` reported. -/
def sigchldBody (w : World) (pid : Int) (status : Status) : Ctl × World :=
  match status with
  | .stopped signal =>
    match getjobpid w.jobs pid with
    | none => (.fault, w)
    | some i =>
      let job : job_t := { jobAt w.jobs i with state := ST }
      let w1 : World := { w with jobs := w.jobs.set i job }
      (.ret, w1.emit (.write ("Job [" ++ fmtd job.jid ++ "] (" ++ fmtd job.pid
        ++ ") stopped by signal " ++ fmtd signal ++ "\n")))
  | .signaled signal =>
    match getjobpid w.jobs pid with
    | none => (.fault, w)
    | some i =>
      let job := jobAt w.jobs i
      let w1 := w.emit (.write ("Job [" ++ fmtd job.jid ++ "] (" ++ fmtd job.pid
        ++ ") terminated by signal " ++ fmtd signal ++ "\n"))
      (.ret, (deletejob w1 pid).2)
  | .exited _ => (.ret, (deletejob w pid).2)

/-- Handler for SIGCHLD (sigchld_handler) on the results `waits` of its `waitpid` calls. -/
def sigchld_handler (w : World) : List (Int × Status) → Ctl × World
  | [] => (.ret, w)
  | (pid, status) :: rest =>
    if pid > 0 then
      match sigchldBody w pid status with
      | (.ret, w1) => sigchld_handler w1 rest
      | stop => stop
    else if pid < -1 then unix_error w "Waitpid failed."
    else (.ret, w)

/-- Handler for SIGINT (sigint_handler). -/
def sigint_handler (w : World) (killRet : Int) : Ctl × World :=
  if fgpid w.jobs ≠ 0 then
    let w1 := w.emit (.kill (-(fgpid w.jobs)) SIGINT)
    if killRet < 0 then unix_error w1 "Failed to terminate process" else (.ret, w1)
  else (.ret, w)

/-- Handler for SIGTSTP (sigtstp_handler). -/
def sigtstp_handler (w : World) (killRet : Int) : Ctl × World :=
  if fgpid w.jobs ≠ 0 then
    let w1 := w.emit (.kill (-(fgpid w.jobs)) SIGTSTP)
    if killRet < 0 then unix_error w1 "Failed to stop process" else (.ret, w1)
  else (.ret, w)

/-- The handler that `main` installed for a delivered signal. -/
def deliver (w : World) : Signal → Ctl × World
  | .chld waits => sigchld_handler w waits
  | .int killRet => sigint_handler w killRet
  | .tstp killRet => sigtstp_handler w killRet

/-! ## The foreground wait gate -/

/-- The handlers of signals delivered one after the other, up to the first that does not
return. -/
def deliverAll (w : World) : List Signal → Ctl × World
  | [] => (.ret, w)
  | sig :: rest =>
    match deliver w sig with
    | (.ret, w1) => deliverAll w1 rest
    | stop => stop

/-- The loop `while (fgpid(jobs) != 0) sigsuspend(&mask);` of waitfg on a schedule of
turns: handlers run before the test, between the test and `sigsuspend`, and during
`sigsuspend`, which returns after the handler of the signal that woke it.  After the last
turn of the schedule no signal is delivered any more. -/
def waitfgLoop (w : World) : List Turn → Ctl × World
  | [] => if fgpid w.jobs ≠ 0 then (.blocked, w.emit .sigsuspend) else (.ret, w)
  | turn :: rest =>
    match deliverAll w turn.before with
    | (.ret, w1) =>
      if fgpid w1.jobs ≠ 0 then
        match deliverAll w1 turn.early with
        | (.ret, w2) =>
          match turn.asleep with
          | none => (.blocked, w2.emit .sigsuspend)
          | some sig =>
            match deliver (w2.emit .sigsuspend) sig with
            | (.ret, w3) => waitfgLoop w3 rest
            | stop => stop
        | stop => stop
      else (.ret, w1)
    | stop => stop

/-- Block until process pid is no longer the foreground process (waitfg). -/
def waitfg (w : World) (pid : Int) (signals : List Turn) : Ctl × World :=
  waitfgLoop (w.emit (.waitfgCall pid)) signals

/-! ## Built-in commands and the launcher -/

/-- The end of do_bgfg, once the job `jobs[i]` is found: set its state, announce a
background job, send SIGCONT, wait for a foreground job. -/
def bgfgResume (w : World) (state : Int) (i : Nat) (killRet : Int) (signals : List Turn) :
    Ctl × World :=
  let job : job_t := { jobAt w.jobs i with state := state }
  let w1 : World := { w with jobs := w.jobs.set i job }
  let w2 :=
    if state = BG then
      w1.emit (.printf ("[" ++ fmtd job.jid ++ "] (" ++ fmtd job.pid ++ ") " ++ fmts job.cmdline))
    else w1
  let w3 := w2.emit (.kill (-1 * job.jid) SIGCONT)
  if killRet < 0 then unix_error w3 "Failed to continue stopped process"
  else if state = FG then waitfg w3 job.pid signals
  else (.ret, w3)

/-- Execute the builtin bg and fg commands (do_bgfg) when no signal is delivered before it
waits.  `argv[0]` is "bg" or "fg"; `killRet` is the result of its `kill`, `signals` are
delivered in the turns of its wait. -/
def do_bgfg (w : World) (argv : List String) (killRet : Int) (signals : List Turn) :
    Ctl × World :=
  let argv0 := argv.getD 0 ""
  match argv.get? 1 with
  | none => (.ret, w.emit (.printf (argv0 ++ " command requires PID or %jobid argument\n")))
  | some arg =>
    let state := if argv0 = "bg" then BG else FG
    if arg.toList.head? = some '%' then
      match getjobjid w.jobs (atoi (arg.toList.drop 1)) with
      | none => (.ret, w.emit (.printf (arg ++ ": No such job\n")))
      | some i => bgfgResume w state i killRet signals
    else
      match getjobpid w.jobs (atoi arg.toList) with
      | none =>
        if atoi arg.toList ≠ 0 then
          (.ret, w.emit (.printf ("(" ++ arg ++ "): No such process\n")))
        else (.ret, w.emit (.printf (argv0 ++ ": argument must be a PID or %jobid \n")))
      | some i => bgfgResume w state i killRet signals

/-- The builtin bg and fg commands (do_bgfg) on a schedule with signals delivered inside
it: do_bgfg does not block SIGCHLD, SIGINT and SIGTSTP, so the handlers of `atWrite` run
after the lookup of the job (`getjobjid`, `getjobpid`) and before what follows it, which is
`job->state = state` when the job was found.  The pointer `job` stays the slot `i` that the
lookup found, whatever the handlers did to the table. -/
def do_bgfgRacing (w : World) (argv : List String) (killRet : Int) (signals : List Turn)
    (atWrite : List Signal) : Ctl × World :=
  let argv0 := argv.getD 0 ""
  match argv.get? 1 with
  | none => (.ret, w.emit (.printf (argv0 ++ " command requires PID or %jobid argument\n")))
  | some arg =>
    let state := if argv0 = "bg" then BG else FG
    if arg.toList.head? = some '%' then
      match getjobjid w.jobs (atoi (arg.toList.drop 1)) with
      | none =>
        match deliverAll w atWrite with
        | (.ret, w1) => (.ret, w1.emit (.printf (arg ++ ": No such job\n")))
        | stop => stop
      | some i =>
        match deliverAll w atWrite with
        | (.ret, w1) => bgfgResume w1 state i killRet signals
        | stop => stop
    else
      match getjobpid w.jobs (atoi arg.toList) with
      | none =>
        match deliverAll w atWrite with
        | (.ret, w1) =>
          if atoi arg.toList ≠ 0 then
            (.ret, w1.emit (.printf ("(" ++ arg ++ "): No such process\n")))
          else (.ret, w1.emit (.printf (argv0 ++ ": argument must be a PID or %jobid \n")))
        | stop => stop
      | some i =>
        match deliverAll w atWrite with
        | (.ret, w1) => bgfgResume w1 state i killRet signals
        | stop => stop

/-- Runs a built-in command (builtin_cmd): the result is 1 if `argv[0]` is one, else 0. -/
def builtin_cmd (w : World) (argv : List String) (os : Env) : Int × Ctl × World :=
  let command := argv.getD 0 ""
  if command = "quit" then (1, .exit 1, w)
  else if command = "jobs" then (1, .ret, listjobs w)
  else if command = "bg" then (1, do_bgfg w argv os.killRet os.signals)
  else if command = "fg" then (1, do_bgfg w argv os.killRet os.signals)
  else (0, .ret, w)

/-- Evaluate the command line that the user has just typed in (eval), from the point where
`parseline(cmdline, argv)` has filled `argv` and returned `bg`. -/
def eval (w : World) (cmdline : List Char) (argv : List String) (bg : Int) (os : Env) :
    Ctl × World :=
  if argv = [] then (.ret, w)
  else
    match builtin_cmd w argv os with
    | (is_builtin, .ret, w0) =>
      if is_builtin = 0 then
        let w1 := w0.emit .block
        let pid := os.forkRet
        let w2 := w1.emit (.fork pid)
        if pid < 0 then unix_error w2 "Forking failed"
        else if pid = 0 then
          -- child process
          let w3 := (w2.emit .setpgid).emit .unblock
          if os.unblockChild < 0 then unix_error w3 "Unblocking of signal mask failed"
          else
            let w4 := w3.emit (.execve (argv.getD 0 "") os.execveRet)
            if os.execveRet < 0 then
              (.ret, w4.emit (.printf (argv.getD 0 "" ++ ": Command not found\n")))
            else (.exec, w4)
        else
          -- parent (shell) process
          let afterJob : Ctl × World :=
            if bg = 0 then
              let w3 := ((addjob w2 pid FG cmdline).2).emit .unblock
              if os.unblockFg < 0 then unix_error w3 "Unblocking of signal mask failed"
              else waitfg w3 pid os.signals
            else
              let w3 := (addjob w2 pid BG cmdline).2
              match getjobpid w3.jobs pid with
              | none => (.fault, w3)
              | some i =>
                let bgjob := jobAt w3.jobs i
                (.ret, w3.emit (.printf ("[" ++ fmtd bgjob.jid ++ "] (" ++ fmtd bgjob.pid ++ ") "
                  ++ fmts cmdline)))
          match afterJob with
          | (.ret, w4) =>
            let w5 := w4.emit .unblock
            if os.unblockEnd < 0 then unix_error w5 "Unblocking of signal mask failed"
            else (.ret, w5)
          | stop => stop
      else (.ret, w0)
    | (_, stop, w0) => (stop, w0)

/-- What happens to the shell between two prompts of its read/eval loop: a command line is
evaluated, or a signal is delivered while the shell is not in `eval`, or a command line is
evaluated while signals are delivered inside its `do_bgfg`. -/
inductive Input where
  | command (cmdline : List Char) (argv : List String) (bg : Int) (os : Env)
  | signal (sig : Signal)
  /-- A command line whose `argv[0]` is "bg" or "fg", with the signals `atWrite` delivered
  in `do_bgfg` between the lookup of the job and the write of its state; any other command
  line is evaluated as by `command`. -/
  | racing (cmdline : List Char) (argv : List String) (bg : Int) (os : Env)
      (atWrite : List Signal)
deriving DecidableEq, Repr

/-- The read/eval loop of main on a schedule of inputs; it stops with the first piece of
code that does not return. -/
def run (w : World) : List Input → Ctl × World
  | [] => (.ret, w)
  | .command cmdline argv bg os :: rest =>
    match eval w cmdline argv bg os with
    | (.ret, w1) => run w1 rest
    | stop => stop
  | .signal sig :: rest =>
    match deliver w sig with
    | (.ret, w1) => run w1 rest
    | stop => stop
  | .racing cmdline argv bg os atWrite :: rest =>
    let step :=
      if argv.getD 0 "" = "bg" ∨ argv.getD 0 "" = "fg" then
        do_bgfgRacing w argv os.killRet os.signals atWrite
      else eval w cmdline argv bg os
    match step with
    | (.ret, w1) => run w1 rest
    | stop => stop

/-! ## Properties of the job table -/

/-- No two occupied slots (pid != 0) have the same jid. -/
def uniqueJids (jobs : List job_t) : Prop :=
  ∀ i, i < MAXJOBS → ∀ j, j < MAXJOBS → i ≠ j →
    (jobAt jobs i).pid ≠ 0 ∧ (jobAt jobs j).pid ≠ 0 → (jobAt jobs i).jid ≠ (jobAt jobs j).jid

instance (jobs : List job_t) : Decidable (uniqueJids jobs) := by
  unfold uniqueJids; infer_instance

/-- At most one occupied slot has state FG. -/
def atMostOneFG (jobs : List job_t) : Prop :=
  ∀ i, i < MAXJOBS → ∀ j, j < MAXJOBS →
    (jobAt jobs i).pid ≠ 0 ∧ (jobAt jobs i).state = FG →
    (jobAt jobs j).pid ≠ 0 ∧ (jobAt jobs j).state = FG → i = j

instance (jobs : List job_t) : Decidable (atMostOneFG jobs) := by
  unfold atMostOneFG; infer_instance

/-- The number of occupied slots of the table. -/
def occupiedCount (jobs : List job_t) : Nat :=
  (List.range MAXJOBS).countP (fun i => (jobAt jobs i).pid != 0)

/-- A call of one of the two routines that fill and empty the table. -/
inductive JobOp where
  | add (pid state : Int) (cmdline : List Char)
  | delete (pid : Int)
deriving DecidableEq, Repr

/-- The world after one call. -/
def applyOp (w : World) : JobOp → World
  | .add pid state cmdline => (addjob w pid state cmdline).2
  | .delete pid => (deletejob w pid).2

/-- The world after a sequence of calls. -/
def applyOps (w : World) : List JobOp → World
  | [] => w
  | op :: ops => applyOps (applyOp w op) ops

/-- Every addjob of the sequence is called while the id counter is above every jid of the
table. -/
def addsAboveMax (w : World) : List JobOp → Bool
  | [] => true
  | .add pid state cmdline :: ops =>
    decide (maxjid w.jobs < w.nextjid) && addsAboveMax (applyOp w (.add pid state cmdline)) ops
  | .delete pid :: ops => addsAboveMax (applyOp w (.delete pid)) ops

/-- Fifteen adds, the removal of the second job, two more adds: the last add comes after
the counter has wrapped to 1. -/
def wrapOps : List JobOp :=
  (List.range 15).map (fun i => JobOp.add (i + 1) BG []) ++
    [.delete 2, .add 16 BG [], .add 17 BG []]

/-- The command is none of the built-ins that builtin_cmd compares `argv[0]` with. -/
def notBuiltin (argv : List String) : Prop :=
  argv.getD 0 "" ≠ "quit" ∧ argv.getD 0 "" ≠ "jobs" ∧ argv.getD 0 "" ≠ "bg" ∧
    argv.getD 0 "" ≠ "fg"

instance (argv : List String) : Decidable (notBuiltin argv) := by
  unfold notBuiltin; infer_instance

/-- No slot of the table has state FG. -/
def noFG (jobs : List job_t) : Prop :=
  ∀ i, i < MAXJOBS → (jobAt jobs i).state ≠ FG

/-- A shape of the table that the job routines, the handlers and eval keep (and that a
do_bgfg interrupted by a handler between its lookup and its write does not): MAXJOBS
slots, a free slot (pid 0) has jid 0 and is not FG, and no two slots are FG. -/
def tableOk (jobs : List job_t) : Prop :=
  jobs.length = MAXJOBS ∧
  (∀ i, i < MAXJOBS → (jobAt jobs i).pid = 0 →
    (jobAt jobs i).jid = 0 ∧ (jobAt jobs i).state ≠ FG) ∧
  (∀ i j, i < MAXJOBS → j < MAXJOBS →
    (jobAt jobs i).state = FG → (jobAt jobs j).state = FG → i = j)

/-- The job that the selector `arg` of fg/bg names is in slot `i`: `%N` is looked up with
getjobjid, a bare integer with getjobpid. -/
def resolves (jobs : List job_t) (arg : String) (i : Nat) : Prop :=
  if arg.toList.head? = some '%' then getjobjid jobs (atoi (arg.toList.drop 1)) = some i
  else getjobpid jobs (atoi arg.toList) = some i

instance (jobs : List job_t) (arg : String) (i : Nat) : Decidable (resolves jobs arg i) := by
  unfold resolves; infer_instance

/-- A schedule: the line "sleep 5 &" is launched in the background, its child is pid 100. -/
def launchSleep : List Input :=
  [.command "sleep 5 &\n".toList ["sleep", "5"] 1 ⟨100, 0, 0, 0, 0, 0, []⟩]

/-- A schedule on which do_bgfg is interrupted by the SIGCHLD handler.  Jobs 1 (pid 100)
and 2 (pid 101) are launched in the background; `fg %1` is typed, and job 1 terminates
after do_bgfg has looked it up and before it writes the state; `fg %2` is typed; `cat` is
launched in the foreground as pid 102.  Every system call succeeds. -/
def racingFg : List Input :=
  [.command "sleep 5 &\n".toList ["sleep", "5"] 1 ⟨100, 0, 0, 0, 0, 0, []⟩,
   .command "sleep 9 &\n".toList ["sleep", "9"] 1 ⟨101, 0, 0, 0, 0, 0, []⟩,
   .racing "fg %1\n".toList ["fg", "%1"] 0 ⟨0, 0, 0, 0, 0, 0, []⟩ [.chld [(100, .exited 0)]],
   .command "fg %2\n".toList ["fg", "%2"] 0 ⟨0, 0, 0, 0, 0, 0, []⟩,
   .command "cat\n".toList ["cat"] 0 ⟨102, 0, 0, 0, 0, 0, []⟩]

/-- A schedule: after `launchSleep`, the child 100 is stopped by signal 20 (SIGTSTP) and
the handler for SIGCHLD runs. -/
def launchAndStop : List Input :=
  launchSleep ++ [.signal (.chld [(100, .stopped 20)])]

/-- Every slot of the table is free with state UNDEF, or holds a job (pid != 0) whose
state is FG, BG or ST. -/
def statesOk (jobs : List job_t) : Prop :=
  ∀ k, k < MAXJOBS →
    ((jobAt jobs k).pid = 0 ∧ (jobAt jobs k).state = UNDEF) ∨
    ((jobAt jobs k).pid ≠ 0 ∧
      ((jobAt jobs k).state = FG ∨ (jobAt jobs k).state = BG ∨ (jobAt jobs k).state = ST))

/-- No two occupied slots (pid != 0) hold the same pid. -/
def uniquePids (jobs : List job_t) : Prop :=
  ∀ i, i < MAXJOBS → ∀ j, j < MAXJOBS → i ≠ j →
    (jobAt jobs i).pid ≠ 0 ∧ (jobAt jobs j).pid ≠ 0 → (jobAt jobs i).pid ≠ (jobAt jobs j).pid

instance (jobs : List job_t) : Decidable (uniquePids jobs) := by
  unfold uniquePids; infer_instance

/-- Every addjob of the sequence is called with a pid that no slot of the table holds. -/
def addsNewPids (w : World) : List JobOp → Bool
  | [] => true
  | .add pid state cmdline :: ops =>
    decide (getjobpid w.jobs pid = none) && addsNewPids (applyOp w (.add pid state cmdline)) ops
  | .delete pid :: ops => addsNewPids (applyOp w (.delete pid)) ops

/-- Sixteen adds of pids 1..16, the removal of pid 1, and the add of pid 17: the last add
is made with nextjid = maxjid(jobs) + 1 = 17. -/
def beyondOps : List JobOp :=
  (List.range 16).map (fun i => JobOp.add (i + 1) BG []) ++ [.delete 1, .add 17 BG []]

end Bsh

namespace Puzzles

/-! ## 32-bit words

An `int` or `unsigned` of `src/puzzles.c` is its 32-bit pattern, a `Nat` below
`2^32 = 4294967296`.  `&`, `|`, `^` are the operations of `Nat`; the operations whose
result depends on the width are below, each with its `% 2^32` written out. -/

/-- The value of a pattern read as a two's-complement `int`. -/
def toInt (x : Nat) : Int := if x < 2147483648 then (x : Int) else (x : Int) - 4294967296

/-- The pattern of an integer: its residue modulo `2^32`. -/
def ofInt (z : Int) : Nat := (z % 4294967296).toNat

/-- The operator `~`. -/
def bnot (x : Nat) : Nat := 4294967295 - x

/-- The operator `+` (sum modulo `2^32`). -/
def add (x y : Nat) : Nat := (x + y) % 4294967296

/-- The operator `<<` (the bits shifted out at the top are dropped). -/
def shl (x n : Nat) : Nat := (x <<< n) % 4294967296

/-- The operator `>>` on an `int`: an arithmetic shift, the floor of the signed value
divided by `2^n`. -/
def sar (x n : Nat) : Nat := ofInt (toInt x / 2 ^ n)

/-- The operator `>>` on an `unsigned`: a logical shift. -/
def shr (x n : Nat) : Nat := x >>> n

/-- The operator `!`. -/
def lnot (x : Nat) : Nat := if x = 0 then 1 else 0

/-! ## The puzzles -/

/-- Return 1 if x can be represented as an n-bit, two's complement integer
or 0 otherwise (`bitFit`). -/
def bitFit (x n : Nat) : Nat :=
  let mask := sar x 31
  let neg := (bnot x) &&& mask
  let pos := x &&& (bnot mask)
  let y := add neg pos
  let z := lnot (sar y (add n (bnot 0)))
  z

/-- Swaps the nth byte and the mth byte (`byteSwitch`). -/
def byteSwitch (x n m : Nat) : Nat :=
  let x_n := 0xFF &&& (sar x (shl n 3))
  let x_m := 0xFF &&& (sar x (shl m 3))
  let n_mask := shl 0xFF (shl n 3)
  let m_mask := shl 0xFF (shl m 3)
  let mask := (n_mask ||| m_mask) ^^^ (bnot 0)
  let xMask := x &&& mask
  let nmShift := (shl x_m (shl n 3)) ||| (shl x_n (shl m 3))
  xMask ||| nmShift

/-- Determine if can compute x+y without overflow (`addOverflow`). -/
def addOverflow (x y : Nat) : Nat :=
  let sum := add x y
  lnot (sar ((sum ^^^ x) &&& (sum ^^^ y)) 31)

/-- Shift x to the right by n, using a logical shift (`shiftLogical`). -/
def shiftLogical (x n : Nat) : Nat :=
  let mask := shl (sar (shl 1 31) n) 1
  (sar x n) &&& (bnot mask)

/-- Convert from two's complement to sign-magnitude where the MSB is the sign bit
(`signMagnitude`). -/
def signMagnitude (x : Nat) : Nat :=
  let mask := sar x 31
  let sign := shl mask 31
  let posNumber := (add x mask) ^^^ mask
  posNumber ||| sign

/-- Bit-level doubling of a single-precision float given as its pattern (`fp_twice`). -/
def fp_twice (uf : Nat) : Nat :=
  let expMask := (shr uf 23) &&& 0xFF
  if lnot uf ≠ 0 then uf
  else if lnot expMask ≠ 0 then (uf &&& (shl 1 31)) ||| (shl uf 1)
  else if expMask = 0xFF then uf
  else add uf (shl 1 23)

/-! ## What the puzzles are specified to compute -/

/-- Byte `k` of a pattern, byte 0 the least significant. -/
def byteOf (x k : Nat) : Nat := x / 2 ^ (8 * k) % 256

/-- The byte of `x` that a swap of bytes `n` and `m` puts at position `k`. -/
def swapped (n m k : Nat) : Nat := if k = n then m else if k = m then n else k

/-- The sign bit of a float pattern. -/
def signOf (uf : Nat) : Nat := uf / 2147483648 % 2

/-- The 8-bit exponent field of a float pattern. -/
def expOf (uf : Nat) : Nat := uf / 8388608 % 256

/-- The 23-bit fraction field of a float pattern. -/
def fracOf (uf : Nat) : Nat := uf % 8388608

/-- The pattern with the given sign, exponent field and fraction field. -/
def mkFloat (s e f : Nat) : Nat := s * 2147483648 + e * 8388608 + f

/-- A NaN: exponent field all ones and a fraction that is not zero. -/
def isNaN (uf : Nat) : Prop := expOf uf = 255 ∧ fracOf uf ≠ 0

instance (uf : Nat) : Decidable (isNaN uf) := by
  unfold isNaN; infer_instance

/-- The pattern of 2*f as IEEE-754 single precision gives it: a NaN, an infinity or a
zero is returned as it is, a denormal has its fraction doubled (the carry out of the
fraction is the exponent field 1), a normal number below exponent field 254 has the
exponent field increased by one, and exponent field 254 overflows to the infinity of the
same sign. -/
def twiceBits (uf : Nat) : Nat :=
  if expOf uf = 255 then uf
  else if expOf uf = 0 then signOf uf * 2147483648 + 2 * fracOf uf
  else if expOf uf < 254 then mkFloat (signOf uf) (expOf uf + 1) (fracOf uf)
  else mkFloat (signOf uf) 255 0

/-- The rational number a float pattern with exponent field below 255 stands for: a
denormal is `frac * 2^(-149)`, a normal number `(2^23 + frac) * 2^(exp - 150)`, with the
sign of the sign bit. -/
def floatValue (uf : Nat) : ℚ :=
  (if signOf uf = 1 then -1 else 1) *
    (if expOf uf = 0 then (fracOf uf : ℚ) / 2 ^ 149
     else ((8388608 + fracOf uf : ℚ) * 2 ^ expOf uf) / 2 ^ 150)

end Puzzles

namespace Command

/-! ## command.c: the command-line parser

A C string is the list of its characters before the terminating NUL.  The three loops of
`command_parse` walk the same line; each is a function on the rest of the line at `p` and
the local variables it updates.  The command array is the list of its strings up to the
terminating NULL; the buffers are written front to back through `letter_pointer`, so a
buffer under construction is the list of the characters written into it so far. -/

/-- The first loop of command_parse at `p`: counts the words and detects an invalid
ampersand placement.  `none` is the `return NULL`; otherwise the values of `*foreground`
and `word_count` after the loop. -/
def countLoop : List Char → Int → Int → Int → Option (Int × Int)
  | [], foreground, _, word_count => some (foreground, word_count)
  | c :: rest, foreground, space, word_count =>
    if foreground = 0 ∧ c ≠ ' ' then none
    else
      let foreground1 := if c = '&' then 0 else foreground
      let new_word : Bool := decide (c ≠ ' ' ∧ c ≠ '&' ∧ space ≠ 0)
      let space1 := if new_word then 0 else space
      let word_count1 := if new_word then word_count + 1 else word_count
      let space2 := if c = ' ' then 1 else space1
      countLoop rest foreground1 space2 word_count1

/-- The second loop at `p`: the sizes passed to malloc for the words, in the order of the
slots of the command array they are stored in. -/
def allocLoop : List Char → Char → Nat → List Nat → List Nat
  | [], _, _, sizes => sizes
  | c :: rest, last_char, letter_count, sizes =>
    if ¬ (c = ' ' ∨ c = '&') then
      if rest = [] then allocLoop rest c (letter_count + 1) (sizes ++ [letter_count + 1 + 1])
      else allocLoop rest c (letter_count + 1) sizes
    else
      if last_char ≠ ' ' ∧ last_char ≠ '&' then
        allocLoop rest c 0 (sizes ++ [letter_count + 1])
      else allocLoop rest c 0 sizes

/-- The third loop at `p`: `word` holds the characters written through `letter_pointer`
into the buffer of the current word, `done` the strings below `word_pointer`, each closed
by its NUL. -/
def fillLoop : List Char → Char → List Char → List (List Char) → List (List Char)
  | [], _, _, done => done
  | c :: rest, last_char, word, done =>
    if ¬ (c = ' ' ∨ c = '&') then
      if rest = [] then fillLoop rest c (word ++ [c]) (done ++ [word ++ [c]])
      else fillLoop rest c (word ++ [c]) done
    else
      if last_char ≠ ' ' ∧ last_char ≠ '&' then fillLoop rest c [] (done ++ [word])
      else fillLoop rest c word done

/-- Parse a command-line string (`command_parse`): the returned command array (`none` is
NULL) and the value left in `*foreground`. -/
def command_parse (line : List Char) : Option (List (List Char)) × Int :=
  match countLoop line 1 1 0 with
  | none => (none, 0)
  | some (foreground, _) => (some (fillLoop line ' ' [] []), foreground)

/-- The text command_print writes for a command array. -/
def command_print : List (List Char) → List Char
  | [] => []
  | [w] => w
  | w :: w1 :: ws => w ++ [' '] ++ command_print (w1 :: ws)

/-- The command lines of `command_test.c`. -/
def COMMAND_LINES : List String :=
  ["Hello world!  Please parse    me.",
   "A B&",
   " & this is invalid ",
   " I am &also invalid ",
   " This    has    a    lot of   spaces&     ",
   "ls -l   facs-labs       ",
   "       ls -l fcs-labs",
   " ls        -l   fcs-labs    ",
   "nano &",
   "nano&",
   "   nano&  ",
   "&uhoh ",
   "  &  uh oh",
   "uh & oh",
   "uh oh & &",
   "space space     &   "]

/-! ## What the parser is specified to compute -/

/-- The line has an ampersand with a character other than a space somewhere after it:
another ampersand (a repetition) or a character of a word (the ampersand is not after the
last word). -/
def misplacedAmp (line : List Char) : Prop :=
  ∃ i, i < line.length ∧ line.getD i ' ' = '&' ∧
    ∃ j, j < line.length ∧ i < j ∧ line.getD j ' ' ≠ ' '

instance (line : List Char) : Decidable (misplacedAmp line) := by
  unfold misplacedAmp; infer_instance

/-- The words of a line: its maximal runs of characters other than space and ampersand,
from left to right. -/
def wordsOf (line : List Char) : List (List Char) :=
  (line.splitOnP (fun c => c == ' ' || c == '&')).filter (fun w => !w.isEmpty)

end Command

namespace Cachesim

/-! ## cachesim.c: the cache simulator

An `int` is its 32-bit pattern while the bit operations work on it and its signed value
(`Int`) once it is stored or compared; an `unsigned long long` is a `Nat` below `2^64`.
C leaves a shift undefined when the count is negative or not below the width of the
operand: what the machine yields there is a parameter of the model (`Machine`), so that
what is proved holds whatever it yields.  The counters are `Int`: the simulator stays far
from the limits of `int`, no wrap-around is modelled.  Each call of accessCache makes one
call of gettimeofday; its reading is the argument `now`. -/

/-- What the machine yields for the shifts C leaves undefined. -/
structure Machine where
  /-- The pattern of `x << n` on an `int` when `n` is not in 0..31. -/
  shl32 : Nat → Int → Nat
  /-- The value of `x >> n` on an `unsigned long long` when `n` is not in 0..63. -/
  shr64 : Nat → Int → Nat

/-- The operator `~` on the pattern of an `int`. -/
def not32 (x : Nat) : Nat := 4294967295 - x

/-- The operator `<<` on the pattern of an `int`. -/
def shl32 (m : Machine) (x : Nat) (n : Int) : Nat :=
  if 0 ≤ n ∧ n < 32 then (x <<< n.toNat) % 4294967296 else m.shl32 x n % 4294967296

/-- The operator `>>` on an `unsigned long long`. -/
def shr64 (m : Machine) (x : Nat) (n : Int) : Nat :=
  if 0 ≤ n ∧ n < 64 then x >>> n.toNat else m.shr64 x n % 18446744073709551616

/-- The conversion of an `int` (given by its pattern) to `unsigned long long`, which `&`
applies to the mask: the sign bit is extended. -/
def toULL (x : Nat) : Nat :=
  if x < 2147483648 then x else x + (18446744073709551616 - 4294967296)

/-- The conversion of an `unsigned long long` to the `int` a function returns: the low 32
bits, read as two's complement. -/
def toInt32 (v : Nat) : Int :=
  if v % 4294967296 < 2147483648 then ((v % 4294967296 : Nat) : Int)
  else ((v % 4294967296 : Nat) : Int) - 4294967296

/-- The time of day as gettimeofday stores it (`struct timeval`). -/
structure timeval where
  tv_sec : Int
  tv_usec : Int
deriving DecidableEq, Repr

/-- Cacheline struct. -/
structure cacheLine where
  validBit : Int
  tag : Int
  timeStamp : timeval
deriving DecidableEq, Repr

/-- The cache (the two-dimensional matrix of cache lines), the counters behind the
pointers `evict`, `hits` and `misses`, and the string behind `accessCacheInfo`. -/
structure Sim where
  cache : List (List cacheLine)
  evict : Int
  hits : Int
  misses : Int
  accessCacheInfo : String
deriving DecidableEq, Repr

/-- The cache makeCache builds for `s >= 0`: `2^s` sets of `E` lines, each invalid with
tag 0; `clock k` is the reading of the k-th call of gettimeofday. -/
def makeCache (clock : Nat → timeval) (s E : Int) : List (List cacheLine) :=
  (List.range (2 ^ s.toNat)).map (fun i =>
    (List.range E.toNat).map (fun j =>
      ({ validBit := 0, tag := 0, timeStamp := clock (i * E.toNat + j) } : cacheLine)))

/-- Returns the tag for an address (`getTagBits`). -/
def getTagBits (m : Machine) (address : Nat) (s E b : Int) : Int :=
  let mask := not32 (shl32 m (not32 0) (64 - (b + s)))
  toInt32 ((shr64 m address (b + s)) &&& (toULL mask))

/-- Returns the index of the cache set of an address (`getIndexBits`). -/
def getIndexBits (m : Machine) (address : Nat) (s E b : Int) : Int :=
  let mask := not32 (shl32 m (not32 0) s)
  toInt32 ((shr64 m address b) &&& (toULL mask))

/-- The first loop of accessCache at index `j` with `n` iterations left: `none` is a read
outside the set, `some none` the end of the loop, `some (some j)` the line that hits. -/
def hitLoop (set : List cacheLine) (tag : Int) : Nat → Nat → Option (Option Nat)
  | 0, _ => some none
  | n + 1, j =>
    match set[j]? with
    | none => none
    | some line =>
      if line.tag = tag ∧ line.validBit = 1 then some (some j)
      else hitLoop set tag n (j + 1)

/-- How the second loop of accessCache ends: at an invalid line, or at its end with
`LRUindex`. -/
inductive Slot where
  | invalid (j : Nat)
  | lru (LRUindex : Nat)
deriving DecidableEq, Repr

/-- The second loop of accessCache at index `j` with `n` iterations left; `none` is a
read outside the set. -/
def slotLoop (set : List cacheLine) : Nat → Nat → Nat → Option Slot
  | 0, _, LRUindex => some (.lru LRUindex)
  | n + 1, j, LRUindex =>
    match set[j]?, set[LRUindex]? with
    | some line, some lruLine =>
      if line.validBit = 0 then some (.invalid j)
      else if lruLine.timeStamp.tv_usec - line.timeStamp.tv_usec > 0 then
        slotLoop set n (j + 1) j
      else slotLoop set n (j + 1) LRUindex
    | _, _ => none

/-- The write `f` through the pointer `cache[index][j]`; `none` outside the matrix. -/
def updateLine (cache : List (List cacheLine)) (index j : Nat)
    (f : cacheLine → cacheLine) : Option (List (List cacheLine)) :=
  match cache[index]? with
  | none => none
  | some set =>
    match set[j]? with
    | none => none
    | some line => some (cache.set index (set.set j (f line)))

/-- A generic cache access (`accessCache`); `none` is an access outside the memory of the
cache. -/
def accessCache (m : Machine) (now : timeval) (address : Nat) (s E b : Int) (st : Sim) :
    Option Sim :=
  let tag := getTagBits m address s E b
  let index := getIndexBits m address s E b
  if index < 0 then none
  else
    match st.cache[index.toNat]? with
    | none => none
    | some set =>
      match hitLoop set tag E.toNat 0 with
      | none => none
      | some (some j) =>
        match updateLine st.cache index.toNat j (fun l => { l with timeStamp := now }) with
        | none => none
        | some cache1 =>
          some { st with cache := cache1, hits := st.hits + 1, accessCacheInfo := "hit" }
      | some none =>
        match slotLoop set E.toNat 0 0 with
        | none => none
        | some (.invalid j) =>
          match updateLine st.cache index.toNat j
              (fun _ => { validBit := 1, tag := tag, timeStamp := now }) with
          | none => none
          | some cache1 =>
            some { st with cache := cache1, misses := st.misses + 1,
                           accessCacheInfo := "miss" }
        | some (.lru LRUindex) =>
          match updateLine st.cache index.toNat LRUindex
              (fun l => { l with tag := tag, timeStamp := now }) with
          | none => none
          | some cache1 =>
            some { st with cache := cache1, evict := st.evict + 1, misses := st.misses + 1,
                           accessCacheInfo := "miss eviction" }

/-- A line of the trace file as fscanf reads it, with the clock reading of the access it
causes. -/
structure Access where
  type : Char
  address : Nat
  size : Nat
  now : timeval
deriving DecidableEq, Repr

/-- The loop of runCache over the lines of the trace file. -/
def runCache (m : Machine) (s E b : Int) : List Access → Sim → Option Sim
  | [], st => some st
  | a :: rest, st =>
    if a.type = 'M' then
      match accessCache m a.now a.address s E b
          { st with hits := st.hits + 1, accessCacheInfo := "" } with
      | none => none
      | some st1 => runCache m s E b rest st1
    else if a.type = 'S' ∨ a.type = 'L' then
      match accessCache m a.now a.address s E b { st with accessCacheInfo := "" } with
      | none => none
      | some st1 => runCache m s E b rest st1
    else runCache m s E b rest { st with accessCacheInfo := "" }

/-! ## What the simulator is specified to do -/

/-- The cache has the shape makeCache gives it: `2^s` sets of `E` lines, every valid bit
0 or 1. -/
def wellFormed (s E : Int) (cache : List (List cacheLine)) : Prop :=
  cache.length = 2 ^ s.toNat ∧
  ∀ set, set ∈ cache → set.length = E.toNat ∧
    ∀ line, line ∈ set → line.validBit = 0 ∨ line.validBit = 1

instance (s E : Int) (cache : List (List cacheLine)) : Decidable (wellFormed s E cache) := by
  unfold wellFormed; infer_instance

/-- The first clock reading is earlier than the second, seconds and microseconds taken
together. -/
def earlier (t1 t2 : timeval) : Prop :=
  t1.tv_sec < t2.tv_sec ∨ (t1.tv_sec = t2.tv_sec ∧ t1.tv_usec < t2.tv_usec)

instance (t1 t2 : timeval) : Decidable (earlier t1 t2) := by
  unfold earlier; infer_instance

/-- The machine that masks the count of an undefined shift to the width, as x86 does. -/
def x86 : Machine :=
  { shl32 := fun x n => x <<< (n % 32).toNat,
    shr64 := fun x n => x >>> (n % 64).toNat }

/-- The line behind the pointer `set[j]`, for `j` inside the set. -/
def lineAt (set : List cacheLine) (j : Nat) : cacheLine :=
  set.getD j { validBit := 0, tag := 0, timeStamp := { tv_sec := 0, tv_usec := 0 } }

/-- The state main starts runCache in for `-s 1 -E 2 -b 10`: the cache of makeCache, all
counters 0. -/
def freshSim : Sim :=
  { cache := makeCache (fun _ => { tv_sec := 10, tv_usec := 0 }) 1 2,
    evict := 0, hits := 0, misses := 0, accessCacheInfo := "" }

/-- A trace whose accesses fall on both sides of a change of the second: block 0 is
loaded and modified at 10 s + 900000 us and 10 s + 900100 us, block 4096 is stored at
11 s + 100 us and block 8192 at 11 s + 200 us; all three are in set 0. -/
def sampleTrace : List Access :=
  [{ type := 'L', address := 0, size := 1, now := { tv_sec := 10, tv_usec := 900000 } },
   { type := 'M', address := 0, size := 1, now := { tv_sec := 10, tv_usec := 900100 } },
   { type := 'I', address := 5, size := 1, now := { tv_sec := 10, tv_usec := 900200 } },
   { type := 'S', address := 4096, size := 1, now := { tv_sec := 11, tv_usec := 100 } },
   { type := 'S', address := 8192, size := 1, now := { tv_sec := 11, tv_usec := 200 } }]

/-- The state after the first four lines of `sampleTrace`: set 0 is full, line 0 (tag 0)
was last accessed at 10 s + 900100 us, line 1 (tag 2) at 11 s + 100 us. -/
def crossSecond : Sim :=
  { cache :=
      [[{ validBit := 1, tag := 0, timeStamp := { tv_sec := 10, tv_usec := 900100 } },
        { validBit := 1, tag := 2, timeStamp := { tv_sec := 11, tv_usec := 100 } }],
       [{ validBit := 0, tag := 0, timeStamp := { tv_sec := 10, tv_usec := 0 } },
        { validBit := 0, tag := 0, timeStamp := { tv_sec := 10, tv_usec := 0 } }]],
    evict := 0, hits := 2, misses := 2, accessCacheInfo := "miss" }

end Cachesim

/-! # Theorems -/

namespace Bsh

set_option maxRecDepth 100000

/-! ## Facts about the table and its loops -/

theorem jobAt_set_ne (jobs : List job_t) (x : job_t) {i k : Nat} (h : k ≠ i) :
    jobAt (jobs.set i x) k = jobAt jobs k := by
  unfold jobAt
  simp [List.getD_eq_getElem?_getD, List.getElem?_set_ne (Ne.symm h)]

theorem jobAt_set_self (jobs : List job_t) (x : job_t) {i : Nat} (hi : i < jobs.length) :
    jobAt (jobs.set i x) i = x := by
  unfold jobAt
  simp [List.getD_eq_getElem?_getD, hi]

theorem scanFrom_some {p : job_t → Bool} {jobs : List job_t} :
    ∀ {n i k : Nat}, scanFrom p jobs n i = some k →
      i ≤ k ∧ k < i + n ∧ p (jobAt jobs k) = true ∧
        ∀ m, i ≤ m → m < k → p (jobAt jobs m) = false := by
  intro n
  induction n with
  | zero => intro i k h; simp [scanFrom] at h
  | succ n ih =>
    intro i k h
    unfold scanFrom at h
    by_cases hp : p (jobAt jobs i) = true
    · simp only [hp, if_true, Option.some.injEq] at h
      subst h
      exact ⟨le_refl _, by omega, hp, fun m h1 h2 => by omega⟩
    · simp only [hp] at h
      obtain ⟨h1, h2, h3, h4⟩ := ih h
      refine ⟨by omega, by omega, h3, fun m hm1 hm2 => ?_⟩
      by_cases hmi : m = i
      · subst hmi; simpa using hp
      · exact h4 m (by omega) hm2

theorem scanFrom_none {p : job_t → Bool} {jobs : List job_t} :
    ∀ {n i : Nat}, scanFrom p jobs n i = none →
      ∀ m, i ≤ m → m < i + n → p (jobAt jobs m) = false := by
  intro n
  induction n with
  | zero => intro i _ m h1 h2; omega
  | succ n ih =>
    intro i h m h1 h2
    unfold scanFrom at h
    by_cases hp : p (jobAt jobs i) = true
    · simp [hp] at h
    · simp only [hp] at h
      by_cases hmi : m = i
      · subst hmi; simpa using hp
      · exact ih h m (by omega) (by omega)

theorem scan_some {p : job_t → Bool} {jobs : List job_t} {k : Nat} (h : scan p jobs = some k) :
    k < MAXJOBS ∧ p (jobAt jobs k) = true ∧ ∀ m, m < k → p (jobAt jobs m) = false := by
  obtain ⟨_, h2, h3, h4⟩ := scanFrom_some h
  exact ⟨by omega, h3, fun m hm => h4 m (Nat.zero_le _) hm⟩

theorem scan_none {p : job_t → Bool} {jobs : List job_t} (h : scan p jobs = none) :
    ∀ m, m < MAXJOBS → p (jobAt jobs m) = false := by
  intro m hm
  exact scanFrom_none h m (Nat.zero_le _) (by omega)

theorem scan_eq_some {p : job_t → Bool} {jobs : List job_t} {k : Nat} (hk : k < MAXJOBS)
    (hp : p (jobAt jobs k) = true) (hfirst : ∀ m, m < k → p (jobAt jobs m) = false) :
    scan p jobs = some k := by
  cases h : scan p jobs with
  | none => have := scan_none h k hk; simp [hp] at this
  | some k' =>
    obtain ⟨_, h2, h3⟩ := scan_some h
    rcases Nat.lt_trichotomy k' k with hlt | heq | hgt
    · have := hfirst k' hlt; simp [h2] at this
    · rw [heq]
    · have := h3 k hgt; simp [hp] at this


theorem jobAt_set (jobs : List job_t) (x : job_t) (i k : Nat) :
    jobAt (jobs.set i x) k = if k = i ∧ i < jobs.length then x else jobAt jobs k := by
  by_cases hk : k = i
  · subst hk
    by_cases hi : k < jobs.length
    · simp [hi, jobAt_set_self]
    · have : jobs.set k x = jobs := by
        apply List.ext_getElem?
        intro n
        by_cases hn : n = k
        · subst hn; simp [List.getElem?_set, hi]
          omega
        · simp [List.getElem?_set_ne (Ne.symm hn)]
      simp [hi, this]
  · simp [hk, jobAt_set_ne]

theorem maxjidFrom_ge (jobs : List job_t) :
    ∀ (n i : Nat) (max : Int), max ≤ maxjidFrom jobs n i max ∧
      ∀ k, i ≤ k → k < i + n → (jobAt jobs k).jid ≤ maxjidFrom jobs n i max := by
  intro n
  induction n with
  | zero => intro i max; exact ⟨le_refl _, fun k h1 h2 => by omega⟩
  | succ n ih =>
    intro i max
    unfold maxjidFrom
    obtain ⟨h1, h2⟩ := ih (i + 1) (if (jobAt jobs i).jid > max then (jobAt jobs i).jid else max)
    constructor
    · refine le_trans ?_ h1
      split <;> omega
    · intro k hk1 hk2
      by_cases hki : k = i
      · subst hki
        refine le_trans ?_ h1
        split <;> omega
      · exact h2 k (by omega) (by omega)

theorem jid_le_maxjid (jobs : List job_t) {k : Nat} (hk : k < MAXJOBS) :
    (jobAt jobs k).jid ≤ maxjid jobs :=
  (maxjidFrom_ge jobs MAXJOBS 0 0).2 k (Nat.zero_le _) (by omega)

@[simp] theorem emit_jobs (w : World) (a : Action) : (w.emit a).jobs = w.jobs := rfl
@[simp] theorem emit_nextjid (w : World) (a : Action) : (w.emit a).nextjid = w.nextjid := rfl
@[simp] theorem emit_verbose (w : World) (a : Action) : (w.emit a).verbose = w.verbose := rfl
@[simp] theorem emit_trace (w : World) (a : Action) : (w.emit a).trace = w.trace ++ [a] := rfl

/-- The two ways addjob ends: nothing stored, or the first free slot filled. -/
theorem addjob_cases (w : World) (pid state : Int) (cmdline : List Char) :
    ((addjob w pid state cmdline).1 = 0 ∧ (addjob w pid state cmdline).2.jobs = w.jobs ∧
        (addjob w pid state cmdline).2.nextjid = w.nextjid ∧
        (pid < 1 ∨ scan (fun j => j.pid == 0) w.jobs = none)) ∨
    (∃ i, scan (fun j => j.pid == 0) w.jobs = some i ∧ 1 ≤ pid ∧
        (addjob w pid state cmdline).1 = 1 ∧
        (addjob w pid state cmdline).2.jobs =
          w.jobs.set i ⟨pid, w.nextjid, state, strcpy (jobAt w.jobs i).cmdline cmdline⟩ ∧
        (addjob w pid state cmdline).2.nextjid =
          if w.nextjid + 1 > MAXJOBS then 1 else w.nextjid + 1) := by
  unfold addjob addjobBody
  by_cases hp : pid < 1
  · left; simp [hp]
  · cases hs : scan (fun j => j.pid == 0) w.jobs with
    | none => left; simp [hp, hs]
    | some i =>
      right
      refine ⟨i, rfl, by omega, ?_⟩
      simp only [hp, if_false, emit_jobs, hs, emit_nextjid, emit_verbose]
      by_cases hv : w.verbose ≠ 0 <;> simp [hv, World.emit]

/-- The two ways deletejob ends: nothing found, or the first slot with the pid cleared. -/
theorem deletejob_cases (w : World) (pid : Int) :
    ((deletejob w pid).1 = 0 ∧ (deletejob w pid).2 = w ∧
        (pid < 1 ∨ scan (fun j => j.pid == pid) w.jobs = none)) ∨
    (∃ i, scan (fun j => j.pid == pid) w.jobs = some i ∧ 1 ≤ pid ∧
        (deletejob w pid).1 = 1 ∧
        (deletejob w pid).2 =
          { w with jobs := w.jobs.set i (clearjob (jobAt w.jobs i)),
                   nextjid := maxjid (w.jobs.set i (clearjob (jobAt w.jobs i))) + 1 }) := by
  unfold deletejob
  by_cases hp : pid < 1
  · left; simp [hp]
  · cases hs : scan (fun j => j.pid == pid) w.jobs with
    | none => left; simp [hp]
    | some i => right; exact ⟨i, rfl, by omega, by simp [hp], by simp [hp]⟩

theorem uniqueJids_set_clear {jobs : List job_t} (h : uniqueJids jobs) (i : Nat) :
    uniqueJids (jobs.set i (clearjob (jobAt jobs i))) := by
  intro a ha b hb hab hocc
  rw [jobAt_set, jobAt_set] at hocc ⊢
  by_cases h1 : a = i ∧ i < jobs.length
  · rw [if_pos h1] at hocc
    exact absurd rfl hocc.1
  · by_cases h2 : b = i ∧ i < jobs.length
    · rw [if_pos h2] at hocc
      exact absurd rfl hocc.2
    · rw [if_neg h1, if_neg h2] at hocc ⊢
      exact h a ha b hb hab hocc

theorem uniqueJids_set_fresh {jobs : List job_t} (h : uniqueJids jobs) (i : Nat) (x : job_t)
    (hx : maxjid jobs < x.jid) : uniqueJids (jobs.set i x) := by
  intro a ha b hb hab hocc
  rw [jobAt_set, jobAt_set] at hocc ⊢
  have hA := jid_le_maxjid jobs ha
  have hB := jid_le_maxjid jobs hb
  by_cases h1 : a = i ∧ i < jobs.length
  · have h2 : ¬ (b = i ∧ i < jobs.length) := fun h2 => hab (h1.1.trans h2.1.symm)
    rw [if_pos h1, if_neg h2]
    omega
  · by_cases h2 : b = i ∧ i < jobs.length
    · rw [if_neg h1, if_pos h2]
      omega
    · rw [if_neg h1, if_neg h2] at hocc ⊢
      exact h a ha b hb hab hocc

theorem uniqueJids_deletejob {w : World} (h : uniqueJids w.jobs) (pid : Int) :
    uniqueJids (deletejob w pid).2.jobs := by
  rcases deletejob_cases w pid with ⟨_, h2, _⟩ | ⟨i, _, _, _, h4⟩
  · rw [h2]; exact h
  · rw [h4]; exact uniqueJids_set_clear h i

theorem uniqueJids_addjob {w : World} (h : uniqueJids w.jobs) (hmax : maxjid w.jobs < w.nextjid)
    (pid state : Int) (cmdline : List Char) :
    uniqueJids (addjob w pid state cmdline).2.jobs := by
  rcases addjob_cases w pid state cmdline with ⟨_, h2, _⟩ | ⟨i, _, _, _, h4, _⟩
  · rw [h2]; exact h
  · rw [h4]; exact uniqueJids_set_fresh h i _ hmax

theorem uniqueJids_applyOps :
    ∀ (ops : List JobOp) (w : World), uniqueJids w.jobs → addsAboveMax w ops = true →
      ∀ k, uniqueJids (applyOps w (ops.take k)).jobs := by
  intro ops
  induction ops with
  | nil => intro w h _ k; simpa [applyOps] using h
  | cons op ops ih =>
    intro w h habove k
    cases k with
    | zero => simpa [applyOps] using h
    | succ k =>
      simp only [List.take_succ_cons, applyOps]
      cases op with
      | add pid state cmdline =>
        simp only [addsAboveMax, Bool.and_eq_true, decide_eq_true_eq] at habove
        exact ih _ (uniqueJids_addjob h habove.1 pid state cmdline) habove.2 k
      | delete pid =>
        simp only [addsAboveMax] at habove
        exact ih _ (uniqueJids_deletejob h pid) habove k

theorem initjobs_zeroJobs_pid : ∀ k, k < MAXJOBS → (jobAt (initjobs zeroJobs) k).pid = 0 := by
  decide

theorem uniqueJids_initWorld (v : Int) : uniqueJids (initWorld v).jobs := by
  intro a ha b _ _ hocc
  exact absurd (initjobs_zeroJobs_pid a ha) hocc.1

/-! ## C1: job ids under addjob and deletejob -/

/-- C1, as stated, fails: from the freshly initialised table, fifteen adds, the removal of
pid 2, and the adds of pids 16 and 17 leave pid 1 (slot 0) and pid 17 (slot 15) both with
jid 1, the second add coming after the id counter has wrapped back to 1. -/
theorem jids_collide_after_wrap :
    (jobAt (applyOps (initWorld 0) wrapOps).jobs 0).pid = 1 ∧
    (jobAt (applyOps (initWorld 0) wrapOps).jobs 15).pid = 17 ∧
    (jobAt (applyOps (initWorld 0) wrapOps).jobs 0).jid = 1 ∧
    (jobAt (applyOps (initWorld 0) wrapOps).jobs 15).jid = 1 ∧
    ¬ uniqueJids (applyOps (initWorld 0) wrapOps).jobs := by
  refine ⟨by decide, by decide, by decide, by decide, ?_⟩
  intro h
  exact h 0 (by decide) 15 (by decide) (by decide) (by decide) (by decide)

/-- C1, amended: for every sequence of addjob/deletejob calls starting from the freshly
initialised table (nextjid = 1) in which every addjob is called while nextjid is above
maxjid(jobs), at every point in the sequence no two occupied slots have the same jid. -/
theorem jids_unique_while_counter_above_max (verbose : Int) (ops : List JobOp)
    (habove : addsAboveMax (initWorld verbose) ops = true) (k : Nat) :
    uniqueJids (applyOps (initWorld verbose) (ops.take k)).jobs :=
  uniqueJids_applyOps ops (initWorld verbose) (uniqueJids_initWorld verbose) habove k

/-- C1, amended, on the first seventeen calls of `wrapOps`: the removal of pid 2 has put
the counter back above every jid when pid 16 is added. -/
theorem jids_unique_while_counter_above_max_witness :
    addsAboveMax (initWorld 0) (wrapOps.take 17) = true ∧
    uniqueJids (applyOps (initWorld 0) ((wrapOps.take 17).take 17)).jobs :=
  ⟨by decide, jids_unique_while_counter_above_max 0 (wrapOps.take 17) (by decide) 17⟩

theorem getjobpid_some {jobs : List job_t} {pid : Int} {i : Nat}
    (h : getjobpid jobs pid = some i) :
    1 ≤ pid ∧ scan (fun j => j.pid == pid) jobs = some i ∧ i < MAXJOBS ∧
      (jobAt jobs i).pid = pid := by
  unfold getjobpid at h
  by_cases hp : pid < 1
  · simp [hp] at h
  · simp only [hp, if_false] at h
    obtain ⟨h1, h2, _⟩ := scan_some h
    exact ⟨by omega, h, h1, by simpa using h2⟩

theorem occupiedCount_full {jobs : List job_t}
    (h : ∀ i, i < MAXJOBS → (jobAt jobs i).pid ≠ 0) : occupiedCount jobs = MAXJOBS := by
  unfold occupiedCount
  rw [List.countP_eq_length.2]
  · simp
  · intro i hi
    have := h i (List.mem_range.1 hi)
    simpa using this

/-! ## C4: a failing addjob -/

/-- C4: addjob returns 0 if and only if pid < 1 or all 16 slots are occupied; when it
returns 0 every slot and nextjid are unchanged; an add on a full table is rejected and the
table still has exactly 16 occupied slots. -/
theorem addjob_fails_without_mutation (w : World) (pid state : Int) (cmdline : List Char) :
    ((addjob w pid state cmdline).1 = 0 ↔
        (pid < 1 ∨ ∀ i, i < MAXJOBS → (jobAt w.jobs i).pid ≠ 0)) ∧
    ((addjob w pid state cmdline).1 = 0 →
        (addjob w pid state cmdline).2.jobs = w.jobs ∧
        (addjob w pid state cmdline).2.nextjid = w.nextjid) ∧
    ((∀ i, i < MAXJOBS → (jobAt w.jobs i).pid ≠ 0) →
        (addjob w pid state cmdline).1 = 0 ∧
        occupiedCount (addjob w pid state cmdline).2.jobs = MAXJOBS) := by
  have hfull : (∀ i, i < MAXJOBS → (jobAt w.jobs i).pid ≠ 0) →
      scan (fun j => j.pid == 0) w.jobs = none := by
    intro h
    cases hs : scan (fun j => j.pid == 0) w.jobs with
    | none => rfl
    | some i =>
      obtain ⟨h1, h2, _⟩ := scan_some hs
      exact absurd (by simpa using h2) (h i h1)
  rcases addjob_cases w pid state cmdline with ⟨h1, h2, h3, h4⟩ | ⟨i, hs, hp, h1, _, _⟩
  · refine ⟨⟨fun _ => ?_, fun _ => h1⟩, fun _ => ⟨h2, h3⟩, fun h => ⟨h1, ?_⟩⟩
    · rcases h4 with h4 | h4
      · exact Or.inl h4
      · right
        intro i hi
        simpa using scan_none h4 i hi
    · rw [h2]; exact occupiedCount_full h
  · have hnot : ¬ ∀ i, i < MAXJOBS → (jobAt w.jobs i).pid ≠ 0 := by
      intro h
      rw [hfull h] at hs
      exact absurd hs (by simp)
    refine ⟨⟨fun h => ?_, fun h => ?_⟩, fun h => ?_, fun h => absurd h hnot⟩
    · rw [h1] at h; exact absurd h (by decide)
    · rcases h with h | h
      · omega
      · exact absurd h hnot
    · rw [h1] at h; exact absurd h (by decide)

/-- C4 on the table that sixteen adds of pids 1..16 fill: the add of pid 17 is rejected. -/
theorem addjob_fails_without_mutation_witness :
    (addjob (applyOps (initWorld 0) ((List.range 16).map (fun i => JobOp.add (i + 1) BG [])))
        17 BG []).1 = 0 ∧
    occupiedCount (addjob (applyOps (initWorld 0)
        ((List.range 16).map (fun i => JobOp.add (i + 1) BG []))) 17 BG []).2.jobs = MAXJOBS :=
  (addjob_fails_without_mutation _ 17 BG []).2.2 (by decide)

/-! ## C9, C10: the SIGCHLD handler on one notification -/

/-- C9: for every table containing a job with pid p (found in slot i) and every stop signal
n, when sigchld_handler processes "p stopped by n" the table is the old one except that
this job's state is ST: the job keeps its slot, pid, jid and command line, every other slot
and nextjid are unchanged, and the output is exactly
"Job [jid] (p) stopped by signal n" followed by a newline. -/
theorem sigchld_stop_only_marks_stopped (w : World) (p n : Int) (i : Nat)
    (hlen : w.jobs.length = MAXJOBS) (hjob : getjobpid w.jobs p = some i) :
    (sigchld_handler w [(p, .stopped n)]).1 = .ret ∧
    (sigchld_handler w [(p, .stopped n)]).2.jobs =
      w.jobs.set i { jobAt w.jobs i with state := ST } ∧
    jobAt (sigchld_handler w [(p, .stopped n)]).2.jobs i =
      ⟨p, (jobAt w.jobs i).jid, ST, (jobAt w.jobs i).cmdline⟩ ∧
    (∀ k, k ≠ i → jobAt (sigchld_handler w [(p, .stopped n)]).2.jobs k = jobAt w.jobs k) ∧
    (sigchld_handler w [(p, .stopped n)]).2.nextjid = w.nextjid ∧
    (sigchld_handler w [(p, .stopped n)]).2.trace =
      w.trace ++ [.write ("Job [" ++ fmtd (jobAt w.jobs i).jid ++ "] (" ++ fmtd p
        ++ ") stopped by signal " ++ fmtd n ++ "\n")] := by
  obtain ⟨hp, _, hi, hpid⟩ := getjobpid_some hjob
  have hpos : p > 0 := by omega
  have hrun : sigchld_handler w [(p, .stopped n)] =
      (.ret, ({ w with jobs := w.jobs.set i { jobAt w.jobs i with state := ST } } : World).emit
        (.write ("Job [" ++ fmtd (jobAt w.jobs i).jid ++ "] (" ++ fmtd (jobAt w.jobs i).pid
          ++ ") stopped by signal " ++ fmtd n ++ "\n"))) := by
    simp [sigchld_handler, sigchldBody, hpos, hjob]
  rw [hrun, hpid]
  refine ⟨rfl, rfl, ?_, fun k hk => ?_, rfl, rfl⟩
  · simp only [emit_jobs]
    rw [jobAt_set_self _ _ (by omega), hpid]
  · simp only [emit_jobs]
    exact jobAt_set_ne _ _ hk

/-- C9 on the table holding pid 100 as the first job, stopped by signal 20 (SIGTSTP). -/
theorem sigchld_stop_only_marks_stopped_witness :
    (addjob (initWorld 0) 100 FG "sleep 5\n".toList).2.jobs.length = MAXJOBS ∧
    getjobpid (addjob (initWorld 0) 100 FG "sleep 5\n".toList).2.jobs 100 = some 0 ∧
    (sigchld_handler (addjob (initWorld 0) 100 FG "sleep 5\n".toList).2
      [(100, .stopped 20)]).2.trace =
      (addjob (initWorld 0) 100 FG "sleep 5\n".toList).2.trace ++
        [.write "Job [1] (100) stopped by signal 20\n"] :=
  ⟨by decide, by decide,
    (sigchld_stop_only_marks_stopped (addjob (initWorld 0) 100 FG "sleep 5\n".toList).2 100 20 0
      (by decide) (by decide)).2.2.2.2.2⟩

/-- C10: for every table containing a job with pid p (found in slot i) and jid j, when
sigchld_handler processes "p terminated by signal n" it writes
"Job [j] (p) terminated by signal n" with the jid the job had before removal; afterwards
slot i is cleared, every other slot is unchanged, nextjid = maxjid(jobs) + 1, and no slot
has pid p, the job being the only slot that held p. -/
theorem sigchld_signaled_announces_then_removes (w : World) (p n : Int) (i : Nat)
    (hlen : w.jobs.length = MAXJOBS) (hjob : getjobpid w.jobs p = some i) :
    (sigchld_handler w [(p, .signaled n)]).1 = .ret ∧
    (sigchld_handler w [(p, .signaled n)]).2.trace =
      w.trace ++ [.write ("Job [" ++ fmtd (jobAt w.jobs i).jid ++ "] (" ++ fmtd p
        ++ ") terminated by signal " ++ fmtd n ++ "\n")] ∧
    jobAt (sigchld_handler w [(p, .signaled n)]).2.jobs i = clearjob (jobAt w.jobs i) ∧
    (∀ k, k ≠ i → jobAt (sigchld_handler w [(p, .signaled n)]).2.jobs k = jobAt w.jobs k) ∧
    (sigchld_handler w [(p, .signaled n)]).2.nextjid =
      maxjid (sigchld_handler w [(p, .signaled n)]).2.jobs + 1 ∧
    ((∀ k, k < MAXJOBS → k ≠ i → (jobAt w.jobs k).pid ≠ p) →
      ∀ k, k < MAXJOBS → (jobAt (sigchld_handler w [(p, .signaled n)]).2.jobs k).pid ≠ p) := by
  obtain ⟨hp, hscan, hi, hpid⟩ := getjobpid_some hjob
  have hpos : p > 0 := by omega
  have hnot : ¬ p < 1 := by omega
  have hrun : sigchld_handler w [(p, .signaled n)] =
      (.ret, { w with jobs := w.jobs.set i (clearjob (jobAt w.jobs i)),
                      nextjid := maxjid (w.jobs.set i (clearjob (jobAt w.jobs i))) + 1,
                      trace := w.trace ++ [.write ("Job [" ++ fmtd (jobAt w.jobs i).jid ++ "] ("
                        ++ fmtd (jobAt w.jobs i).pid ++ ") terminated by signal " ++ fmtd n
                        ++ "\n")] }) := by
    simp [sigchld_handler, sigchldBody, hpos, hjob, deletejob, hnot, hscan, World.emit]
  rw [hrun, hpid]
  refine ⟨rfl, rfl, ?_, fun k hk => ?_, rfl, fun honly k hk => ?_⟩
  · exact jobAt_set_self _ _ (by omega)
  · exact jobAt_set_ne _ _ hk
  · show (jobAt (w.jobs.set i (clearjob (jobAt w.jobs i))) k).pid ≠ p
    by_cases hki : k = i
    · subst hki
      rw [jobAt_set_self _ _ (by omega)]
      show (0 : Int) ≠ p
      omega
    · rw [jobAt_set_ne _ _ hki]
      exact honly k hk hki

/-- C10 on the table holding pid 100 as the first job, killed by signal 2 (SIGINT). -/
theorem sigchld_signaled_announces_then_removes_witness :
    (addjob (initWorld 0) 100 FG "sleep 5\n".toList).2.jobs.length = MAXJOBS ∧
    getjobpid (addjob (initWorld 0) 100 FG "sleep 5\n".toList).2.jobs 100 = some 0 ∧
    (sigchld_handler (addjob (initWorld 0) 100 FG "sleep 5\n".toList).2
      [(100, .signaled 2)]).2.trace =
      (addjob (initWorld 0) 100 FG "sleep 5\n".toList).2.trace ++
        [.write "Job [1] (100) terminated by signal 2\n"] ∧
    (∀ k, k < MAXJOBS → (jobAt (sigchld_handler (addjob (initWorld 0) 100 FG
      "sleep 5\n".toList).2 [(100, .signaled 2)]).2.jobs k).pid ≠ 100) ∧
    (sigchld_handler (addjob (initWorld 0) 100 FG "sleep 5\n".toList).2
      [(100, .signaled 2)]).2.nextjid = 1 :=
  ⟨by decide, by decide,
    (sigchld_signaled_announces_then_removes
      (addjob (initWorld 0) 100 FG "sleep 5\n".toList).2 100 2 0
      (by decide) (by decide)).2.1,
    (sigchld_signaled_announces_then_removes
      (addjob (initWorld 0) 100 FG "sleep 5\n".toList).2 100 2 0
      (by decide) (by decide)).2.2.2.2.2 (by decide),
    by decide⟩

/-! ## The shape of the table is kept by every routine -/

theorem tableOk_set {jobs : List job_t} (h : tableOk jobs) (i : Nat) (x : job_t)
    (hx : x.state ≠ FG) (hfree : x.pid = 0 → x.jid = 0) : tableOk (jobs.set i x) := by
  obtain ⟨hlen, hfr, hone⟩ := h
  refine ⟨by simpa using hlen, fun k hk hpid => ?_, fun a b ha hb hsa hsb => ?_⟩
  · rw [jobAt_set] at hpid ⊢
    by_cases h1 : k = i ∧ i < jobs.length
    · rw [if_pos h1] at hpid ⊢
      exact ⟨hfree hpid, hx⟩
    · rw [if_neg h1] at hpid ⊢
      exact hfr k hk hpid
  · rw [jobAt_set] at hsa hsb
    by_cases h1 : a = i ∧ i < jobs.length
    · rw [if_pos h1] at hsa; exact absurd hsa hx
    · by_cases h2 : b = i ∧ i < jobs.length
      · rw [if_pos h2] at hsb; exact absurd hsb hx
      · rw [if_neg h1] at hsa
        rw [if_neg h2] at hsb
        exact hone a b ha hb hsa hsb

theorem noFG_set {jobs : List job_t} (h : noFG jobs) (i : Nat) (x : job_t)
    (hx : x.state ≠ FG) : noFG (jobs.set i x) := by
  intro k hk
  rw [jobAt_set]
  by_cases h1 : k = i ∧ i < jobs.length
  · rw [if_pos h1]; exact hx
  · rw [if_neg h1]; exact h k hk

theorem tableOk_set_fg {jobs : List job_t} (h : tableOk jobs) (hno : noFG jobs) (i : Nat)
    (x : job_t) (hocc : x.pid ≠ 0) : tableOk (jobs.set i x) := by
  obtain ⟨hlen, hfr, _⟩ := h
  refine ⟨by simpa using hlen, fun k hk hpid => ?_, fun a b ha hb hsa hsb => ?_⟩
  · rw [jobAt_set] at hpid ⊢
    by_cases h1 : k = i ∧ i < jobs.length
    · rw [if_pos h1] at hpid; exact absurd hpid hocc
    · rw [if_neg h1] at hpid ⊢
      exact hfr k hk hpid
  · rw [jobAt_set] at hsa hsb
    by_cases h1 : a = i ∧ i < jobs.length
    · by_cases h2 : b = i ∧ i < jobs.length
      · exact h1.1.trans h2.1.symm
      · rw [if_neg h2] at hsb; exact absurd hsb (hno b hb)
    · rw [if_neg h1] at hsa; exact absurd hsa (hno a ha)

theorem noFG_of_fgpid {jobs : List job_t} (h : tableOk jobs) (hfg : fgpid jobs = 0) :
    noFG jobs := by
  unfold fgpid at hfg
  cases hs : scan (fun j => j.state == FG) jobs with
  | none =>
    intro k hk
    simpa using scan_none hs k hk
  | some i =>
    rw [hs] at hfg
    obtain ⟨hi, hst, _⟩ := scan_some hs
    exact absurd (by simpa using hst) (h.2.1 i hi hfg).2

theorem fgpid_of_noFG {jobs : List job_t} (h : noFG jobs) : fgpid jobs = 0 := by
  unfold fgpid
  cases hs : scan (fun j => j.state == FG) jobs with
  | none => rfl
  | some i =>
    obtain ⟨hi, hst, _⟩ := scan_some hs
    exact absurd (by simpa using hst) (h i hi)

theorem clearjob_state (j : job_t) : (clearjob j).state ≠ FG := by
  simp [clearjob, UNDEF, FG]

theorem tableOk_deletejob {w : World} (h : tableOk w.jobs) (pid : Int) :
    tableOk (deletejob w pid).2.jobs := by
  rcases deletejob_cases w pid with ⟨_, h2, _⟩ | ⟨i, _, _, _, h4⟩
  · rw [h2]; exact h
  · rw [h4]; exact tableOk_set h i _ (clearjob_state _) (fun _ => rfl)

theorem noFG_deletejob {w : World} (h : noFG w.jobs) (pid : Int) :
    noFG (deletejob w pid).2.jobs := by
  rcases deletejob_cases w pid with ⟨_, h2, _⟩ | ⟨i, _, _, _, h4⟩
  · rw [h2]; exact h
  · rw [h4]; exact noFG_set h i _ (clearjob_state _)

theorem sigchldBody_keeps (w : World) (pid : Int) (status : Status) (h : tableOk w.jobs) :
    tableOk (sigchldBody w pid status).2.jobs ∧
      (noFG w.jobs → noFG (sigchldBody w pid status).2.jobs) := by
  cases status with
  | stopped n =>
    cases hj : getjobpid w.jobs pid with
    | none => simp [sigchldBody, hj, h]
    | some i =>
      obtain ⟨hp, _, hi, hpid⟩ := getjobpid_some hj
      simp only [sigchldBody, hj, emit_jobs]
      exact ⟨tableOk_set h i _ (by simp [ST, FG]) (fun h0 => by simp [hpid] at h0; omega),
        fun hno => noFG_set hno i _ (by simp [ST, FG])⟩
  | signaled n =>
    cases hj : getjobpid w.jobs pid with
    | none => simp [sigchldBody, hj, h]
    | some i =>
      simp only [sigchldBody, hj]
      exact ⟨tableOk_deletejob (w := w.emit _) h pid, fun hno => noFG_deletejob (w := w.emit _) hno pid⟩
  | exited c =>
    simp only [sigchldBody]
    exact ⟨tableOk_deletejob h pid, fun hno => noFG_deletejob hno pid⟩

theorem unix_error_jobs (w : World) (msg : String) : (unix_error w msg).2.jobs = w.jobs := rfl

theorem sigchld_handler_keeps :
    ∀ (waits : List (Int × Status)) (w : World), tableOk w.jobs →
      tableOk (sigchld_handler w waits).2.jobs ∧
        (noFG w.jobs → noFG (sigchld_handler w waits).2.jobs) := by
  intro waits
  induction waits with
  | nil => intro w h; exact ⟨h, fun hno => hno⟩
  | cons a rest ih =>
    intro w h
    obtain ⟨pid, status⟩ := a
    unfold sigchld_handler
    by_cases hp : pid > 0
    · simp only [hp, if_true]
      have hb := sigchldBody_keeps w pid status h
      rcases hr : sigchldBody w pid status with ⟨c, w1⟩
      rw [hr] at hb
      cases c with
      | ret =>
        have := ih w1 hb.1
        exact ⟨this.1, fun hno => this.2 (hb.2 hno)⟩
      | exit code => exact hb
      | fault => exact hb
      | exec => exact hb
      | blocked => exact hb
    · simp only [hp, if_false]
      by_cases hq : pid < -1
      · simp only [hq, if_true, unix_error_jobs]
        exact ⟨h, fun hno => hno⟩
      · simp only [hq, if_false]
        exact ⟨h, fun hno => hno⟩

theorem deliver_keeps (w : World) (sig : Signal) (h : tableOk w.jobs) :
    tableOk (deliver w sig).2.jobs ∧ (noFG w.jobs → noFG (deliver w sig).2.jobs) := by
  cases sig with
  | chld waits => exact sigchld_handler_keeps waits w h
  | int k =>
    simp only [deliver, sigint_handler]
    split
    · split <;> exact ⟨h, fun hno => hno⟩
    · exact ⟨h, fun hno => hno⟩
  | tstp k =>
    simp only [deliver, sigtstp_handler]
    split
    · split <;> exact ⟨h, fun hno => hno⟩
    · exact ⟨h, fun hno => hno⟩

theorem deliverAll_inv (I : World → Prop) (hd : ∀ w sig, I w → I (deliver w sig).2) :
    ∀ (sigs : List Signal) (w : World), I w → I (deliverAll w sigs).2 := by
  intro sigs
  induction sigs with
  | nil => intro w h; exact h
  | cons sig rest ih =>
    intro w h
    unfold deliverAll
    have h1 := hd w sig h
    rcases hr : deliver w sig with ⟨c, w1⟩
    rw [hr] at h1
    cases c with
    | ret => exact ih w1 h1
    | exit code => exact h1
    | fault => exact h1
    | exec => exact h1
    | blocked => exact h1

theorem waitfgLoop_inv (I : World → Prop) (hd : ∀ w sig, I w → I (deliver w sig).2)
    (hs : ∀ w, I w → I (w.emit .sigsuspend)) :
    ∀ (signals : List Turn) (w : World), I w → I (waitfgLoop w signals).2 := by
  intro signals
  induction signals with
  | nil =>
    intro w h
    unfold waitfgLoop
    split
    · exact hs w h
    · exact h
  | cons turn rest ih =>
    intro w h
    unfold waitfgLoop
    have hb := deliverAll_inv I hd turn.before w h
    rcases hrb : deliverAll w turn.before with ⟨cb, w1⟩
    rw [hrb] at hb
    cases cb with
    | ret =>
      simp only
      by_cases hfg : fgpid w1.jobs ≠ 0
      · rw [if_pos hfg]
        have he := deliverAll_inv I hd turn.early w1 hb
        rcases hre : deliverAll w1 turn.early with ⟨ce, w2⟩
        rw [hre] at he
        cases ce with
        | ret =>
          simp only
          cases turn.asleep with
          | none => exact hs w2 he
          | some sig =>
            simp only
            have h3 := hd (w2.emit .sigsuspend) sig (hs w2 he)
            rcases hr : deliver (w2.emit .sigsuspend) sig with ⟨c, w3⟩
            rw [hr] at h3
            cases c with
            | ret => exact ih w3 h3
            | exit code => exact h3
            | fault => exact h3
            | exec => exact h3
            | blocked => exact h3
        | exit code => exact he
        | fault => exact he
        | exec => exact he
        | blocked => exact he
      · rw [if_neg hfg]; exact hb
    | exit code => exact hb
    | fault => exact hb
    | exec => exact hb
    | blocked => exact hb

/-- The gate returns only from a loop test that found no foreground job. -/
theorem waitfgLoop_exit :
    ∀ (signals : List Turn) (w : World),
      (waitfgLoop w signals).1 = .ret → fgpid (waitfgLoop w signals).2.jobs = 0 := by
  intro signals
  induction signals with
  | nil =>
    intro w
    unfold waitfgLoop
    by_cases hfg : fgpid w.jobs ≠ 0
    · rw [if_pos hfg]; intro hc; cases hc
    · rw [if_neg hfg]; intro _; simpa using hfg
  | cons turn rest ih =>
    intro w
    unfold waitfgLoop
    rcases hrb : deliverAll w turn.before with ⟨cb, w1⟩
    cases cb with
    | ret =>
      simp only
      by_cases hfg : fgpid w1.jobs ≠ 0
      · rw [if_pos hfg]
        rcases hre : deliverAll w1 turn.early with ⟨ce, w2⟩
        cases ce with
        | ret =>
          simp only
          cases turn.asleep with
          | none => intro hc; cases hc
          | some sig =>
            simp only
            rcases hr : deliver (w2.emit .sigsuspend) sig with ⟨c, w3⟩
            cases c with
            | ret => exact ih w3
            | exit code => intro hc; cases hc
            | fault => intro hc; cases hc
            | exec => intro hc; cases hc
            | blocked => intro hc; cases hc
        | exit code => intro hc; cases hc
        | fault => intro hc; cases hc
        | exec => intro hc; cases hc
        | blocked => intro hc; cases hc
      · rw [if_neg hfg]; intro _; simpa using hfg
    | exit code => intro hc; cases hc
    | fault => intro hc; cases hc
    | exec => intro hc; cases hc
    | blocked => intro hc; cases hc

theorem waitfgLoop_keeps (signals : List Turn) (w : World) (h : tableOk w.jobs) :
    tableOk (waitfgLoop w signals).2.jobs ∧
      ((waitfgLoop w signals).1 = .ret → noFG (waitfgLoop w signals).2.jobs) := by
  have hk := waitfgLoop_inv (fun w => tableOk w.jobs)
    (fun w sig hw => (deliver_keeps w sig hw).1) (fun w hw => hw) signals w h
  exact ⟨hk, fun hr => noFG_of_fgpid hk (waitfgLoop_exit signals w hr)⟩

theorem getjobjid_some {jobs : List job_t} {jid : Int} {i : Nat}
    (h : getjobjid jobs jid = some i) :
    1 ≤ jid ∧ i < MAXJOBS ∧ (jobAt jobs i).jid = jid := by
  unfold getjobjid at h
  by_cases hp : jid < 1
  · simp [hp] at h
  · simp only [hp, if_false] at h
    obtain ⟨h1, h2, _⟩ := scan_some h
    exact ⟨by omega, h1, by simpa using h2⟩

theorem tableOk_addjob {w : World} (h : tableOk w.jobs) (hno : noFG w.jobs)
    (pid state : Int) (cmdline : List Char) :
    tableOk (addjob w pid state cmdline).2.jobs ∧
      (state ≠ FG → noFG (addjob w pid state cmdline).2.jobs) := by
  rcases addjob_cases w pid state cmdline with ⟨_, h2, _⟩ | ⟨i, _, hp, _, h4, _⟩
  · rw [h2]; exact ⟨h, fun _ => hno⟩
  · rw [h4]
    exact ⟨tableOk_set_fg h hno i _ (by show pid ≠ 0; omega), fun hs => noFG_set hno i _ hs⟩

theorem listjobsSlot_jobs (w : World) (i : Nat) : (listjobsSlot w i).jobs = w.jobs := by
  unfold listjobsSlot
  simp only
  split
  · split
    · rfl
    · split
      · rfl
      · split <;> rfl
  · rfl

theorem listjobsFrom_jobs : ∀ (n i : Nat) (w : World), (listjobsFrom w n i).jobs = w.jobs := by
  intro n
  induction n with
  | zero => intro i w; rfl
  | succ n ih =>
    intro i w
    unfold listjobsFrom
    rw [ih, listjobsSlot_jobs]

theorem listjobs_jobs (w : World) : (listjobs w).jobs = w.jobs :=
  listjobsFrom_jobs MAXJOBS 0 w

theorem bgfgResume_keeps (w : World) (state : Int) (i : Nat) (killRet : Int)
    (signals : List Turn) (h : tableOk w.jobs) (hno : noFG w.jobs)
    (hocc : (jobAt w.jobs i).pid ≠ 0) :
    tableOk (bgfgResume w state i killRet signals).2.jobs ∧
      ((bgfgResume w state i killRet signals).1 = .ret →
        noFG (bgfgResume w state i killRet signals).2.jobs) := by
  have hset : tableOk (w.jobs.set i { jobAt w.jobs i with state := state }) :=
    tableOk_set_fg h hno i _ hocc
  unfold bgfgResume
  simp only
  by_cases hk : killRet < 0
  · rw [if_pos hk]
    refine ⟨?_, fun hc => by cases hc⟩
    rw [unix_error_jobs]
    split <;> exact hset
  · rw [if_neg hk]
    by_cases hs : state = FG
    · rw [if_pos hs]
      unfold waitfg
      apply waitfgLoop_keeps
      simp only [emit_jobs]
      split <;> exact hset
    · rw [if_neg hs]
      refine ⟨?_, fun _ => ?_⟩
      · simp only [emit_jobs]
        split <;> exact hset
      · simp only [emit_jobs]
        split <;> exact noFG_set hno i _ hs

theorem do_bgfg_keeps (w : World) (argv : List String) (killRet : Int)
    (signals : List Turn) (h : tableOk w.jobs) (hno : noFG w.jobs) :
    tableOk (do_bgfg w argv killRet signals).2.jobs ∧
      ((do_bgfg w argv killRet signals).1 = .ret →
        noFG (do_bgfg w argv killRet signals).2.jobs) := by
  unfold do_bgfg
  simp only
  cases argv.get? 1 with
  | none => exact ⟨h, fun _ => hno⟩
  | some arg =>
    simp only
    split
    · cases hj : getjobjid w.jobs (atoi (arg.toList.drop 1)) with
      | none => exact ⟨h, fun _ => hno⟩
      | some i =>
        obtain ⟨h1, hi, hjid⟩ := getjobjid_some hj
        apply bgfgResume_keeps _ _ _ _ _ h hno
        intro h0
        have := (h.2.1 i hi h0).1
        omega
    · cases hj : getjobpid w.jobs (atoi arg.toList) with
      | none =>
        simp only
        split <;> exact ⟨h, fun _ => hno⟩
      | some i =>
        obtain ⟨h1, _, hi, hpid⟩ := getjobpid_some hj
        apply bgfgResume_keeps _ _ _ _ _ h hno
        omega

theorem builtin_cmd_keeps (w : World) (argv : List String) (os : Env) (h : tableOk w.jobs)
    (hno : noFG w.jobs) :
    tableOk (builtin_cmd w argv os).2.2.jobs ∧
      ((builtin_cmd w argv os).2.1 = .ret → noFG (builtin_cmd w argv os).2.2.jobs) := by
  unfold builtin_cmd
  simp only
  split
  · exact ⟨h, fun _ => hno⟩
  · split
    · simp only [listjobs_jobs]; exact ⟨h, fun _ => hno⟩
    · split
      · exact do_bgfg_keeps w argv _ _ h hno
      · split
        · exact do_bgfg_keeps w argv _ _ h hno
        · exact ⟨h, fun _ => hno⟩

theorem eval_keeps (w : World) (cmdline : List Char) (argv : List String) (bg : Int)
    (os : Env) (h : tableOk w.jobs) (hno : noFG w.jobs) :
    tableOk (eval w cmdline argv bg os).2.jobs ∧
      ((eval w cmdline argv bg os).1 = .ret → noFG (eval w cmdline argv bg os).2.jobs) := by
  unfold eval
  by_cases hargv : argv = []
  · rw [if_pos hargv]; exact ⟨h, fun _ => hno⟩
  rw [if_neg hargv]
  have hk := builtin_cmd_keeps w argv os h hno
  rcases hb : builtin_cmd w argv os with ⟨b, c, w0⟩
  rw [hb] at hk
  simp only at hk
  cases c with
  | exit code => exact ⟨hk.1, fun hc => by cases hc⟩
  | fault => exact ⟨hk.1, fun hc => by cases hc⟩
  | exec => exact ⟨hk.1, fun hc => by cases hc⟩
  | blocked => exact ⟨hk.1, fun hc => by cases hc⟩
  | ret =>
    have hno0 := hk.2 rfl
    have hok0 := hk.1
    simp only
    by_cases hb0 : b = 0
    · rw [if_pos hb0]
      by_cases hneg : os.forkRet < 0
      · rw [if_pos hneg]
        exact ⟨hok0, fun hc => by cases hc⟩
      rw [if_neg hneg]
      by_cases hzero : os.forkRet = 0
      · rw [if_pos hzero]
        by_cases hu : os.unblockChild < 0
        · rw [if_pos hu]; exact ⟨hok0, fun hc => by cases hc⟩
        · rw [if_neg hu]
          by_cases he : os.execveRet < 0
          · rw [if_pos he]; exact ⟨hok0, fun _ => hno0⟩
          · rw [if_neg he]; exact ⟨hok0, fun hc => by cases hc⟩
      rw [if_neg hzero]
      -- the parent
      have hafter : ∀ r : Ctl × World, tableOk r.2.jobs → (r.1 = .ret → noFG r.2.jobs) →
          tableOk (match r with
            | (.ret, w4) =>
              if os.unblockEnd < 0 then
                unix_error (w4.emit .unblock) "Unblocking of signal mask failed"
              else (.ret, w4.emit .unblock)
            | stop => stop).2.jobs ∧
          ((match r with
            | (.ret, w4) =>
              if os.unblockEnd < 0 then
                unix_error (w4.emit .unblock) "Unblocking of signal mask failed"
              else (.ret, w4.emit .unblock)
            | stop => stop).1 = .ret →
          noFG (match r with
            | (.ret, w4) =>
              if os.unblockEnd < 0 then
                unix_error (w4.emit .unblock) "Unblocking of signal mask failed"
              else (.ret, w4.emit .unblock)
            | stop => stop).2.jobs) := by
        intro r hr1 hr2
        obtain ⟨c, w4⟩ := r
        cases c with
        | ret =>
          simp only
          split
          · exact ⟨hr1, fun hc => by cases hc⟩
          · exact ⟨hr1, fun _ => hr2 rfl⟩
        | exit code => exact ⟨hr1, fun hc => by cases hc⟩
        | fault => exact ⟨hr1, fun hc => by cases hc⟩
        | exec => exact ⟨hr1, fun hc => by cases hc⟩
        | blocked => exact ⟨hr1, fun hc => by cases hc⟩
      by_cases hbg : bg = 0
      · have hadd := (tableOk_addjob (w := (w0.emit .block).emit (.fork os.forkRet))
          hok0 hno0 os.forkRet FG cmdline).1
        simp only [if_pos hbg]
        by_cases hu : os.unblockFg < 0
        · rw [if_pos hu]
          exact hafter (unix_error _ "Unblocking of signal mask failed") hadd
            (fun hc => by simp [unix_error] at hc)
        · rw [if_neg hu]
          have hw := waitfgLoop_keeps os.signals
            ((((addjob ((w0.emit .block).emit (.fork os.forkRet)) os.forkRet FG cmdline).2).emit
              .unblock).emit (.waitfgCall os.forkRet)) hadd
          exact hafter _ hw.1 hw.2
      · have hadd := tableOk_addjob (w := (w0.emit .block).emit (.fork os.forkRet))
          hok0 hno0 os.forkRet BG cmdline
        simp only [if_neg hbg]
        cases hj : getjobpid
            (addjob ((w0.emit .block).emit (.fork os.forkRet)) os.forkRet BG cmdline).2.jobs
            os.forkRet with
        | none =>
          exact hafter (.fault, (addjob ((w0.emit .block).emit (.fork os.forkRet))
            os.forkRet BG cmdline).2) hadd.1 (fun hc => by cases hc)
        | some i =>
          exact hafter (.ret, World.emit (addjob ((w0.emit .block).emit (.fork os.forkRet))
            os.forkRet BG cmdline).2 _) hadd.1 (fun _ => hadd.2 (by decide))
    · rw [if_neg hb0]
      exact ⟨hok0, fun _ => hno0⟩

theorem initjobs_zeroJobs_clear :
    ∀ k, k < MAXJOBS → (jobAt (initjobs zeroJobs) k).jid = 0 ∧
      (jobAt (initjobs zeroJobs) k).state = UNDEF := by
  decide

theorem noFG_initWorld (v : Int) : noFG (initWorld v).jobs := by
  intro k hk
  show (jobAt (initjobs zeroJobs) k).state ≠ FG
  rw [(initjobs_zeroJobs_clear k hk).2]
  decide

theorem initjobs_zeroJobs_length : (initjobs zeroJobs).length = MAXJOBS := by
  decide

theorem tableOk_initWorld (v : Int) : tableOk (initWorld v).jobs := by
  refine ⟨initjobs_zeroJobs_length, fun k hk _ => ⟨(initjobs_zeroJobs_clear k hk).1, noFG_initWorld v k hk⟩,
    fun a _ ha _ hsa _ => absurd hsa (noFG_initWorld v a ha)⟩

theorem atMostOneFG_of_tableOk {jobs : List job_t} (h : tableOk jobs) : atMostOneFG jobs :=
  fun i hi j hj h1 h2 => h.2.2 i j hi hj h1.2 h2.2

/-! ## C3: two foreground jobs when a termination interrupts do_bgfg -/

/-- When no signal is delivered between the lookup and the write, the interrupted do_bgfg
is do_bgfg. -/
theorem do_bgfgRacing_nil (w : World) (argv : List String) (killRet : Int)
    (signals : List Turn) :
    do_bgfgRacing w argv killRet signals [] = do_bgfg w argv killRet signals := by
  unfold do_bgfgRacing do_bgfg
  simp only [deliverAll]

/-- A command line of the loop with no signal delivered inside do_bgfg is evaluated by
eval. -/
theorem run_racing_nil (w : World) (cmdline : List Char) (argv : List String) (bg : Int)
    (os : Env) (rest : List Input) :
    run w (.racing cmdline argv bg os [] :: rest) = run w (.command cmdline argv bg os :: rest) := by
  unfold run
  by_cases h : argv.getD 0 "" = "bg" ∨ argv.getD 0 "" = "fg"
  · simp only [if_pos h]
    rw [do_bgfgRacing_nil]
    have hne : argv ≠ [] := by
      intro he
      rw [he] at h
      simp at h
    have hev : eval w cmdline argv bg os = do_bgfg w argv os.killRet os.signals := by
      unfold eval builtin_cmd
      rw [if_neg hne]
      rcases h with h | h
      · simp only [h]
        rcases do_bgfg w argv os.killRet os.signals with ⟨c, w1⟩
        cases c <;> simp
      · simp only [h]
        rcases do_bgfg w argv os.killRet os.signals with ⟨c, w1⟩
        cases c <;> simp
    rw [hev]
  · simp only [if_neg h]

/-- C3: the shell reaches a table with two occupied slots in state FG.  Jobs 1 (pid 100)
and 2 (pid 101) run in the background.  `fg %1` is typed, and job 1 terminates after
`getjobjid` has found its slot and before `job->state = state`: the handler clears slot 0,
do_bgfg then marks the cleared slot FG, and waitfg returns because `fgpid` finds slot 0 and
returns its pid 0.  `fg %2` marks job 2 FG and returns to the prompt for the same reason.
The foreground launch of `cat` (pid 102) then takes slot 0: slots 0 and 1 are both occupied
and FG while the shell waits. -/
theorem racing_fg_leaves_two_foreground_jobs :
    run (initWorld 0) (racingFg.take 3) =
      (.ret, (run (initWorld 0) (racingFg.take 3)).2) ∧
    (jobAt (run (initWorld 0) (racingFg.take 3)).2.jobs 0).pid = 0 ∧
    (jobAt (run (initWorld 0) (racingFg.take 3)).2.jobs 0).state = FG ∧
    (jobAt (run (initWorld 0) (racingFg.take 3)).2.jobs 1).pid = 101 ∧
    (jobAt (run (initWorld 0) (racingFg.take 3)).2.jobs 1).state = BG ∧
    fgpid (run (initWorld 0) (racingFg.take 3)).2.jobs = 0 ∧
    run (initWorld 0) (racingFg.take 4) =
      (.ret, (run (initWorld 0) (racingFg.take 4)).2) ∧
    (jobAt (run (initWorld 0) (racingFg.take 4)).2.jobs 1).pid = 101 ∧
    (jobAt (run (initWorld 0) (racingFg.take 4)).2.jobs 1).state = FG ∧
    (run (initWorld 0) racingFg).1 = .blocked ∧
    (jobAt (run (initWorld 0) racingFg).2.jobs 0).pid = 102 ∧
    (jobAt (run (initWorld 0) racingFg).2.jobs 0).state = FG ∧
    (jobAt (run (initWorld 0) racingFg).2.jobs 1).pid = 101 ∧
    (jobAt (run (initWorld 0) racingFg).2.jobs 1).state = FG ∧
    ¬ atMostOneFG (run (initWorld 0) racingFg).2.jobs := by
  refine ⟨by decide, by decide, by decide, by decide, by decide, by decide, by decide,
    by decide, by decide, by decide, by decide, by decide, by decide, by decide, ?_⟩
  intro h
  exact absurd (h 0 (by decide) 1 (by decide) ⟨by decide, by decide⟩ ⟨by decide, by decide⟩)
    (by decide)

/-! ## The log of actions only grows -/

theorem notBuiltin_cmd {argv : List String} (h : notBuiltin argv) (w : World) (os : Env) :
    builtin_cmd w argv os = (0, .ret, w) := by
  obtain ⟨h1, h2, h3, h4⟩ := h
  unfold builtin_cmd
  simp only
  rw [if_neg h1, if_neg h2, if_neg h3, if_neg h4]

theorem addjob_trace (w : World) (pid state : Int) (cmdline : List Char) :
    ∃ rest, (addjob w pid state cmdline).2.trace = w.trace ++ .addjobCall pid state :: rest := by
  unfold addjob addjobBody
  by_cases hp : pid < 1
  · exact ⟨[], by simp [hp]⟩
  · rw [if_neg hp]
    cases scan (fun j => j.pid == 0) (w.emit (.addjobCall pid state)).jobs with
    | none => exact ⟨[.printf "Tried to create too many jobs\n"], by simp⟩
    | some i =>
      simp only
      by_cases hv : (w.emit (.addjobCall pid state)).verbose ≠ 0
      · rw [if_pos hv]; exact ⟨_, by simp only [World.emit, List.append_assoc]; rfl⟩
      · rw [if_neg hv]; exact ⟨[], by simp [World.emit]⟩

theorem deletejob_trace (w : World) (pid : Int) : (deletejob w pid).2.trace = w.trace := by
  rcases deletejob_cases w pid with ⟨_, h2, _⟩ | ⟨i, _, _, _, h4⟩
  · rw [h2]
  · rw [h4]

theorem sigchldBody_trace (w : World) (pid : Int) (status : Status) :
    w.trace <+: (sigchldBody w pid status).2.trace := by
  cases status with
  | stopped n =>
    cases hj : getjobpid w.jobs pid with
    | none => simp [sigchldBody, hj]
    | some i => simp [sigchldBody, hj, World.emit]
  | signaled n =>
    cases hj : getjobpid w.jobs pid with
    | none => simp [sigchldBody, hj]
    | some i => simp [sigchldBody, hj, deletejob_trace]
  | exited c => simp [sigchldBody, deletejob_trace]

theorem unix_error_trace (w : World) (msg : String) :
    w.trace <+: (unix_error w msg).2.trace := by
  simp [unix_error]

theorem sigchld_handler_trace :
    ∀ (waits : List (Int × Status)) (w : World), w.trace <+: (sigchld_handler w waits).2.trace := by
  intro waits
  induction waits with
  | nil => intro w; exact List.prefix_refl _
  | cons a rest ih =>
    intro w
    obtain ⟨pid, status⟩ := a
    unfold sigchld_handler
    by_cases hp : pid > 0
    · rw [if_pos hp]
      have hb := sigchldBody_trace w pid status
      rcases hr : sigchldBody w pid status with ⟨c, w1⟩
      rw [hr] at hb
      cases c with
      | ret => exact hb.trans (ih w1)
      | exit code => exact hb
      | fault => exact hb
      | exec => exact hb
      | blocked => exact hb
    · rw [if_neg hp]
      split
      · exact unix_error_trace _ _
      · exact List.prefix_refl _

theorem deliver_trace (w : World) (sig : Signal) : w.trace <+: (deliver w sig).2.trace := by
  cases sig with
  | chld waits => exact sigchld_handler_trace waits w
  | int k =>
    simp only [deliver, sigint_handler]
    split
    · split
      · exact (List.prefix_append w.trace [_]).trans (unix_error_trace (w.emit _) _)
      · exact List.prefix_append _ _
    · exact List.prefix_refl _
  | tstp k =>
    simp only [deliver, sigtstp_handler]
    split
    · split
      · exact (List.prefix_append w.trace [_]).trans (unix_error_trace (w.emit _) _)
      · exact List.prefix_append _ _
    · exact List.prefix_refl _

theorem waitfgLoop_trace (signals : List Turn) (w : World) :
    w.trace <+: (waitfgLoop w signals).2.trace :=
  waitfgLoop_inv (fun x => w.trace <+: x.trace)
    (fun x sig hx => hx.trans (deliver_trace x sig))
    (fun _ hx => hx.trans (List.prefix_append _ _)) signals w (List.prefix_refl _)

theorem waitfg_trace (w : World) (pid : Int) (signals : List Turn) :
    ∃ rest, (waitfg w pid signals).2.trace = w.trace ++ .waitfgCall pid :: rest := by
  obtain ⟨rest, h⟩ := waitfgLoop_trace signals (w.emit (.waitfgCall pid))
  exact ⟨rest, by unfold waitfg; rw [← h]; simp⟩

/-! ## C8: the order of fork, addjob and the signal mask in eval -/

/-- C8: among the actions eval performs for a command that is not a built-in, SIGCHLD is
blocked and then fork is called; in the parent (fork returned a pid > 0) the next action
is the call of addjob for that pid, with state FG for a foreground and BG for a background
command, so that every unblocking of SIGCHLD and every call of waitfg by this eval comes
after it. -/
theorem eval_registers_job_before_unblocking (w : World) (cmdline : List Char)
    (argv : List String) (bg : Int) (os : Env) (hargv : argv ≠ []) (hnb : notBuiltin argv) :
    (∃ rest, (eval w cmdline argv bg os).2.trace =
        w.trace ++ [.block, .fork os.forkRet] ++ rest) ∧
    (0 < os.forkRet → ∃ rest, (eval w cmdline argv bg os).2.trace =
        w.trace ++ [.block, .fork os.forkRet,
          .addjobCall os.forkRet (if bg = 0 then FG else BG)] ++ rest) := by
  have hafter : ∀ r : Ctl × World, r.2.trace <+: (match r with
      | (.ret, w4) =>
        if os.unblockEnd < 0 then
          unix_error (w4.emit .unblock) "Unblocking of signal mask failed"
        else (.ret, w4.emit .unblock)
      | stop => stop).2.trace := by
    intro r
    obtain ⟨c, w4⟩ := r
    cases c with
    | ret =>
      simp only
      split
      · exact (List.prefix_append w4.trace [_]).trans (unix_error_trace (w4.emit _) _)
      · exact List.prefix_append _ _
    | exit code => exact List.prefix_refl _
    | fault => exact List.prefix_refl _
    | exec => exact List.prefix_refl _
    | blocked => exact List.prefix_refl _
  have hparent : 0 < os.forkRet → ∃ rest, (eval w cmdline argv bg os).2.trace =
      w.trace ++ [.block, .fork os.forkRet,
        .addjobCall os.forkRet (if bg = 0 then FG else BG)] ++ rest := by
    intro hpos
    suffices hpre : (w.trace ++ [.block, .fork os.forkRet,
        .addjobCall os.forkRet (if bg = 0 then FG else BG)]) <+:
        (eval w cmdline argv bg os).2.trace by
      obtain ⟨r, hr⟩ := hpre
      exact ⟨r, hr.symm⟩
    have hneg : ¬ os.forkRet < 0 := by omega
    have hzero : ¬ os.forkRet = 0 := by omega
    unfold eval
    rw [if_neg hargv, notBuiltin_cmd hnb]
    simp only [if_true]
    rw [if_neg hneg, if_neg hzero]
    by_cases hbg : bg = 0
    · obtain ⟨r1, h1⟩ := addjob_trace ((w.emit .block).emit (.fork os.forkRet)) os.forkRet FG
        cmdline
      simp only [if_pos hbg]
      have hstart : (w.trace ++ [.block, .fork os.forkRet, .addjobCall os.forkRet FG]) <+:
          (((addjob ((w.emit .block).emit (.fork os.forkRet)) os.forkRet FG cmdline).2).emit
            .unblock).trace := by
        rw [emit_trace, h1]
        exact ⟨r1 ++ [.unblock], by simp⟩
      by_cases hu : os.unblockFg < 0
      · rw [if_pos hu]
        exact (hstart.trans (unix_error_trace _ _)).trans
          (hafter (unix_error _ "Unblocking of signal mask failed"))
      · rw [if_neg hu]
        obtain ⟨r2, h2⟩ := waitfg_trace
          (((addjob ((w.emit .block).emit (.fork os.forkRet)) os.forkRet FG cmdline).2).emit
            .unblock) os.forkRet os.signals
        exact (hstart.trans ⟨_, h2.symm⟩).trans (hafter (waitfg _ os.forkRet os.signals))
    · obtain ⟨r1, h1⟩ := addjob_trace ((w.emit .block).emit (.fork os.forkRet)) os.forkRet BG
        cmdline
      simp only [if_neg hbg]
      have hstart : (w.trace ++ [.block, .fork os.forkRet, .addjobCall os.forkRet BG]) <+:
          (addjob ((w.emit .block).emit (.fork os.forkRet)) os.forkRet BG cmdline).2.trace := by
        rw [h1]
        exact ⟨r1, by simp⟩
      cases hj : getjobpid
          (addjob ((w.emit .block).emit (.fork os.forkRet)) os.forkRet BG cmdline).2.jobs
          os.forkRet with
      | none =>
        exact hstart.trans (hafter (.fault, (addjob ((w.emit .block).emit (.fork os.forkRet))
          os.forkRet BG cmdline).2))
      | some i =>
        exact (hstart.trans (List.prefix_append _ [_])).trans
          (hafter (.ret, World.emit (addjob ((w.emit .block).emit (.fork os.forkRet))
            os.forkRet BG cmdline).2 _))
  refine ⟨?_, hparent⟩
  by_cases hpos : 0 < os.forkRet
  · obtain ⟨rest, h⟩ := hparent hpos
    exact ⟨.addjobCall os.forkRet (if bg = 0 then FG else BG) :: rest, by rw [h]; simp⟩
  · unfold eval
    rw [if_neg hargv, notBuiltin_cmd hnb]
    simp only [if_true]
    by_cases hneg : os.forkRet < 0
    · rw [if_pos hneg]
      exact ⟨_, by simp only [unix_error, emit_trace, List.append_assoc]; rfl⟩
    · have hzero : os.forkRet = 0 := by omega
      rw [if_neg hneg, if_pos hzero]
      by_cases hu : os.unblockChild < 0
      · rw [if_pos hu]
        exact ⟨_, by simp only [unix_error, emit_trace, List.append_assoc]; rfl⟩
      · rw [if_neg hu]
        by_cases he : os.execveRet < 0
        · rw [if_pos he]
          exact ⟨_, by simp only [emit_trace, List.append_assoc]; rfl⟩
        · rw [if_neg he]
          exact ⟨_, by simp only [emit_trace, List.append_assoc]; rfl⟩

/-- C8 on a foreground `ls` whose child 100 is reaped while the shell waits for it. -/
theorem eval_registers_job_before_unblocking_witness :
    ["ls"] ≠ [] ∧ notBuiltin ["ls"] ∧
    (eval (initWorld 0) "ls\n".toList ["ls"] 0
      ⟨100, 0, 0, 0, 0, 0, [.wake (.chld [(100, .exited 0)])]⟩).2.trace =
      [.block, .fork 100, .addjobCall 100 FG, .unblock, .waitfgCall 100, .sigsuspend,
        .unblock] ∧
    ∃ rest, (eval (initWorld 0) "ls\n".toList ["ls"] 0
      ⟨100, 0, 0, 0, 0, 0, [.wake (.chld [(100, .exited 0)])]⟩).2.trace =
      (initWorld 0).trace ++ [.block, .fork 100, .addjobCall 100 (if (0 : Int) = 0 then FG else BG)]
        ++ rest :=
  ⟨by decide, by decide, by decide,
    (eval_registers_job_before_unblocking (initWorld 0) "ls\n".toList ["ls"] 0
      ⟨100, 0, 0, 0, 0, 0, [.wake (.chld [(100, .exited 0)])]⟩ (by decide) (by decide)).2 (by decide)⟩

/-! ## C2: a failed execve in the child -/

/-- C2 fails on the code: for every command that is not a built-in, when execve fails in
the forked child (fork returned 0), eval prints "argv[0]: Command not found" and then
returns to its caller, the read/eval loop of main, with the copy of the job table
untouched; it does not end the child process. -/
theorem eval_child_returns_after_failed_execve (w : World) (cmdline : List Char)
    (argv : List String) (bg : Int) (os : Env) (hargv : argv ≠ []) (hnb : notBuiltin argv)
    (hfork : os.forkRet = 0) (hunblock : 0 ≤ os.unblockChild) (hexec : os.execveRet < 0) :
    eval w cmdline argv bg os =
      (.ret, { w with trace := w.trace ++ [.block, .fork 0, .setpgid, .unblock,
        .execve (argv.getD 0 "") os.execveRet,
        .printf (argv.getD 0 "" ++ ": Command not found\n")] }) := by
  have hneg : ¬ os.forkRet < 0 := by omega
  have hu : ¬ os.unblockChild < 0 := by omega
  unfold eval
  rw [if_neg hargv, notBuiltin_cmd hnb]
  simp only [if_true]
  rw [if_neg hneg, if_pos hfork, if_neg hu, if_pos hexec, hfork]
  simp [World.emit]

/-- C2 on the command line "./nosuch": the child is back in the read/eval loop, and the
next line it reads ("jobs") is run by it as a second shell. -/
theorem eval_child_returns_after_failed_execve_witness :
    ["./nosuch"] ≠ [] ∧ notBuiltin ["./nosuch"] ∧
    eval (initWorld 0) "./nosuch\n".toList ["./nosuch"] 0 ⟨0, 0, -1, 0, 0, 0, []⟩ =
      (.ret, { initWorld 0 with trace := (initWorld 0).trace ++ [.block, .fork 0, .setpgid,
        .unblock, .execve ((["./nosuch"] : List String).getD 0 "") (-1),
        .printf ((["./nosuch"] : List String).getD 0 "" ++ ": Command not found\n")] }) ∧
    (run (initWorld 0)
      [.command "./nosuch\n".toList ["./nosuch"] 0 ⟨0, 0, -1, 0, 0, 0, []⟩,
       .command "jobs\n".toList ["jobs"] 0 ⟨0, 0, 0, 0, 0, 0, []⟩]).1 = .ret :=
  ⟨by decide, by decide,
    eval_child_returns_after_failed_execve (initWorld 0) "./nosuch\n".toList ["./nosuch"] 0
      ⟨0, 0, -1, 0, 0, 0, []⟩ (by decide) (by decide) rfl (by decide) (by decide),
    by decide⟩

/-! ## C5: a launch on a full table -/

theorem addjob_full {w : World} (hfull : ∀ i, i < MAXJOBS → (jobAt w.jobs i).pid ≠ 0)
    (pid state : Int) (cmdline : List Char) :
    (addjob w pid state cmdline).2.jobs = w.jobs := by
  rcases addjob_cases w pid state cmdline with ⟨_, h2, _⟩ | ⟨i, hs, _⟩
  · exact h2
  · obtain ⟨h1, h2, _⟩ := scan_some hs
    exact absurd (by simpa using h2) (hfull i h1)

/-- C5 fails on the code for a background command: when all 16 slots are occupied and
fork returns the pid of the new child (a pid that is in no slot), eval for a command that
is not a built-in and has bg != 0 leaves the table unchanged, but getjobpid(jobs, pid)
yields NULL and eval dereferences it instead of returning to the command loop. -/
theorem eval_background_on_full_table_faults (w : World) (cmdline : List Char)
    (argv : List String) (bg : Int) (os : Env) (hargv : argv ≠ []) (hnb : notBuiltin argv)
    (hfull : ∀ i, i < MAXJOBS → (jobAt w.jobs i).pid ≠ 0) (hfork : 0 < os.forkRet)
    (hnew : getjobpid w.jobs os.forkRet = none) (hbg : bg ≠ 0) :
    (eval w cmdline argv bg os).1 = .fault ∧
    (eval w cmdline argv bg os).2.jobs = w.jobs ∧
    (eval w cmdline argv bg os).2.nextjid = w.nextjid ∧
    getjobpid (addjob ((w.emit .block).emit (.fork os.forkRet)) os.forkRet BG cmdline).2.jobs
      os.forkRet = none := by
  have hneg : ¬ os.forkRet < 0 := by omega
  have hzero : ¬ os.forkRet = 0 := by omega
  have hjobs : (addjob ((w.emit .block).emit (.fork os.forkRet)) os.forkRet BG cmdline).2.jobs
      = w.jobs := addjob_full (w := (w.emit .block).emit (.fork os.forkRet)) hfull _ _ _
  have hnext : (addjob ((w.emit .block).emit (.fork os.forkRet)) os.forkRet BG cmdline).2.nextjid
      = w.nextjid := by
    rcases addjob_cases ((w.emit .block).emit (.fork os.forkRet)) os.forkRet BG cmdline with
      ⟨_, _, h3, _⟩ | ⟨i, hs, _⟩
    · exact h3
    · obtain ⟨h1, h2, _⟩ := scan_some hs
      exact absurd (by simpa using h2) (hfull i h1)
  have hlook : getjobpid
      (addjob ((w.emit .block).emit (.fork os.forkRet)) os.forkRet BG cmdline).2.jobs
      os.forkRet = none := by rw [hjobs]; exact hnew
  have heval : eval w cmdline argv bg os =
      (.fault, (addjob ((w.emit .block).emit (.fork os.forkRet)) os.forkRet BG cmdline).2) := by
    unfold eval
    rw [if_neg hargv, notBuiltin_cmd hnb]
    simp only [if_true]
    rw [if_neg hneg, if_neg hzero]
    simp only [if_neg hbg, hlook]
  rw [heval]
  exact ⟨rfl, hjobs, hnext, hlook⟩

/-- Sixteen adds of pids 1..16 to the fresh table occupy every slot. -/
theorem fullTable_is_full :
    ∀ i, i < MAXJOBS → (jobAt (applyOps (initWorld 0)
      ((List.range 16).map (fun i => JobOp.add (i + 1) BG "sleep 5 &\n".toList))).jobs i).pid ≠ 0 := by
  decide

/-- C5 on the table that sixteen background jobs with pids 1..16 fill, for the command
line "sleep 5 &" whose child gets pid 17. -/
theorem eval_background_on_full_table_faults_witness :
    (eval (applyOps (initWorld 0)
        ((List.range 16).map (fun i => JobOp.add (i + 1) BG "sleep 5 &\n".toList)))
      "sleep 5 &\n".toList ["sleep", "5"] 1 ⟨17, 0, 0, 0, 0, 0, []⟩).1 = .fault :=
  (eval_background_on_full_table_faults _ "sleep 5 &\n".toList ["sleep", "5"] 1
    ⟨17, 0, 0, 0, 0, 0, []⟩ (by decide) (by decide) fullTable_is_full (by decide) (by decide)
    (by decide)).1

/-! ## C6: the process group that fg/bg continue -/

theorem bgfgResume_trace (w : World) (state : Int) (i : Nat) (killRet : Int)
    (signals : List Turn) :
    ∃ rest, (bgfgResume w state i killRet signals).2.trace =
      w.trace ++
        (if state = BG then
          [Action.printf ("[" ++ fmtd (jobAt w.jobs i).jid ++ "] (" ++ fmtd (jobAt w.jobs i).pid
            ++ ") " ++ fmts (jobAt w.jobs i).cmdline)]
         else []) ++
        [.kill (-1 * (jobAt w.jobs i).jid) SIGCONT] ++ rest := by
  unfold bgfgResume
  simp only
  by_cases hk : killRet < 0
  · rw [if_pos hk]
    by_cases hs : state = BG
    · simp only [if_pos hs]
      exact ⟨_, by simp only [unix_error, emit_trace, List.append_assoc]; rfl⟩
    · simp only [if_neg hs]
      exact ⟨_, by simp only [unix_error, emit_trace, List.append_assoc]; rfl⟩
  · rw [if_neg hk]
    by_cases hf : state = FG
    · have hs : ¬ state = BG := by rw [hf]; decide
      rw [if_pos hf]
      simp only [if_neg hs]
      obtain ⟨r, hr⟩ := waitfg_trace
        (World.emit { w with jobs := w.jobs.set i { jobAt w.jobs i with state := state } }
          (.kill (-1 * (jobAt w.jobs i).jid) SIGCONT)) (jobAt w.jobs i).pid signals
      exact ⟨_, by rw [hr]; simp only [emit_trace, List.append_assoc, List.append_nil]; rfl⟩
    · rw [if_neg hf]
      by_cases hs : state = BG
      · simp only [if_pos hs]
        exact ⟨[], by simp⟩
      · simp only [if_neg hs]
        exact ⟨[], by simp⟩

/-- C6 fails on the code: for every selector that resolves to a job J (slot i), the kill
that do_bgfg sends SIGCONT with, right after setting the state and announcing a background
job, has the target -1 * J.jid, the negated job id, not the negated pid that names the
process group the launcher created for J. -/
theorem do_bgfg_signals_minus_jid (w : World) (cmd arg : String) (i : Nat) (killRet : Int)
    (signals : List Turn) (hres : resolves w.jobs arg i) :
    ∃ rest, (do_bgfg w [cmd, arg] killRet signals).2.trace =
      w.trace ++
        (if cmd = "bg" then
          [Action.printf ("[" ++ fmtd (jobAt w.jobs i).jid ++ "] (" ++ fmtd (jobAt w.jobs i).pid
            ++ ") " ++ fmts (jobAt w.jobs i).cmdline)]
         else []) ++
        [.kill (-1 * (jobAt w.jobs i).jid) SIGCONT] ++ rest := by
  have hstate : ((if cmd = "bg" then BG else FG) = BG) ↔ cmd = "bg" := by
    by_cases hc : cmd = "bg"
    · simp [hc]
    · simp [hc, FG, BG]
  have hresume : do_bgfg w [cmd, arg] killRet signals =
      bgfgResume w (if cmd = "bg" then BG else FG) i killRet signals := by
    unfold resolves at hres
    unfold do_bgfg
    simp only [List.get?_eq_getElem?, List.getElem?_cons_succ, List.getElem?_cons_zero,
      List.getD_cons_zero]
    by_cases hj : arg.toList.head? = some '%'
    · rw [if_pos hj] at hres ⊢
      rw [hres]
    · rw [if_neg hj] at hres ⊢
      rw [hres]
  rw [hresume]
  obtain ⟨rest, h⟩ := bgfgResume_trace w (if cmd = "bg" then BG else FG) i killRet signals
  refine ⟨rest, ?_⟩
  rw [h]
  by_cases hc : cmd = "bg"
  · rw [if_pos (hstate.2 hc), if_pos hc]
  · rw [if_neg (fun h => hc (hstate.1 h)), if_neg hc]

/-- C6 on the shell that has launched "sleep 5 &" as pid 100 (job 1, process group 100):
"bg %1" sends SIGCONT to target -1, that is to every process the shell may signal. -/
theorem do_bgfg_signals_minus_jid_witness :
    resolves (run (initWorld 0) launchSleep).2.jobs "%1" 0 ∧
    (jobAt (run (initWorld 0) launchSleep).2.jobs 0).pid = 100 ∧
    (do_bgfg (run (initWorld 0) launchSleep).2 ["bg", "%1"] 0 []).2.trace =
      [.block, .fork 100, .addjobCall 100 BG, .printf "[1] (100) sleep 5 &\n", .unblock,
        .printf "[1] (100) sleep 5 &\n", .kill (-1) SIGCONT] ∧
    ∃ rest, (do_bgfg (run (initWorld 0) launchSleep).2 ["bg", "%1"] 0 []).2.trace =
      (run (initWorld 0) launchSleep).2.trace ++
      (if "bg" = "bg" then
        [Action.printf ("[" ++ fmtd (jobAt (run (initWorld 0) launchSleep).2.jobs 0).jid
          ++ "] (" ++ fmtd (jobAt (run (initWorld 0) launchSleep).2.jobs 0).pid
          ++ ") " ++ fmts (jobAt (run (initWorld 0) launchSleep).2.jobs 0).cmdline)]
       else []) ++
      [.kill (-1 * (jobAt (run (initWorld 0) launchSleep).2.jobs 0).jid) SIGCONT] ++ rest :=
  ⟨by decide, by decide, by decide,
    do_bgfg_signals_minus_jid _ "bg" "%1" 0 0 [] (by decide)⟩

/-! ## C7: the exit condition of the wait gate -/

theorem scanFrom_congr {p : job_t → Bool} {jobs jobs1 : List job_t}
    (h : ∀ k, p (jobAt jobs1 k) = p (jobAt jobs k)) :
    ∀ (n i : Nat), scanFrom p jobs1 n i = scanFrom p jobs n i := by
  intro n
  induction n with
  | zero => intro i; rfl
  | succ n ih => intro i; simp only [scanFrom, h, ih]

theorem getjobpid_set_state (jobs : List job_t) (i : Nat) (state pid : Int) :
    getjobpid (jobs.set i { jobAt jobs i with state := state }) pid = getjobpid jobs pid := by
  unfold getjobpid scan
  rw [scanFrom_congr]
  intro k
  rw [jobAt_set]
  by_cases h1 : k = i ∧ i < jobs.length
  · rw [if_pos h1, h1.1]
  · rw [if_neg h1]

theorem fgpid_set_fg {jobs : List job_t} (hno : noFG jobs) {i : Nat} (hi : i < MAXJOBS)
    (hlen : jobs.length = MAXJOBS) :
    fgpid (jobs.set i { jobAt jobs i with state := FG }) = (jobAt jobs i).pid := by
  have hs : scan (fun j => j.state == FG) (jobs.set i { jobAt jobs i with state := FG })
      = some i := by
    apply scan_eq_some hi
    · rw [jobAt_set_self _ _ (by omega)]
      simp
    · intro m hm
      rw [jobAt_set_ne _ _ (by omega)]
      simpa using hno m (by omega)
  unfold fgpid
  rw [hs]
  simp only
  rw [jobAt_set_self _ _ (by omega)]

theorem sigchld_handler_stopped {w : World} {p : Int} {i : Nat}
    (hjob : getjobpid w.jobs p = some i) (n : Int) :
    sigchld_handler w [(p, .stopped n)] =
      (.ret, ({ w with jobs := w.jobs.set i { jobAt w.jobs i with state := ST } } : World).emit
        (.write ("Job [" ++ fmtd (jobAt w.jobs i).jid ++ "] (" ++ fmtd (jobAt w.jobs i).pid
          ++ ") stopped by signal " ++ fmtd n ++ "\n"))) := by
  have hpos : p > 0 := by have := (getjobpid_some hjob).1; omega
  simp [sigchld_handler, sigchldBody, hpos, hjob]

theorem do_bgfg_resolved {w : World} {arg : String} {i : Nat} (hres : resolves w.jobs arg i)
    (cmd : String) (killRet : Int) (signals : List Turn) :
    do_bgfg w [cmd, arg] killRet signals =
      bgfgResume w (if cmd = "bg" then BG else FG) i killRet signals := by
  unfold resolves at hres
  unfold do_bgfg
  simp only [List.get?_eq_getElem?, List.getElem?_cons_succ, List.getElem?_cons_zero,
    List.getD_cons_zero]
  by_cases hj : arg.toList.head? = some '%'
  · rw [if_pos hj] at hres ⊢
    rw [hres]
  · rw [if_neg hj] at hres ⊢
    rw [hres]

theorem deliver_not_blocked (w : World) (sig : Signal) : (deliver w sig).1 ≠ .blocked := by
  cases sig with
  | chld waits =>
    simp only [deliver]
    induction waits generalizing w with
    | nil => simp [sigchld_handler]
    | cons a rest ih =>
      obtain ⟨pid, status⟩ := a
      unfold sigchld_handler
      by_cases hp : pid > 0
      · rw [if_pos hp]
        have hb : (sigchldBody w pid status).1 = .ret ∨ (sigchldBody w pid status).1 = .fault := by
          unfold sigchldBody
          cases status with
          | stopped n => cases getjobpid w.jobs pid <;> simp
          | signaled n => cases getjobpid w.jobs pid <;> simp
          | exited c => simp
        rcases hr : sigchldBody w pid status with ⟨c, w1⟩
        rw [hr] at hb
        rcases hb with hb | hb
        · simp only at hb; subst hb; exact ih w1
        · simp only at hb; subst hb; simp
      · rw [if_neg hp]
        split <;> simp [unix_error]
  | int k =>
    simp only [deliver, sigint_handler]
    split
    · split <;> simp [unix_error]
    · simp
  | tstp k =>
    simp only [deliver, sigtstp_handler]
    split
    · split <;> simp [unix_error]
    · simp

/-- With no foreground job and no signal delivered before its first test, the gate returns
at once. -/
theorem waitfgLoop_idle {w : World} (hfg : fgpid w.jobs = 0) (signals : List Turn)
    (hquiet : ∀ turn ∈ signals.head?, turn.before = []) :
    waitfgLoop w signals = (.ret, w) := by
  cases signals with
  | nil => unfold waitfgLoop; rw [if_neg (by simpa using hfg)]
  | cons turn rest =>
    have hb : turn.before = [] := hquiet turn (by simp)
    unfold waitfgLoop
    rw [hb]
    simp only [deliverAll]
    rw [if_neg (by simpa using hfg)]

theorem fgpid_set_first_fg {jobs : List job_t} {i : Nat} (hi : i < MAXJOBS)
    (hlen : jobs.length = MAXJOBS) (hno : ∀ m, m < i → (jobAt jobs m).state ≠ FG) :
    fgpid (jobs.set i { jobAt jobs i with state := FG }) = (jobAt jobs i).pid := by
  have hs : scan (fun j => j.state == FG) (jobs.set i { jobAt jobs i with state := FG })
      = some i := by
    apply scan_eq_some hi
    · rw [jobAt_set_self _ _ (by omega)]
      simp
    · intro m hm
      rw [jobAt_set_ne _ _ (by omega)]
      simpa using hno m hm
  unfold fgpid
  rw [hs]
  simp only
  rw [jobAt_set_self _ _ (by omega)]

/-- The gate that sleeps when the stop notification arrives returns. -/
theorem waitfgLoop_stop_asleep {w : World} {p : Int} {i : Nat} (n : Int)
    (hfg : fgpid w.jobs ≠ 0) (hjob : getjobpid w.jobs p = some i)
    (hst : fgpid (w.jobs.set i { jobAt w.jobs i with state := ST }) = 0) :
    waitfgLoop w [.wake (.chld [(p, .stopped n)])] =
      (.ret, ({ w.emit .sigsuspend with
          jobs := w.jobs.set i { jobAt w.jobs i with state := ST } } : World).emit
        (.write ("Job [" ++ fmtd (jobAt w.jobs i).jid ++ "] (" ++ fmtd (jobAt w.jobs i).pid
          ++ ") stopped by signal " ++ fmtd n ++ "\n"))) := by
  unfold waitfgLoop
  simp only [Turn.wake, deliverAll]
  rw [if_pos hfg]
  simp only [deliver]
  rw [sigchld_handler_stopped (i := i) (by simpa using hjob)]
  simp only [emit_jobs]
  rw [waitfgLoop_idle (by simpa using hst) [] (by simp)]

/-- The gate that has tested and not yet called sigsuspend when the stop notification
arrives sleeps, with no signal left to wake it. -/
theorem waitfgLoop_stop_early {w : World} {p : Int} {i : Nat} (n : Int)
    (hfg : fgpid w.jobs ≠ 0) (hjob : getjobpid w.jobs p = some i) :
    waitfgLoop w [⟨[], [.chld [(p, .stopped n)]], none⟩] =
      (.blocked, (({ w with
          jobs := w.jobs.set i { jobAt w.jobs i with state := ST } } : World).emit
        (.write ("Job [" ++ fmtd (jobAt w.jobs i).jid ++ "] (" ++ fmtd (jobAt w.jobs i).pid
          ++ ") stopped by signal " ++ fmtd n ++ "\n"))).emit .sigsuspend) := by
  unfold waitfgLoop
  simp only [deliverAll]
  rw [if_pos hfg]
  simp only [deliver]
  rw [sigchld_handler_stopped (i := i) hjob]

/-- C7 fails on the code: waitfg does test "no job is Foreground" (it returns only from a
loop test that found fgpid(jobs) = 0, whatever its pid argument and the signals, and at
once when that holds at its first test), but it does not suspend exactly while
fgpid(jobs) != 0.  For a job J of the table (slot i, found by the selector and by its pid;
no other slot FG) that is resumed with fg: when the stop notification for J is delivered
while sigsuspend sleeps, the gate returns with J still in the table in state ST, as the
claim says; when it is delivered after the loop test and before sigsuspend, the handler
marks J stopped, no job is Foreground, and the gate sleeps all the same. -/
theorem waitfg_sleeps_after_early_notification (w : World) (arg : String) (i : Nat)
    (n killRet : Int)
    (hlen : w.jobs.length = MAXJOBS)
    (hres : resolves w.jobs arg i)
    (hpid : getjobpid w.jobs (jobAt w.jobs i).pid = some i)
    (hno : ∀ k, k < MAXJOBS → k ≠ i → (jobAt w.jobs k).state ≠ FG)
    (hkill : 0 ≤ killRet) :
    (∀ (w0 : World) (pid : Int) (signals : List Turn),
      (waitfg w0 pid signals).1 = .ret → fgpid (waitfg w0 pid signals).2.jobs = 0) ∧
    (∀ (w0 : World) (pid : Int) (signals : List Turn), fgpid w0.jobs = 0 →
      (∀ turn ∈ signals.head?, turn.before = []) →
      waitfg w0 pid signals = (.ret, w0.emit (.waitfgCall pid))) ∧
    (do_bgfg w ["fg", arg] killRet [.wake (.chld [((jobAt w.jobs i).pid, .stopped n)])]).1
      = .ret ∧
    fgpid (do_bgfg w ["fg", arg] killRet
      [.wake (.chld [((jobAt w.jobs i).pid, .stopped n)])]).2.jobs = 0 ∧
    getjobpid (do_bgfg w ["fg", arg] killRet
      [.wake (.chld [((jobAt w.jobs i).pid, .stopped n)])]).2.jobs (jobAt w.jobs i).pid
      = some i ∧
    (jobAt (do_bgfg w ["fg", arg] killRet
      [.wake (.chld [((jobAt w.jobs i).pid, .stopped n)])]).2.jobs i).state = ST ∧
    (do_bgfg w ["fg", arg] killRet
      [⟨[], [.chld [((jobAt w.jobs i).pid, .stopped n)]], none⟩]).1 = .blocked ∧
    fgpid (do_bgfg w ["fg", arg] killRet
      [⟨[], [.chld [((jobAt w.jobs i).pid, .stopped n)]], none⟩]).2.jobs = 0 ∧
    getjobpid (do_bgfg w ["fg", arg] killRet
      [⟨[], [.chld [((jobAt w.jobs i).pid, .stopped n)]], none⟩]).2.jobs (jobAt w.jobs i).pid
      = some i ∧
    (jobAt (do_bgfg w ["fg", arg] killRet
      [⟨[], [.chld [((jobAt w.jobs i).pid, .stopped n)]], none⟩]).2.jobs i).state = ST := by
  obtain ⟨hp1, _, hi, _⟩ := getjobpid_some hpid
  have hnk : ¬ killRet < 0 := by omega
  -- the table after `job->state = FG`
  have hfg : fgpid (w.jobs.set i { jobAt w.jobs i with state := FG }) = (jobAt w.jobs i).pid :=
    fgpid_set_first_fg hi hlen (fun m hm => hno m (by omega) (by omega))
  have hfg0 : fgpid (w.jobs.set i { jobAt w.jobs i with state := FG }) ≠ 0 := by
    rw [hfg]; omega
  -- the table after the handler has set the state ST
  have hnoS : noFG ((w.jobs.set i { jobAt w.jobs i with state := FG }).set i
      { jobAt (w.jobs.set i { jobAt w.jobs i with state := FG }) i with state := ST }) := by
    intro k hk
    rw [jobAt_set]
    by_cases h1 : k = i ∧ i < (w.jobs.set i { jobAt w.jobs i with state := FG }).length
    · rw [if_pos h1]; exact (by decide : ST ≠ FG)
    · rw [if_neg h1, jobAt_set]
      by_cases h2 : k = i ∧ i < w.jobs.length
      · exact absurd ⟨h2.1, by simpa using h2.2⟩ h1
      · rw [if_neg h2]
        exact hno k hk (fun hki => h2 ⟨hki, by omega⟩)
  have hpidS : getjobpid ((w.jobs.set i { jobAt w.jobs i with state := FG }).set i
      { jobAt (w.jobs.set i { jobAt w.jobs i with state := FG }) i with state := ST })
      (jobAt w.jobs i).pid = some i := by
    rw [getjobpid_set_state, getjobpid_set_state]
    exact hpid
  have hstS : (jobAt ((w.jobs.set i { jobAt w.jobs i with state := FG }).set i
      { jobAt (w.jobs.set i { jobAt w.jobs i with state := FG }) i with state := ST })
      i).state = ST := by
    rw [jobAt_set_self _ _ (by rw [List.length_set]; omega)]
  have hresume : ∀ signals, do_bgfg w ["fg", arg] killRet signals =
      waitfgLoop (((World.emit { w with jobs := w.jobs.set i { jobAt w.jobs i with state := FG } }
        (.kill (-1 * (jobAt w.jobs i).jid) SIGCONT))).emit (.waitfgCall (jobAt w.jobs i).pid))
        signals := by
    intro signals
    rw [do_bgfg_resolved hres]
    have hcmd : ¬ ("fg" : String) = "bg" := by decide
    have hne : ¬ FG = BG := by decide
    rw [if_neg hcmd]
    unfold bgfgResume waitfg
    simp only [if_neg hne, if_neg hnk, if_true]
  have hasleep := waitfgLoop_stop_asleep
    (w := ((World.emit { w with jobs := w.jobs.set i { jobAt w.jobs i with state := FG } }
      (.kill (-1 * (jobAt w.jobs i).jid) SIGCONT))).emit (.waitfgCall (jobAt w.jobs i).pid))
    (p := (jobAt w.jobs i).pid) (i := i) n (by simpa using hfg0)
    (by simp only [emit_jobs]; rw [getjobpid_set_state]; exact hpid)
    (by simp only [emit_jobs]; exact fgpid_of_noFG hnoS)
  have hearly := waitfgLoop_stop_early
    (w := ((World.emit { w with jobs := w.jobs.set i { jobAt w.jobs i with state := FG } }
      (.kill (-1 * (jobAt w.jobs i).jid) SIGCONT))).emit (.waitfgCall (jobAt w.jobs i).pid))
    (p := (jobAt w.jobs i).pid) (i := i) n (by simpa using hfg0)
    (by simp only [emit_jobs]; rw [getjobpid_set_state]; exact hpid)
  refine ⟨fun w0 pid signals => ?_, fun w0 pid signals h0 hq => ?_, ?_, ?_, ?_, ?_, ?_, ?_, ?_, ?_⟩
  · exact waitfgLoop_exit signals _
  · unfold waitfg
    exact waitfgLoop_idle (by simpa using h0) signals hq
  · rw [hresume, hasleep]
  · rw [hresume, hasleep]; exact fgpid_of_noFG hnoS
  · rw [hresume, hasleep]; exact hpidS
  · rw [hresume, hasleep]; exact hstS
  · rw [hresume, hearly]
  · rw [hresume, hearly]; exact fgpid_of_noFG hnoS
  · rw [hresume, hearly]; exact hpidS
  · rw [hresume, hearly]; exact hstS

/-- C7 on the shell that has launched pid 100 in the background and seen it stop: "fg %1"
returns when the job is stopped again by signal 20 while the gate sleeps, and it sleeps
with no foreground job when the job is stopped again before sigsuspend is called. -/
theorem waitfg_sleeps_after_early_notification_witness :
    (jobAt (run (initWorld 0) launchAndStop).2.jobs 0).state = ST ∧
    resolves (run (initWorld 0) launchAndStop).2.jobs "%1" 0 ∧
    (jobAt (run (initWorld 0) launchAndStop).2.jobs 0).pid = 100 ∧
    (do_bgfg (run (initWorld 0) launchAndStop).2 ["fg", "%1"] 0
      [.wake (.chld [((jobAt (run (initWorld 0) launchAndStop).2.jobs 0).pid, .stopped 20)])]).1
      = .ret ∧
    (do_bgfg (run (initWorld 0) launchAndStop).2 ["fg", "%1"] 0
      [⟨[], [.chld [((jobAt (run (initWorld 0) launchAndStop).2.jobs 0).pid, .stopped 20)]],
        none⟩]).1 = .blocked ∧
    fgpid (do_bgfg (run (initWorld 0) launchAndStop).2 ["fg", "%1"] 0
      [⟨[], [.chld [((jobAt (run (initWorld 0) launchAndStop).2.jobs 0).pid, .stopped 20)]],
        none⟩]).2.jobs = 0 :=
  ⟨by decide, by decide, by decide,
    (waitfg_sleeps_after_early_notification (run (initWorld 0) launchAndStop).2
      "%1" 0 20 0 (by decide) (by decide) (by decide) (by decide) (by decide)).2.2.1,
    (waitfg_sleeps_after_early_notification (run (initWorld 0) launchAndStop).2
      "%1" 0 20 0 (by decide) (by decide) (by decide) (by decide) (by decide)).2.2.2.2.2.2.1,
    (waitfg_sleeps_after_early_notification (run (initWorld 0) launchAndStop).2
      "%1" 0 20 0 (by decide) (by decide) (by decide) (by decide) (by decide)).2.2.2.2.2.2.2.1⟩

/-! ## The foreground path on a full table -/

/-- The sibling path of C5: a foreground command on a full table, with no job FG and no
signal delivered before the first test of the wait gate, returns to the command loop with
the table and nextjid unchanged. -/
theorem eval_foreground_on_full_table_returns (w : World) (cmdline : List Char)
    (argv : List String) (os : Env) (hargv : argv ≠ []) (hnb : notBuiltin argv)
    (hfull : ∀ i, i < MAXJOBS → (jobAt w.jobs i).pid ≠ 0) (hfork : 0 < os.forkRet)
    (hfg : fgpid w.jobs = 0) (hu1 : 0 ≤ os.unblockFg) (hu2 : 0 ≤ os.unblockEnd)
    (hquiet : ∀ turn ∈ os.signals.head?, turn.before = []) :
    (eval w cmdline argv 0 os).1 = .ret ∧
    (eval w cmdline argv 0 os).2.jobs = w.jobs ∧
    (eval w cmdline argv 0 os).2.nextjid = w.nextjid := by
  have hneg : ¬ os.forkRet < 0 := by omega
  have hzero : ¬ os.forkRet = 0 := by omega
  have hn1 : ¬ os.unblockFg < 0 := by omega
  have hn2 : ¬ os.unblockEnd < 0 := by omega
  have hjobs : (addjob ((w.emit .block).emit (.fork os.forkRet)) os.forkRet FG cmdline).2.jobs
      = w.jobs := addjob_full (w := (w.emit .block).emit (.fork os.forkRet)) hfull _ _ _
  have hnext : (addjob ((w.emit .block).emit (.fork os.forkRet)) os.forkRet FG cmdline).2.nextjid
      = w.nextjid := by
    rcases addjob_cases ((w.emit .block).emit (.fork os.forkRet)) os.forkRet FG cmdline with
      ⟨_, _, h3, _⟩ | ⟨i, hs, _⟩
    · exact h3
    · obtain ⟨h1, h2, _⟩ := scan_some hs
      exact absurd (by simpa using h2) (hfull i h1)
  have heval : eval w cmdline argv 0 os =
      (.ret, ((((addjob ((w.emit .block).emit (.fork os.forkRet)) os.forkRet FG cmdline).2.emit
        .unblock).emit (.waitfgCall os.forkRet)).emit .unblock)) := by
    unfold eval
    rw [if_neg hargv, notBuiltin_cmd hnb]
    simp only [if_true]
    rw [if_neg hneg, if_neg hzero]
    simp only [if_true, if_neg hn1]
    unfold waitfg
    rw [waitfgLoop_idle (by simp only [emit_jobs]; rw [hjobs]; exact hfg) _ hquiet]
    simp only [if_neg hn2]
  rw [heval]
  exact ⟨rfl, hjobs, hnext⟩

/-! ## C12: a failed waitpid in the SIGCHLD handler -/

/-- C12 fails on the code: when the non-blocking waitpid of sigchld_handler returns -1,
the loop ends and the test `pid < -1` is false, so the handler returns normally, with
nothing reported and the shell still running, whatever was scheduled after it. -/
theorem sigchld_handler_returns_on_wait_error (w : World) (status : Status)
    (rest : List (Int × Status)) :
    sigchld_handler w ((-1, status) :: rest) = (.ret, w) := by
  unfold sigchld_handler
  rw [if_neg (by decide), if_neg (by decide)]

/-! ## C16: the contract of deletejob -/

theorem cstr_set_zero (buf : List Char) : cstr (buf.set 0 NUL) = [] := by
  cases buf with
  | nil => rfl
  | cons c cs => simp [cstr, List.takeWhile]

/-- C16: deletejob returns 1 if and only if pid >= 1 and some slot has that pid (and 0
otherwise); in that case the first such slot, i, is cleared (pid 0, jid 0, state UNDEF,
empty command line), every other slot is unchanged and nextjid is maxjid(jobs) + 1 on the
resulting table; when it returns 0 neither the table nor nextjid (nor anything else)
changes. -/
theorem deletejob_contract (w : World) (pid : Int) (hlen : w.jobs.length = MAXJOBS) :
    ((deletejob w pid).1 = 1 ↔ (1 ≤ pid ∧ ∃ k, k < MAXJOBS ∧ (jobAt w.jobs k).pid = pid)) ∧
    ((deletejob w pid).1 = 1 ∨ (deletejob w pid).1 = 0) ∧
    ((deletejob w pid).1 = 1 →
      ∃ i, i < MAXJOBS ∧ (jobAt w.jobs i).pid = pid ∧
        (∀ m, m < i → (jobAt w.jobs m).pid ≠ pid) ∧
        (jobAt (deletejob w pid).2.jobs i).pid = 0 ∧
        (jobAt (deletejob w pid).2.jobs i).jid = 0 ∧
        (jobAt (deletejob w pid).2.jobs i).state = UNDEF ∧
        cstr (jobAt (deletejob w pid).2.jobs i).cmdline = [] ∧
        (∀ k, k ≠ i → jobAt (deletejob w pid).2.jobs k = jobAt w.jobs k) ∧
        (deletejob w pid).2.nextjid = maxjid (deletejob w pid).2.jobs + 1 ∧
        (deletejob w pid).2.trace = w.trace) ∧
    ((deletejob w pid).1 = 0 → (deletejob w pid).2 = w) := by
  rcases deletejob_cases w pid with ⟨h1, h2, h3⟩ | ⟨i, hs, hp, h1, h2⟩
  · have hnone : ¬ (1 ≤ pid ∧ ∃ k, k < MAXJOBS ∧ (jobAt w.jobs k).pid = pid) := by
      rintro ⟨hp, k, hk, hkp⟩
      rcases h3 with h3 | h3
      · omega
      · have := scan_none h3 k hk
        simp [hkp] at this
    refine ⟨⟨fun h => ?_, fun h => absurd h hnone⟩, Or.inr h1, fun h => ?_, fun _ => h2⟩
    · rw [h1] at h; exact absurd h (by decide)
    · rw [h1] at h; exact absurd h (by decide)
  · obtain ⟨hi, hpi, hfirst⟩ := scan_some hs
    have hpi' : (jobAt w.jobs i).pid = pid := by simpa using hpi
    refine ⟨⟨fun _ => ⟨hp, i, hi, hpi'⟩, fun _ => h1⟩, Or.inl h1, fun _ => ?_, fun h => ?_⟩
    · refine ⟨i, hi, hpi', fun m hm => by simpa using hfirst m hm, ?_⟩
      rw [h2]
      show (jobAt (w.jobs.set i (clearjob (jobAt w.jobs i))) i).pid = 0 ∧ _
      rw [jobAt_set_self _ _ (by omega)]
      exact ⟨rfl, rfl, rfl, cstr_set_zero _, fun k hk => jobAt_set_ne _ _ hk, rfl, rfl⟩
    · rw [h1] at h; exact absurd h (by decide)

/-- C16 on the table holding pids 100 and 101 (jids 1 and 2): deleting 100 clears slot 0
and sets nextjid to 3; deleting the absent pid 7 returns 0. -/
theorem deletejob_contract_witness :
    (applyOps (initWorld 0) [.add 100 BG "a\n".toList, .add 101 BG "b\n".toList]).jobs.length
      = MAXJOBS ∧
    (deletejob (applyOps (initWorld 0) [.add 100 BG "a\n".toList, .add 101 BG "b\n".toList])
      100).1 = 1 ∧
    (deletejob (applyOps (initWorld 0) [.add 100 BG "a\n".toList, .add 101 BG "b\n".toList])
      100).2.nextjid = 3 ∧
    (deletejob (applyOps (initWorld 0) [.add 100 BG "a\n".toList, .add 101 BG "b\n".toList])
      7).1 = 0 ∧
    ((deletejob (applyOps (initWorld 0) [.add 100 BG "a\n".toList, .add 101 BG "b\n".toList])
      100).1 = 1 ↔ (1 ≤ (100 : Int) ∧ ∃ k, k < MAXJOBS ∧ (jobAt (applyOps (initWorld 0)
        [.add 100 BG "a\n".toList, .add 101 BG "b\n".toList]).jobs k).pid = 100)) :=
  ⟨by decide, by decide, by decide, by decide,
    (deletejob_contract _ 100 (by decide)).1⟩

/-! ## C11: a normally terminated child -/

theorem occupiedCount_zero {jobs : List job_t}
    (h : ∀ k, k < MAXJOBS → (jobAt jobs k).pid = 0) : occupiedCount jobs = 0 := by
  unfold occupiedCount
  rw [List.countP_eq_zero]
  intro k hk
  simp [h k (List.mem_range.1 hk)]

/-- C11: for every table in which no job but the one with pid p is Foreground (that job
is in slot i, the slot getjobpid finds for p), after sigchld_handler has processed "p terminated normally" the handler has
returned, nothing is printed (the log of actions is unchanged), slot i is cleared and the
other slots are unchanged, fgpid(jobs) is 0, no slot has pid p (slot i being the only one
that held p), and if p was the only job the table has zero occupied slots. -/
theorem sigchld_exit_reaps_silently (w : World) (p code : Int) (i : Nat)
    (hlen : w.jobs.length = MAXJOBS) (hjob : getjobpid w.jobs p = some i)
    (honlyfg : ∀ k, k < MAXJOBS → k ≠ i → (jobAt w.jobs k).state ≠ FG) :
    (sigchld_handler w [(p, .exited code)]).1 = .ret ∧
    (sigchld_handler w [(p, .exited code)]).2.trace = w.trace ∧
    jobAt (sigchld_handler w [(p, .exited code)]).2.jobs i = clearjob (jobAt w.jobs i) ∧
    (∀ k, k ≠ i → jobAt (sigchld_handler w [(p, .exited code)]).2.jobs k = jobAt w.jobs k) ∧
    fgpid (sigchld_handler w [(p, .exited code)]).2.jobs = 0 ∧
    ((∀ k, k < MAXJOBS → k ≠ i → (jobAt w.jobs k).pid ≠ p) →
      ∀ k, k < MAXJOBS → (jobAt (sigchld_handler w [(p, .exited code)]).2.jobs k).pid ≠ p) ∧
    ((∀ k, k < MAXJOBS → k ≠ i → (jobAt w.jobs k).pid = 0) →
      occupiedCount (sigchld_handler w [(p, .exited code)]).2.jobs = 0) := by
  obtain ⟨hp, hscan, hi, hpid⟩ := getjobpid_some hjob
  have hpos : p > 0 := by omega
  have hnot : ¬ p < 1 := by omega
  have hrun : sigchld_handler w [(p, .exited code)] =
      (.ret, { w with jobs := w.jobs.set i (clearjob (jobAt w.jobs i)),
                      nextjid := maxjid (w.jobs.set i (clearjob (jobAt w.jobs i))) + 1 }) := by
    simp [sigchld_handler, sigchldBody, hpos, deletejob, hnot, hscan]
  have hat : ∀ k, jobAt (w.jobs.set i (clearjob (jobAt w.jobs i))) k =
      if k = i then clearjob (jobAt w.jobs i) else jobAt w.jobs k := by
    intro k
    by_cases hk : k = i
    · rw [if_pos hk, hk]; exact jobAt_set_self _ _ (by omega)
    · rw [if_neg hk]; exact jobAt_set_ne _ _ hk
  rw [hrun]
  refine ⟨rfl, rfl, ?_, fun k hk => ?_, ?_, fun honly k hk => ?_, fun hall => ?_⟩
  · show jobAt (w.jobs.set i (clearjob (jobAt w.jobs i))) i = _
    rw [hat, if_pos rfl]
  · show jobAt (w.jobs.set i (clearjob (jobAt w.jobs i))) k = _
    rw [hat, if_neg hk]
  · apply fgpid_of_noFG
    intro k hk
    show (jobAt (w.jobs.set i (clearjob (jobAt w.jobs i))) k).state ≠ FG
    rw [hat]
    by_cases hki : k = i
    · rw [if_pos hki]; exact clearjob_state _
    · rw [if_neg hki]; exact honlyfg k hk hki
  · show (jobAt (w.jobs.set i (clearjob (jobAt w.jobs i))) k).pid ≠ p
    rw [hat]
    by_cases hki : k = i
    · rw [if_pos hki]
      show (0 : Int) ≠ p
      omega
    · rw [if_neg hki]; exact honly k hk hki
  · apply occupiedCount_zero
    intro k hk
    show (jobAt (w.jobs.set i (clearjob (jobAt w.jobs i))) k).pid = 0
    rw [hat]
    by_cases hki : k = i
    · rw [if_pos hki]; rfl
    · rw [if_neg hki]; exact hall k hk hki

/-- C11 on the scenario of the spec: pid 100 added as Foreground with job id 1 to the
fresh table, then reported as terminated normally. -/
theorem sigchld_exit_reaps_silently_witness :
    (addjob (initWorld 0) 100 FG "ls\n".toList).2.jobs.length = MAXJOBS ∧
    getjobpid (addjob (initWorld 0) 100 FG "ls\n".toList).2.jobs 100 = some 0 ∧
    (jobAt (addjob (initWorld 0) 100 FG "ls\n".toList).2.jobs 0).jid = 1 ∧
    (jobAt (addjob (initWorld 0) 100 FG "ls\n".toList).2.jobs 0).state = FG ∧
    fgpid (sigchld_handler (addjob (initWorld 0) 100 FG "ls\n".toList).2
      [(100, .exited 0)]).2.jobs = 0 ∧
    occupiedCount (sigchld_handler (addjob (initWorld 0) 100 FG "ls\n".toList).2
      [(100, .exited 0)]).2.jobs = 0 :=
  ⟨by decide, by decide, by decide, by decide,
    (sigchld_exit_reaps_silently (addjob (initWorld 0) 100 FG "ls\n".toList).2 100 0 0
      (by decide) (by decide) (by decide)).2.2.2.2.1,
    (sigchld_exit_reaps_silently (addjob (initWorld 0) 100 FG "ls\n".toList).2 100 0 0
      (by decide) (by decide) (by decide)).2.2.2.2.2.2 (by decide)⟩

/-! ## C20: the handlers of the keyboard signals -/

/-- A number that fits an `int` is not changed by the cut to an `int`. -/
theorem toInt32_of_fits {x : Int} (h1 : -2147483648 ≤ x) (h2 : x ≤ 2147483647) :
    toInt32 x = x := by
  unfold toInt32
  omega

/-- The number `atoi` returns fits an `int`. -/
theorem atoi_fits (s : List Char) : -2147483648 ≤ atoi s ∧ atoi s ≤ 2147483647 := by
  unfold atoi toInt32
  omega

theorem atoiDigits_nonneg : ∀ (cs : List Char) (acc : Int), 0 ≤ acc → 0 ≤ atoiDigits cs acc := by
  intro cs
  induction cs with
  | nil => intro acc h; exact h
  | cons c cs ih =>
    intro acc h
    unfold atoiDigits
    split
    · rename_i hc
      simp only [Bool.and_eq_true, decide_eq_true_eq] at hc
      apply ih
      have : (48 : Int) ≤ (c.toNat : Int) := by exact_mod_cast hc.1
      nlinarith
    · exact h

/-- On a text that starts with a decimal digit, or is empty, `atoi` returns the number its
digits spell whenever that number fits an `int`. -/
theorem atoi_of_digits (s : List Char)
    (hd : ∀ c ∈ s.head?, 48 ≤ c.toNat ∧ c.toNat ≤ 57)
    (hfit : atoiDigits s 0 ≤ 2147483647) : atoi s = atoiDigits s 0 := by
  have hnn := atoiDigits_nonneg s 0 (le_refl 0)
  have hval : toInt32 (min (atoiDigits s 0) LONG_MAX) = atoiDigits s 0 := by
    have hm : min (atoiDigits s 0) LONG_MAX = atoiDigits s 0 := by
      apply min_eq_left
      unfold LONG_MAX
      omega
    rw [hm]
    exact toInt32_of_fits (by omega) hfit
  cases s with
  | nil => decide
  | cons c cs =>
    have hc := hd c (by simp)
    have hsp : isspace c = false := by
      unfold isspace
      have h1 : c ≠ ' ' := by
        intro h; rw [h] at hc; exact absurd hc (by decide)
      simp [h1]
      omega
    have hdrop : List.dropWhile isspace (c :: cs) = c :: cs := by
      simp [List.dropWhile, hsp]
    unfold atoi strtol
    rw [hdrop]
    split
    · rename_i r heq
      have hm : c = '-' := by injection heq
      rw [hm] at hc
      exact absurd hc (by decide)
    · rename_i r heq
      have hp : c = '+' := by injection heq
      rw [hp] at hc
      exact absurd hc (by decide)
    · exact hval

/-- What `atoi` reads: the number when it fits an `int`, the low 32 bits of it (or of the
nearest `long`) when it does not. -/
theorem atoi_examples :
    atoi "3".toList = 3 ∧ atoi "  42x".toList = 42 ∧ atoi "-5".toList = -5 ∧
    atoi "2147483648".toList = -2147483648 ∧ atoi "4294967297".toList = 1 ∧
    atoi "4294967396".toList = 100 ∧ atoi "99999999999999999999".toList = -1 ∧
    atoi "-99999999999999999999".toList = 0 := by
  decide

/-- C17, as stated, fails: in the shell whose only job is job 1 (pid 100, stopped), no
occupied slot has jid 4294967297, yet "bg %4294967297" does not print "No such job": atoi
cuts the number to the `int` 1, so do_bgfg finds job 1, sets it to BG, announces it and
sends SIGCONT. -/
theorem do_bgfg_jid_beyond_int_resumes_job :
    (∀ k, k < MAXJOBS → (jobAt (run (initWorld 0) launchAndStop).2.jobs k).pid ≠ 0 →
      (jobAt (run (initWorld 0) launchAndStop).2.jobs k).jid ≠ 4294967297) ∧
    atoi "4294967297".toList = 1 ∧
    (jobAt (run (initWorld 0) launchAndStop).2.jobs 0).state = ST ∧
    (do_bgfg (run (initWorld 0) launchAndStop).2 ["bg", "%4294967297"] 0 []).2.trace =
      (run (initWorld 0) launchAndStop).2.trace ++
        [.printf "[1] (100) sleep 5 &\n", .kill (-1) SIGCONT] ∧
    (jobAt (do_bgfg (run (initWorld 0) launchAndStop).2 ["bg", "%4294967297"] 0 []).2.jobs
      0).state = BG := by
  decide

/-- C17, amended: for every table (free slots have jid 0) and every selector `%N` such
that no occupied slot has the jid that atoi reads from N (N itself when N fits an `int`),
do_bgfg, for bg and for fg, prints exactly the selector followed by ": No such job" and a
newline and returns: no signal is sent, waitfg is not called, and the table and nextjid
are unchanged. -/
theorem do_bgfg_unknown_jid (w : World) (cmd arg : String) (killRet : Int)
    (signals : List Turn) (hsel : arg.toList.head? = some '%')
    (hfree : ∀ k, k < MAXJOBS → (jobAt w.jobs k).pid = 0 → (jobAt w.jobs k).jid = 0)
    (hno : ∀ k, k < MAXJOBS → (jobAt w.jobs k).pid ≠ 0 →
      (jobAt w.jobs k).jid ≠ atoi (arg.toList.drop 1)) :
    do_bgfg w [cmd, arg] killRet signals = (.ret, w.emit (.printf (arg ++ ": No such job\n"))) := by
  have hnone : getjobjid w.jobs (atoi (arg.toList.drop 1)) = none := by
    cases hj : getjobjid w.jobs (atoi (arg.toList.drop 1)) with
    | none => rfl
    | some i =>
      obtain ⟨h1, hi, hjid⟩ := getjobjid_some hj
      by_cases hp : (jobAt w.jobs i).pid = 0
      · have := hfree i hi hp
        omega
      · exact absurd hjid (hno i hi hp)
  unfold do_bgfg
  simp only [List.get?_eq_getElem?, List.getElem?_cons_succ, List.getElem?_cons_zero,
    List.getD_cons_zero]
  rw [if_pos hsel, hnone]

/-- C17, amended, on the scenario of the spec: "bg %3" while the only job has id 1. -/
theorem do_bgfg_unknown_jid_witness :
    do_bgfg (run (initWorld 0) launchSleep).2 ["bg", "%3"] 0 [] =
      (.ret, (run (initWorld 0) launchSleep).2.emit (.printf ("%3" ++ ": No such job\n"))) ∧
    ("%3" ++ ": No such job\n" : String) = "%3: No such job\n" :=
  ⟨do_bgfg_unknown_jid _ "bg" "%3" 0 [] (by decide) (by decide) (by decide), by decide⟩

/-- C18, as stated, fails: on the fresh table "bg 999" prints "(999): No such process",
the selector in parentheses, not "999: No such process". -/
theorem do_bgfg_unknown_pid_has_parentheses :
    (do_bgfg (initWorld 0) ["bg", "999"] 0 []).2.trace =
      [.printf "(999): No such process\n"] ∧
    (do_bgfg (initWorld 0) ["bg", "999"] 0 []).2.trace ≠ [.printf "999: No such process\n"] ∧
    (do_bgfg (initWorld 0) ["bg", "999"] 0 []).2.trace ≠ [.printf "999: No such process"] := by
  decide

/-- C18, amended: for every table and every bare-integer selector S whose value, as atoi
reads it (S itself when S fits an `int`), is non-zero and equals no occupied slot's pid,
do_bgfg prints exactly "(S): No such process" and a newline (the selector text in
parentheses, a colon, the message) and returns, leaving the table unchanged without
sending any signal. -/
theorem do_bgfg_unknown_pid (w : World) (cmd arg : String) (killRet : Int)
    (signals : List Turn) (hsel : arg.toList.head? ≠ some '%')
    (hnz : atoi arg.toList ≠ 0)
    (hno : ∀ k, k < MAXJOBS → (jobAt w.jobs k).pid ≠ 0 →
      (jobAt w.jobs k).pid ≠ atoi arg.toList) :
    do_bgfg w [cmd, arg] killRet signals =
      (.ret, w.emit (.printf ("(" ++ arg ++ "): No such process\n"))) := by
  have hnone : getjobpid w.jobs (atoi arg.toList) = none := by
    cases hj : getjobpid w.jobs (atoi arg.toList) with
    | none => rfl
    | some i =>
      obtain ⟨h1, _, hi, hpid⟩ := getjobpid_some hj
      exact absurd hpid (hno i hi (by omega))
  unfold do_bgfg
  simp only [List.get?_eq_getElem?, List.getElem?_cons_succ, List.getElem?_cons_zero,
    List.getD_cons_zero]
  rw [if_neg hsel, hnone]
  simp only [if_pos hnz]

/-- C18, amended, on the shell whose only job is pid 100: "fg 999". -/
theorem do_bgfg_unknown_pid_witness :
    do_bgfg (run (initWorld 0) launchSleep).2 ["fg", "999"] 0 [] =
      (.ret, (run (initWorld 0) launchSleep).2.emit
        (.printf ("(" ++ "999" ++ "): No such process\n"))) ∧
    ("(" ++ "999" ++ "): No such process\n" : String) = "(999): No such process\n" :=
  ⟨do_bgfg_unknown_pid _ "fg" "999" 0 [] (by decide) (by decide) (by decide), by decide⟩

/-! ## C19: what a successful fg/bg changes -/

theorem resolves_first {jobs : List job_t} {arg : String} {i : Nat}
    (hres : resolves jobs arg i) :
    i < MAXJOBS ∧
    (arg.toList.head? = some '%' →
      (jobAt jobs i).jid = atoi (arg.toList.drop 1) ∧
      ∀ m, m < i → (jobAt jobs m).jid ≠ atoi (arg.toList.drop 1)) ∧
    (arg.toList.head? ≠ some '%' →
      (jobAt jobs i).pid = atoi arg.toList ∧
      ∀ m, m < i → (jobAt jobs m).pid ≠ atoi arg.toList) := by
  unfold resolves at hres
  by_cases hsel : arg.toList.head? = some '%'
  · rw [if_pos hsel] at hres
    unfold getjobjid at hres
    by_cases hp : atoi (arg.toList.drop 1) < 1
    · rw [if_pos hp] at hres; cases hres
    · rw [if_neg hp] at hres
      obtain ⟨h1, h2, h3⟩ := scan_some hres
      exact ⟨h1, fun _ => ⟨by simpa using h2, fun m hm => by simpa using h3 m hm⟩,
        fun h => absurd hsel h⟩
  · rw [if_neg hsel] at hres
    unfold getjobpid at hres
    by_cases hp : atoi arg.toList < 1
    · rw [if_pos hp] at hres; cases hres
    · rw [if_neg hp] at hres
      obtain ⟨h1, h2, h3⟩ := scan_some hres
      exact ⟨h1, fun h => absurd h hsel,
        fun _ => ⟨by simpa using h2, fun m hm => by simpa using h3 m hm⟩⟩

theorem waitfgLoop_nil (w : World) :
    (waitfgLoop w []).2.jobs = w.jobs ∧ (waitfgLoop w []).2.nextjid = w.nextjid := by
  unfold waitfgLoop
  split <;> exact ⟨rfl, rfl⟩

theorem bgfgResume_nil (w : World) (state : Int) (i : Nat) (killRet : Int) :
    (bgfgResume w state i killRet []).2.jobs =
      w.jobs.set i { jobAt w.jobs i with state := state } ∧
    (bgfgResume w state i killRet []).2.nextjid = w.nextjid := by
  unfold bgfgResume
  simp only
  by_cases hk : killRet < 0
  · rw [if_pos hk]
    by_cases hs : state = BG
    · simp only [if_pos hs]; exact ⟨rfl, rfl⟩
    · simp only [if_neg hs]; exact ⟨rfl, rfl⟩
  · rw [if_neg hk]
    by_cases hf : state = FG
    · rw [if_pos hf]
      unfold waitfg
      have h := waitfgLoop_nil
        ((World.emit (if state = BG then
            World.emit { w with jobs := w.jobs.set i { jobAt w.jobs i with state := state } }
              (.printf ("[" ++ fmtd (jobAt w.jobs i).jid ++ "] (" ++ fmtd (jobAt w.jobs i).pid
                ++ ") " ++ fmts (jobAt w.jobs i).cmdline))
          else { w with jobs := w.jobs.set i { jobAt w.jobs i with state := state } })
          (.kill (-1 * (jobAt w.jobs i).jid) SIGCONT)).emit (.waitfgCall (jobAt w.jobs i).pid))
      rw [h.1, h.2]
      by_cases hs : state = BG
      · simp only [if_pos hs]; exact ⟨rfl, rfl⟩
      · simp only [if_neg hs]; exact ⟨rfl, rfl⟩
    · rw [if_neg hf]
      by_cases hs : state = BG
      · simp only [if_pos hs]; exact ⟨rfl, rfl⟩
      · simp only [if_neg hs]; exact ⟨rfl, rfl⟩

/-- C19: for every table and selector that resolves to slot i (`%N`: the first slot with
jid N; a bare integer: the first slot with that pid), do_bgfg sets the state of that job
to BG for "bg" and to FG for "fg"; its pid, jid and command line, every other slot and
nextjid are unchanged (the table as do_bgfg leaves it before any signal is handled in the
wait gate), and for "bg" the output is "[jid] (pid) command line", followed by the kill
and the return. -/
theorem do_bgfg_changes_only_target_state (w : World) (cmd arg : String) (i : Nat)
    (killRet : Int) (hlen : w.jobs.length = MAXJOBS) (hres : resolves w.jobs arg i) :
    (arg.toList.head? = some '%' →
      (jobAt w.jobs i).jid = atoi (arg.toList.drop 1) ∧
      ∀ m, m < i → (jobAt w.jobs m).jid ≠ atoi (arg.toList.drop 1)) ∧
    (arg.toList.head? ≠ some '%' →
      (jobAt w.jobs i).pid = atoi arg.toList ∧
      ∀ m, m < i → (jobAt w.jobs m).pid ≠ atoi arg.toList) ∧
    jobAt (do_bgfg w [cmd, arg] killRet []).2.jobs i =
      ⟨(jobAt w.jobs i).pid, (jobAt w.jobs i).jid, if cmd = "bg" then BG else FG,
        (jobAt w.jobs i).cmdline⟩ ∧
    (∀ k, k ≠ i → jobAt (do_bgfg w [cmd, arg] killRet []).2.jobs k = jobAt w.jobs k) ∧
    (do_bgfg w [cmd, arg] killRet []).2.nextjid = w.nextjid ∧
    (cmd = "bg" → 0 ≤ killRet → ∀ signals, do_bgfg w [cmd, arg] killRet signals =
      (.ret, { w with
        jobs := w.jobs.set i { jobAt w.jobs i with state := BG },
        trace := w.trace ++
          [.printf ("[" ++ fmtd (jobAt w.jobs i).jid ++ "] (" ++ fmtd (jobAt w.jobs i).pid
            ++ ") " ++ fmts (jobAt w.jobs i).cmdline),
           .kill (-1 * (jobAt w.jobs i).jid) SIGCONT] })) := by
  obtain ⟨hi, hjid, hpid⟩ := resolves_first hres
  have hjobs : (do_bgfg w [cmd, arg] killRet []).2.jobs =
      w.jobs.set i { jobAt w.jobs i with state := if cmd = "bg" then BG else FG } ∧
      (do_bgfg w [cmd, arg] killRet []).2.nextjid = w.nextjid := by
    rw [do_bgfg_resolved hres]
    exact bgfgResume_nil w _ i killRet
  refine ⟨hjid, hpid, ?_, fun k hk => ?_, hjobs.2, fun hbg hk signals => ?_⟩
  · rw [hjobs.1, jobAt_set_self _ _ (by omega)]
  · rw [hjobs.1, jobAt_set_ne _ _ hk]
  · rw [do_bgfg_resolved hres, if_pos hbg]
    unfold bgfgResume
    have hne : ¬ BG = FG := by decide
    simp only [if_true, if_neg (by omega : ¬ killRet < 0), if_neg hne]
    simp [World.emit]

/-- C19 on the shell whose job 1 (pid 100, "sleep 5 &") is stopped: "bg %1" and "fg 100". -/
theorem do_bgfg_changes_only_target_state_witness :
    (run (initWorld 0) launchAndStop).2.jobs.length = MAXJOBS ∧
    resolves (run (initWorld 0) launchAndStop).2.jobs "%1" 0 ∧
    (do_bgfg (run (initWorld 0) launchAndStop).2 ["bg", "%1"] 0 []).2.trace =
      (run (initWorld 0) launchAndStop).2.trace ++
        [.printf "[1] (100) sleep 5 &\n", .kill (-1) SIGCONT] ∧
    jobAt (do_bgfg (run (initWorld 0) launchAndStop).2 ["fg", "100"] 0 []).2.jobs 0 =
      ⟨(jobAt (run (initWorld 0) launchAndStop).2.jobs 0).pid,
        (jobAt (run (initWorld 0) launchAndStop).2.jobs 0).jid,
        if "fg" = "bg" then BG else FG,
        (jobAt (run (initWorld 0) launchAndStop).2.jobs 0).cmdline⟩ :=
  ⟨by decide, by decide, by decide,
    (do_bgfg_changes_only_target_state (run (initWorld 0) launchAndStop).2 "fg" "100" 0 0
      (by decide) (by decide)).2.2.1⟩

/-! ## C15: addjob followed by deletejob on the fresh table -/

theorem maxjidFrom_zero {jobs : List job_t} :
    ∀ (n i : Nat), (∀ k, i ≤ k → k < i + n → (jobAt jobs k).jid ≤ 0) →
      maxjidFrom jobs n i 0 = 0 := by
  intro n
  induction n with
  | zero => intro i _; rfl
  | succ n ih =>
    intro i h
    unfold maxjidFrom
    have hi := h i (le_refl _) (by omega)
    rw [if_neg (by omega)]
    exact ih (i + 1) (fun k h1 h2 => h k (by omega) (by omega))

theorem maxjid_zero {jobs : List job_t} (h : ∀ k, k < MAXJOBS → (jobAt jobs k).jid ≤ 0) :
    maxjid jobs = 0 :=
  maxjidFrom_zero MAXJOBS 0 (fun k _ hk => h k (by omega))

theorem initjobs_zeroJobs_eq : initjobs zeroJobs = zeroJobs := by decide

theorem scan_free_fresh : scan (fun j => j.pid == 0) (initjobs zeroJobs) = some 0 := by decide

/-- C15, as stated, fails: after addjob(jobs, 5, BG, "sleep 5 &") and deletejob(jobs, 5)
on the freshly initialised table the command-line buffer of slot 0 begins with a NUL
followed by "leep 5 &", whereas the fresh buffer is all NUL; the table is not equal to the
fresh one. -/
theorem add_delete_leaves_command_line_bytes :
    (jobAt (applyOps (initWorld 0) [.add 5 BG "sleep 5 &".toList, .delete 5]).jobs
      0).cmdline.take 10 = [NUL, 'l', 'e', 'e', 'p', ' ', '5', ' ', '&', NUL] ∧
    (jobAt (initWorld 0).jobs 0).cmdline.take 10 =
      [NUL, NUL, NUL, NUL, NUL, NUL, NUL, NUL, NUL, NUL] ∧
    (applyOps (initWorld 0) [.add 5 BG "sleep 5 &".toList, .delete 5]).jobs ≠
      (initWorld 0).jobs := by
  decide

/-- C15, amended: for every pid >= 1, state and command line, addjob followed by deletejob
of the same pid on the freshly initialised table (nextjid = 1) leaves nextjid = 1 and
every slot with pid 0, jid 0, state UNDEF and an empty command line, as in the fresh
table; slots 1..15 are equal to the fresh ones byte for byte, and the buffer of slot 0 is
the fresh buffer with the command line copied into it and its first byte set to NUL (the
bytes after the first stay). -/
theorem add_delete_restores_fresh_fields (verbose pid state : Int) (cmdline : List Char)
    (hpid : 1 ≤ pid) :
    (deletejob (addjob (initWorld verbose) pid state cmdline).2 pid).2.nextjid = 1 ∧
    (deletejob (addjob (initWorld verbose) pid state cmdline).2 pid).2.jobs =
      (initWorld verbose).jobs.set 0
        ⟨0, 0, UNDEF, (strcpy (List.replicate MAXLINE NUL) cmdline).set 0 NUL⟩ ∧
    (∀ k, k < MAXJOBS →
      (jobAt (deletejob (addjob (initWorld verbose) pid state cmdline).2 pid).2.jobs k).pid = 0 ∧
      (jobAt (deletejob (addjob (initWorld verbose) pid state cmdline).2 pid).2.jobs k).jid = 0 ∧
      (jobAt (deletejob (addjob (initWorld verbose) pid state cmdline).2 pid).2.jobs k).state
        = UNDEF ∧
      cstr (jobAt (deletejob (addjob (initWorld verbose) pid state cmdline).2 pid).2.jobs
        k).cmdline = [] ∧
      cstr (jobAt (initWorld verbose).jobs k).cmdline = []) ∧
    (∀ k, k ≠ 0 →
      jobAt (deletejob (addjob (initWorld verbose) pid state cmdline).2 pid).2.jobs k =
        jobAt (initWorld verbose).jobs k) := by
  have hfresh : (initWorld verbose).jobs = zeroJobs := initjobs_zeroJobs_eq
  have hzero : ∀ k, k < MAXJOBS → jobAt zeroJobs k = ⟨0, 0, 0, List.replicate MAXLINE NUL⟩ := by
    decide
  have hlen : zeroJobs.length = MAXJOBS := by decide
  -- the add fills slot 0
  have hadd : (addjob (initWorld verbose) pid state cmdline).2.jobs =
      zeroJobs.set 0 ⟨pid, 1, state, strcpy (List.replicate MAXLINE NUL) cmdline⟩ := by
    rcases addjob_cases (initWorld verbose) pid state cmdline with ⟨_, _, _, h4⟩ | ⟨i, hs, _, _, h4, _⟩
    · rcases h4 with h4 | h4
      · omega
      · have : scan (fun j => j.pid == 0) (initWorld verbose).jobs = some 0 := scan_free_fresh
        rw [this] at h4; cases h4
    · have : scan (fun j => j.pid == 0) (initWorld verbose).jobs = some 0 := scan_free_fresh
      rw [this] at hs
      cases hs
      rw [h4, hfresh, hzero 0 (by decide)]
      rfl
  -- the delete finds it there
  have hscan : scan (fun j => j.pid == pid)
      (zeroJobs.set 0 ⟨pid, 1, state, strcpy (List.replicate MAXLINE NUL) cmdline⟩) = some 0 := by
    apply scan_eq_some (by decide)
    · rw [jobAt_set_self _ _ (by rw [hlen]; decide)]
      simp
    · intro m hm; omega
  have hdel : (deletejob (addjob (initWorld verbose) pid state cmdline).2 pid).2 =
      { (addjob (initWorld verbose) pid state cmdline).2 with
        jobs := zeroJobs.set 0
          ⟨0, 0, UNDEF, (strcpy (List.replicate MAXLINE NUL) cmdline).set 0 NUL⟩,
        nextjid := maxjid (zeroJobs.set 0
          ⟨0, 0, UNDEF, (strcpy (List.replicate MAXLINE NUL) cmdline).set 0 NUL⟩) + 1 } := by
    rcases deletejob_cases (addjob (initWorld verbose) pid state cmdline).2 pid with
      ⟨_, _, h3⟩ | ⟨i, hs, _, _, h4⟩
    · rcases h3 with h3 | h3
      · omega
      · rw [hadd, hscan] at h3; cases h3
    · rw [hadd, hscan] at hs
      cases hs
      rw [h4, hadd, jobAt_set_self _ _ (by rw [hlen]; decide), List.set_set]
      rfl
  have hat : ∀ k, jobAt (zeroJobs.set 0
      ⟨0, 0, UNDEF, (strcpy (List.replicate MAXLINE NUL) cmdline).set 0 NUL⟩) k =
      if k = 0 then ⟨0, 0, UNDEF, (strcpy (List.replicate MAXLINE NUL) cmdline).set 0 NUL⟩
      else jobAt zeroJobs k := by
    intro k
    by_cases hk : k = 0
    · rw [if_pos hk, hk]; exact jobAt_set_self _ _ (by rw [hlen]; decide)
    · rw [if_neg hk]; exact jobAt_set_ne _ _ hk
  rw [hdel, hfresh]
  refine ⟨?_, rfl, fun k hk => ?_, fun k hk => ?_⟩
  · show maxjid _ + 1 = 1
    rw [maxjid_zero]
    · rfl
    · intro k hk
      rw [hat]
      by_cases h0 : k = 0
      · rw [if_pos h0]
      · rw [if_neg h0, hzero k hk]
  · show (jobAt (zeroJobs.set 0 _) k).pid = 0 ∧ (jobAt (zeroJobs.set 0 _) k).jid = 0 ∧
      (jobAt (zeroJobs.set 0 _) k).state = UNDEF ∧ cstr (jobAt (zeroJobs.set 0 _) k).cmdline = [] ∧
      cstr (jobAt zeroJobs k).cmdline = []
    rw [hat]
    have hz : cstr (List.replicate MAXLINE NUL) = [] := by decide
    by_cases h0 : k = 0
    · rw [if_pos h0, hzero k hk]
      exact ⟨rfl, rfl, rfl, cstr_set_zero _, hz⟩
    · rw [if_neg h0, hzero k hk]
      exact ⟨rfl, rfl, rfl, hz, hz⟩
  · show jobAt (zeroJobs.set 0 _) k = jobAt zeroJobs k
    rw [hat, if_neg hk]

/-- C15, amended, on the round trip of the spec: pid 5, Background, "sleep 5 &". -/
theorem add_delete_restores_fresh_fields_witness :
    (1 : Int) ≤ 5 ∧
    (deletejob (addjob (initWorld 0) 5 BG "sleep 5 &".toList).2 5).2.nextjid = 1 ∧
    occupiedCount (deletejob (addjob (initWorld 0) 5 BG "sleep 5 &".toList).2 5).2.jobs = 0 :=
  ⟨by decide, (add_delete_restores_fresh_fields 0 5 BG "sleep 5 &".toList (by decide)).1,
    by decide⟩

/-! ## C14: sequential launches -/

theorem occupiedCount_prefix {jobs : List job_t} {n : Nat} (hn : n ≤ MAXJOBS)
    (hocc : ∀ k, k < n → (jobAt jobs k).pid ≠ 0)
    (hfree : ∀ k, n ≤ k → k < MAXJOBS → (jobAt jobs k).pid = 0) :
    occupiedCount jobs = n := by
  have hcongr : occupiedCount jobs = (List.range MAXJOBS).countP (fun k => decide (k < n)) := by
    unfold occupiedCount
    apply List.countP_congr
    intro k hk
    have hk' := List.mem_range.1 hk
    by_cases hkn : k < n
    · simp [hkn, hocc k hkn]
    · simp [hkn, hfree k (by omega) hk']
  rw [hcongr]
  have h16 : n ≤ 16 := hn
  interval_cases n <;> rfl

/-- The state after adding the jobs `js` as Background jobs to a table whose first `n`
slots are occupied, whose other slots are free and whose id counter is `n + 1`. -/
theorem addjobs_from :
    ∀ (js : List (Int × List Char)) (w : World) (n : Nat),
      w.jobs.length = MAXJOBS → n + js.length ≤ MAXJOBS →
      (∀ k, k < n → (jobAt w.jobs k).pid ≠ 0) →
      (∀ k, n ≤ k → k < MAXJOBS → (jobAt w.jobs k).pid = 0) →
      (js ≠ [] → w.nextjid = n + 1) →
      (∀ j, j ∈ js → 1 ≤ j.1) →
      (applyOps w (js.map (fun j => JobOp.add j.1 BG j.2))).jobs.length = MAXJOBS ∧
      (∀ k, k < n →
        jobAt (applyOps w (js.map (fun j => JobOp.add j.1 BG j.2))).jobs k = jobAt w.jobs k) ∧
      (∀ k j, js[k]? = some j →
        (jobAt (applyOps w (js.map (fun j => JobOp.add j.1 BG j.2))).jobs (n + k)).pid = j.1 ∧
        (jobAt (applyOps w (js.map (fun j => JobOp.add j.1 BG j.2))).jobs (n + k)).state = BG ∧
        (jobAt (applyOps w (js.map (fun j => JobOp.add j.1 BG j.2))).jobs (n + k)).jid
          = n + k + 1) ∧
      (∀ k, n + js.length ≤ k →
        jobAt (applyOps w (js.map (fun j => JobOp.add j.1 BG j.2))).jobs k = jobAt w.jobs k) := by
  intro js
  induction js with
  | nil =>
    intro w n hlen _ _ _ _ _
    exact ⟨hlen, fun _ _ => rfl, fun k j h => by simp at h, fun _ _ => rfl⟩
  | cons j js ih =>
    intro w n hlen hn hocc hfree hnext hvalid
    simp only [List.length_cons] at hn
    have hj : 1 ≤ j.1 := hvalid j (List.mem_cons_self _ _)
    have hscan : scan (fun x => x.pid == 0) w.jobs = some n := by
      apply scan_eq_some (by omega)
      · simp [hfree n (le_refl _) (by omega)]
      · intro m hm
        simp [hocc m hm]
    have hnj := hnext (by simp)
    -- the first add
    have hadd : (addjob w j.1 BG j.2).2.jobs =
        w.jobs.set n ⟨j.1, w.nextjid, BG, strcpy (jobAt w.jobs n).cmdline j.2⟩ ∧
        (addjob w j.1 BG j.2).2.nextjid =
          if w.nextjid + 1 > MAXJOBS then 1 else w.nextjid + 1 := by
      rcases addjob_cases w j.1 BG j.2 with ⟨_, _, _, h4⟩ | ⟨i, hs, _, _, h4, h5⟩
      · rcases h4 with h4 | h4
        · omega
        · rw [hscan] at h4; cases h4
      · rw [hscan] at hs; cases hs
        exact ⟨h4, h5⟩
    have hat : ∀ k, jobAt (addjob w j.1 BG j.2).2.jobs k =
        if k = n then ⟨j.1, w.nextjid, BG, strcpy (jobAt w.jobs n).cmdline j.2⟩
        else jobAt w.jobs k := by
      intro k
      rw [hadd.1]
      by_cases hk : k = n
      · rw [if_pos hk, hk]; exact jobAt_set_self _ _ (by omega)
      · rw [if_neg hk]; exact jobAt_set_ne _ _ hk
    have hrest := ih (addjob w j.1 BG j.2).2 (n + 1)
      (by rw [hadd.1, List.length_set]; exact hlen) (by omega)
      (fun k hk => by
        rw [hat]
        by_cases hkn : k = n
        · rw [if_pos hkn]; show j.1 ≠ 0; omega
        · rw [if_neg hkn]; exact hocc k (by omega))
      (fun k hk1 hk2 => by
        rw [hat, if_neg (by omega)]
        exact hfree k (by omega) hk2)
      (fun hne => by
        have hlen1 : 1 ≤ js.length := by
          cases js with
          | nil => exact absurd rfl hne
          | cons _ _ => simp
        rw [hadd.2, hnj]
        have : ¬ ((n : Int) + 1 + 1 > (MAXJOBS : Nat)) := by
          have : n + 2 ≤ MAXJOBS := by omega
          omega
        rw [if_neg this]
        push_cast
        ring)
      (fun x hx => hvalid x (List.mem_cons_of_mem _ hx))
    obtain ⟨h1, h2, h3, h4⟩ := hrest
    simp only [List.map_cons, applyOps, applyOp]
    refine ⟨h1, fun k hk => ?_, fun k x hx => ?_, fun k hk => ?_⟩
    · rw [h2 k (by omega), hat, if_neg (by omega)]
    · cases k with
      | zero =>
        simp only [List.getElem?_cons_zero, Option.some.injEq] at hx
        subst hx
        rw [Nat.add_zero, h2 n (by omega), hat, if_pos rfl]
        refine ⟨rfl, rfl, ?_⟩
        show w.nextjid = _
        rw [hnj]; simp
      | succ k =>
        simp only [List.getElem?_cons_succ] at hx
        have := h3 k x hx
        have harith : n + (k + 1) = n + 1 + k := by omega
        rw [harith]
        refine ⟨this.1, this.2.1, ?_⟩
        rw [this.2.2]
        push_cast
        ring
    · simp only [List.length_cons] at hk
      rw [h4 k (by omega), hat, if_neg (by omega)]

/-- C14: for every N with 0 <= N <= 16 and every list of N valid pids (each >= 1, each
with its command line), adding them as Background jobs to the freshly initialised table
(nextjid = 1) with no removal in between leaves exactly N occupied slots: slot k (0-based)
holds the k-th pid with state BG and jid k + 1, and the remaining 16 - N slots are empty,
as in the fresh table. -/
theorem sequential_launches_get_ids (verbose : Int) (js : List (Int × List Char))
    (hN : js.length ≤ MAXJOBS) (hvalid : ∀ j, j ∈ js → 1 ≤ j.1) :
    (∀ k j, js[k]? = some j →
      (jobAt (applyOps (initWorld verbose) (js.map (fun j => JobOp.add j.1 BG j.2))).jobs k).pid
        = j.1 ∧
      (jobAt (applyOps (initWorld verbose) (js.map (fun j => JobOp.add j.1 BG j.2))).jobs
        k).state = BG ∧
      (jobAt (applyOps (initWorld verbose) (js.map (fun j => JobOp.add j.1 BG j.2))).jobs k).jid
        = k + 1) ∧
    (∀ k, js.length ≤ k → k < MAXJOBS →
      (jobAt (applyOps (initWorld verbose) (js.map (fun j => JobOp.add j.1 BG j.2))).jobs k).pid
        = 0 ∧
      jobAt (applyOps (initWorld verbose) (js.map (fun j => JobOp.add j.1 BG j.2))).jobs k =
        jobAt (initWorld verbose).jobs k) ∧
    occupiedCount (applyOps (initWorld verbose) (js.map (fun j => JobOp.add j.1 BG j.2))).jobs
      = js.length := by
  have hfree : ∀ k, k < MAXJOBS → (jobAt (initWorld verbose).jobs k).pid = 0 :=
    initjobs_zeroJobs_pid
  obtain ⟨_, _, h3, h4⟩ := addjobs_from js (initWorld verbose) 0 initjobs_zeroJobs_length
    (by omega) (fun k hk => by omega) (fun k _ hk => hfree k hk) (fun _ => rfl) hvalid
  have hslots : ∀ k j, js[k]? = some j →
      (jobAt (applyOps (initWorld verbose) (js.map (fun j => JobOp.add j.1 BG j.2))).jobs k).pid
        = j.1 ∧
      (jobAt (applyOps (initWorld verbose) (js.map (fun j => JobOp.add j.1 BG j.2))).jobs
        k).state = BG ∧
      (jobAt (applyOps (initWorld verbose) (js.map (fun j => JobOp.add j.1 BG j.2))).jobs k).jid
        = k + 1 := by
    intro k j hj
    have := h3 k j hj
    simp only [Nat.zero_add] at this
    refine ⟨this.1, this.2.1, ?_⟩
    rw [this.2.2]; simp
  have hempty : ∀ k, js.length ≤ k → k < MAXJOBS →
      (jobAt (applyOps (initWorld verbose) (js.map (fun j => JobOp.add j.1 BG j.2))).jobs k).pid
        = 0 ∧
      jobAt (applyOps (initWorld verbose) (js.map (fun j => JobOp.add j.1 BG j.2))).jobs k =
        jobAt (initWorld verbose).jobs k := by
    intro k hk1 hk2
    have := h4 k (by omega)
    exact ⟨by rw [this]; exact hfree k hk2, this⟩
  refine ⟨hslots, hempty, occupiedCount_prefix hN (fun k hk => ?_) (fun k hk1 hk2 => (hempty k hk1 hk2).1)⟩
  obtain ⟨j, hj⟩ : ∃ j, js[k]? = some j := ⟨js[k], List.getElem?_eq_getElem hk⟩
  rw [(hslots k j hj).1]
  have := hvalid j (List.getElem?_mem hj)
  omega

/-- C14 on three launches, pids 100, 101 and 102. -/
theorem sequential_launches_get_ids_witness :
    ([(100, "a\n".toList), (101, "b\n".toList), (102, "c\n".toList)] :
      List (Int × List Char)).length ≤ MAXJOBS ∧
    (∀ j, j ∈ ([(100, "a\n".toList), (101, "b\n".toList), (102, "c\n".toList)] :
      List (Int × List Char)) → 1 ≤ j.1) ∧
    occupiedCount (applyOps (initWorld 0)
      (([(100, "a\n".toList), (101, "b\n".toList), (102, "c\n".toList)] :
        List (Int × List Char)).map (fun j => JobOp.add j.1 BG j.2))).jobs =
      ([(100, "a\n".toList), (101, "b\n".toList), (102, "c\n".toList)] :
        List (Int × List Char)).length ∧
    (jobAt (applyOps (initWorld 0)
      (([(100, "a\n".toList), (101, "b\n".toList), (102, "c\n".toList)] :
        List (Int × List Char)).map (fun j => JobOp.add j.1 BG j.2))).jobs 2).jid = 3 :=
  ⟨by decide, by decide,
    (sequential_launches_get_ids 0 [(100, "a\n".toList), (101, "b\n".toList),
      (102, "c\n".toList)] (by decide) (by decide)).2.2,
    by decide⟩

/-! ## The states of the jobs of a running shell -/

theorem statesOk_set {jobs : List job_t} (h : statesOk jobs) (i : Nat) (x : job_t)
    (hx : (x.pid = 0 ∧ x.state = UNDEF) ∨
      (x.pid ≠ 0 ∧ (x.state = FG ∨ x.state = BG ∨ x.state = ST))) :
    statesOk (jobs.set i x) := by
  intro k hk
  rw [jobAt_set]
  by_cases h1 : k = i ∧ i < jobs.length
  · rw [if_pos h1]; exact hx
  · rw [if_neg h1]; exact h k hk

theorem statesOk_deletejob {w : World} (h : statesOk w.jobs) (pid : Int) :
    statesOk (deletejob w pid).2.jobs := by
  rcases deletejob_cases w pid with ⟨_, h2, _⟩ | ⟨i, _, _, _, h4⟩
  · rw [h2]; exact h
  · rw [h4]; exact statesOk_set h i _ (Or.inl ⟨rfl, rfl⟩)

theorem statesOk_sigchldBody (w : World) (pid : Int) (status : Status)
    (h : statesOk w.jobs) : statesOk (sigchldBody w pid status).2.jobs := by
  cases status with
  | stopped n =>
    cases hj : getjobpid w.jobs pid with
    | none => simp [sigchldBody, hj, h]
    | some i =>
      obtain ⟨hp, _, hi, hpid⟩ := getjobpid_some hj
      simp only [sigchldBody, hj, emit_jobs]
      exact statesOk_set h i _ (Or.inr ⟨by show (jobAt w.jobs i).pid ≠ 0; omega,
        Or.inr (Or.inr rfl)⟩)
  | signaled n =>
    cases hj : getjobpid w.jobs pid with
    | none => simp [sigchldBody, hj, h]
    | some i =>
      simp only [sigchldBody, hj]
      exact statesOk_deletejob (w := w.emit _) h pid
  | exited c =>
    simp only [sigchldBody]
    exact statesOk_deletejob h pid

theorem statesOk_sigchld_handler :
    ∀ (waits : List (Int × Status)) (w : World), statesOk w.jobs →
      statesOk (sigchld_handler w waits).2.jobs := by
  intro waits
  induction waits with
  | nil => intro w h; exact h
  | cons a rest ih =>
    intro w h
    obtain ⟨pid, status⟩ := a
    unfold sigchld_handler
    by_cases hp : pid > 0
    · rw [if_pos hp]
      have hb := statesOk_sigchldBody w pid status h
      rcases hr : sigchldBody w pid status with ⟨c, w1⟩
      rw [hr] at hb
      cases c with
      | ret => exact ih w1 hb
      | exit code => exact hb
      | fault => exact hb
      | exec => exact hb
      | blocked => exact hb
    · rw [if_neg hp]
      split
      · exact h
      · exact h

theorem statesOk_deliver (w : World) (sig : Signal) (h : statesOk w.jobs) :
    statesOk (deliver w sig).2.jobs := by
  cases sig with
  | chld waits => exact statesOk_sigchld_handler waits w h
  | int k =>
    simp only [deliver, sigint_handler]
    split
    · split <;> exact h
    · exact h
  | tstp k =>
    simp only [deliver, sigtstp_handler]
    split
    · split <;> exact h
    · exact h

theorem statesOk_waitfgLoop (signals : List Turn) (w : World) (h : statesOk w.jobs) :
    statesOk (waitfgLoop w signals).2.jobs :=
  waitfgLoop_inv (fun x => statesOk x.jobs) (fun x sig hx => statesOk_deliver x sig hx)
    (fun _ hx => hx) signals w h

theorem statesOk_addjob {w : World} (h : statesOk w.jobs) (pid state : Int)
    (cmdline : List Char) (hs : state = FG ∨ state = BG) :
    statesOk (addjob w pid state cmdline).2.jobs := by
  rcases addjob_cases w pid state cmdline with ⟨_, h2, _⟩ | ⟨i, _, hp, _, h4, _⟩
  · rw [h2]; exact h
  · rw [h4]
    refine statesOk_set h i _ (Or.inr ⟨by show pid ≠ 0; omega, ?_⟩)
    rcases hs with hs | hs
    · exact Or.inl hs
    · exact Or.inr (Or.inl hs)

theorem statesOk_bgfgResume (w : World) (state : Int) (i : Nat) (killRet : Int)
    (signals : List Turn) (h : statesOk w.jobs) (hocc : (jobAt w.jobs i).pid ≠ 0)
    (hs : state = FG ∨ state = BG) :
    statesOk (bgfgResume w state i killRet signals).2.jobs := by
  have hset : statesOk (w.jobs.set i { jobAt w.jobs i with state := state }) := by
    refine statesOk_set h i _ (Or.inr ⟨hocc, ?_⟩)
    rcases hs with hs | hs
    · exact Or.inl hs
    · exact Or.inr (Or.inl hs)
  unfold bgfgResume
  simp only
  by_cases hk : killRet < 0
  · rw [if_pos hk, unix_error_jobs]
    split <;> exact hset
  · rw [if_neg hk]
    by_cases hf : state = FG
    · rw [if_pos hf]
      unfold waitfg
      apply statesOk_waitfgLoop
      simp only [emit_jobs]
      split <;> exact hset
    · rw [if_neg hf]
      simp only [emit_jobs]
      split <;> exact hset

theorem statesOk_do_bgfg (w : World) (argv : List String) (killRet : Int)
    (signals : List Turn) (hok : tableOk w.jobs) (h : statesOk w.jobs) :
    statesOk (do_bgfg w argv killRet signals).2.jobs := by
  have hs : ∀ c : Prop, ∀ [Decidable c], (if c then BG else FG) = FG ∨ (if c then BG else FG) = BG := by
    intro c _
    by_cases hc : c
    · rw [if_pos hc]; exact Or.inr rfl
    · rw [if_neg hc]; exact Or.inl rfl
  unfold do_bgfg
  simp only
  cases argv.get? 1 with
  | none => exact h
  | some arg =>
    simp only
    split
    · cases hj : getjobjid w.jobs (atoi (arg.toList.drop 1)) with
      | none => exact h
      | some i =>
        obtain ⟨h1, hi, hjid⟩ := getjobjid_some hj
        apply statesOk_bgfgResume _ _ _ _ _ h _ (hs _)
        intro h0
        have := (hok.2.1 i hi h0).1
        omega
    · cases hj : getjobpid w.jobs (atoi arg.toList) with
      | none =>
        simp only
        split <;> exact h
      | some i =>
        obtain ⟨h1, _, hi, hpid⟩ := getjobpid_some hj
        apply statesOk_bgfgResume _ _ _ _ _ h _ (hs _)
        omega

theorem statesOk_builtin_cmd (w : World) (argv : List String) (os : Env)
    (hok : tableOk w.jobs) (h : statesOk w.jobs) :
    statesOk (builtin_cmd w argv os).2.2.jobs := by
  unfold builtin_cmd
  simp only
  split
  · exact h
  · split
    · simp only [listjobs_jobs]; exact h
    · split
      · exact statesOk_do_bgfg w argv _ _ hok h
      · split
        · exact statesOk_do_bgfg w argv _ _ hok h
        · exact h

theorem statesOk_eval (w : World) (cmdline : List Char) (argv : List String) (bg : Int)
    (os : Env) (hok : tableOk w.jobs) (h : statesOk w.jobs) :
    statesOk (eval w cmdline argv bg os).2.jobs := by
  unfold eval
  by_cases hargv : argv = []
  · rw [if_pos hargv]; exact h
  rw [if_neg hargv]
  have hk := statesOk_builtin_cmd w argv os hok h
  rcases hb : builtin_cmd w argv os with ⟨b, c, w0⟩
  rw [hb] at hk
  simp only at hk
  cases c with
  | exit code => exact hk
  | fault => exact hk
  | exec => exact hk
  | blocked => exact hk
  | ret =>
    simp only
    by_cases hb0 : b = 0
    · rw [if_pos hb0]
      by_cases hneg : os.forkRet < 0
      · rw [if_pos hneg]; exact hk
      rw [if_neg hneg]
      by_cases hzero : os.forkRet = 0
      · rw [if_pos hzero]
        by_cases hu : os.unblockChild < 0
        · rw [if_pos hu]; exact hk
        · rw [if_neg hu]
          by_cases he : os.execveRet < 0
          · rw [if_pos he]; exact hk
          · rw [if_neg he]; exact hk
      rw [if_neg hzero]
      have hafter : ∀ r : Ctl × World, statesOk r.2.jobs →
          statesOk (match r with
            | (.ret, w4) =>
              if os.unblockEnd < 0 then
                unix_error (w4.emit .unblock) "Unblocking of signal mask failed"
              else (.ret, w4.emit .unblock)
            | stop => stop).2.jobs := by
        intro r hr
        obtain ⟨c, w4⟩ := r
        cases c with
        | ret =>
          simp only
          split <;> exact hr
        | exit code => exact hr
        | fault => exact hr
        | exec => exact hr
        | blocked => exact hr
      by_cases hbg : bg = 0
      · have hadd := statesOk_addjob (w := (w0.emit .block).emit (.fork os.forkRet))
          hk os.forkRet FG cmdline (Or.inl rfl)
        simp only [if_pos hbg]
        by_cases hu : os.unblockFg < 0
        · rw [if_pos hu]
          exact hafter (unix_error _ "Unblocking of signal mask failed") hadd
        · rw [if_neg hu]
          exact hafter (waitfg _ os.forkRet os.signals)
            (statesOk_waitfgLoop os.signals
              ((((addjob ((w0.emit .block).emit (.fork os.forkRet)) os.forkRet FG cmdline).2).emit
                .unblock).emit (.waitfgCall os.forkRet)) hadd)
      · have hadd := statesOk_addjob (w := (w0.emit .block).emit (.fork os.forkRet))
          hk os.forkRet BG cmdline (Or.inr rfl)
        simp only [if_neg hbg]
        cases hj : getjobpid
            (addjob ((w0.emit .block).emit (.fork os.forkRet)) os.forkRet BG cmdline).2.jobs
            os.forkRet with
        | none =>
          exact hafter (.fault, (addjob ((w0.emit .block).emit (.fork os.forkRet))
            os.forkRet BG cmdline).2) hadd
        | some i =>
          exact hafter (.ret, World.emit (addjob ((w0.emit .block).emit (.fork os.forkRet))
            os.forkRet BG cmdline).2 _) hadd
    · rw [if_neg hb0]; exact hk

theorem statesOk_initWorld (v : Int) : statesOk (initWorld v).jobs := by
  intro k hk
  exact Or.inl ⟨initjobs_zeroJobs_pid k hk, (initjobs_zeroJobs_clear k hk).2⟩

theorem sigchld_handler_removed {w : World} {p : Int} {i : Nat}
    (hjob : getjobpid w.jobs p = some i) :
    (∀ n, (sigchld_handler w [(p, .signaled n)]).2.jobs =
      w.jobs.set i (clearjob (jobAt w.jobs i))) ∧
    (∀ code, (sigchld_handler w [(p, .exited code)]).2.jobs =
      w.jobs.set i (clearjob (jobAt w.jobs i))) := by
  obtain ⟨hp, hscan, _, _⟩ := getjobpid_some hjob
  have hpos : p > 0 := by omega
  have hnot : ¬ p < 1 := by omega
  constructor
  · intro n
    simp [sigchld_handler, sigchldBody, hpos, hjob, deletejob, hnot, hscan, World.emit]
  · intro code
    simp [sigchld_handler, sigchldBody, hpos, deletejob, hnot, hscan]

/-! ## C13: the state transitions of a job -/

/-- C13, as stated, fails: in the shell that has launched "sleep 5 &" as pid 100, job 1 is
Background, and "fg %1" sets its state to FG: the transition Background -> Foreground,
which the transition table in the source lists as "BG -> FG : fg command". -/
theorem fg_moves_background_job_to_foreground :
    (jobAt (run (initWorld 0) launchSleep).2.jobs 0).pid = 100 ∧
    (jobAt (run (initWorld 0) launchSleep).2.jobs 0).state = BG ∧
    (jobAt (do_bgfg (run (initWorld 0) launchSleep).2 ["fg", "%1"] 0 []).2.jobs 0).pid = 100 ∧
    (jobAt (do_bgfg (run (initWorld 0) launchSleep).2 ["fg", "%1"] 0 []).2.jobs 0).state
      = FG := by
  decide

theorem lt_length_of_pid_ne_zero {jobs : List job_t} {i : Nat}
    (h : (jobAt jobs i).pid ≠ 0 ∨ (jobAt jobs i).jid ≠ 0) : i < jobs.length := by
  by_contra hlt
  have hd : jobAt jobs i = ⟨0, 0, 0, []⟩ := by
    unfold jobAt
    rw [List.getD_eq_default _ _ (by omega)]
  rw [hd] at h
  simp at h

theorem resolves_lt_length {jobs : List job_t} {arg : String} {i : Nat}
    (hres : resolves jobs arg i) : i < jobs.length := by
  unfold resolves at hres
  by_cases hsel : arg.toList.head? = some '%'
  · rw [if_pos hsel] at hres
    obtain ⟨h1, _, h2⟩ := getjobjid_some hres
    exact lt_length_of_pid_ne_zero (Or.inr (by omega))
  · rw [if_neg hsel] at hres
    obtain ⟨h1, _, _, h2⟩ := getjobpid_some hres
    exact lt_length_of_pid_ne_zero (Or.inl (by omega))

/-- C13, amended: for every table, the operations that change a job's state or presence
perform these transitions and no other, every other slot staying as it is:
sigchld_handler on a stop notification for a job sets its state to Stopped, whatever the
state was; on a termination notification (by signal or normal) it removes the job,
whatever its state; do_bgfg on a selector that resolves sets the state of the job to
Foreground for fg and to Background for bg, whatever the state was (so Background ->
Foreground does occur). -/
theorem transitions_of_job_operations (w : World) :
    (∀ p n i, getjobpid w.jobs p = some i →
      jobAt (sigchld_handler w [(p, .stopped n)]).2.jobs i
        = { jobAt w.jobs i with state := ST } ∧
      ∀ k, k ≠ i → jobAt (sigchld_handler w [(p, .stopped n)]).2.jobs k = jobAt w.jobs k) ∧
    (∀ p n i, getjobpid w.jobs p = some i →
      jobAt (sigchld_handler w [(p, .signaled n)]).2.jobs i = clearjob (jobAt w.jobs i) ∧
      ∀ k, k ≠ i → jobAt (sigchld_handler w [(p, .signaled n)]).2.jobs k = jobAt w.jobs k) ∧
    (∀ p code i, getjobpid w.jobs p = some i →
      jobAt (sigchld_handler w [(p, .exited code)]).2.jobs i = clearjob (jobAt w.jobs i) ∧
      ∀ k, k ≠ i → jobAt (sigchld_handler w [(p, .exited code)]).2.jobs k = jobAt w.jobs k) ∧
    (∀ cmd arg i killRet, resolves w.jobs arg i →
      jobAt (do_bgfg w [cmd, arg] killRet []).2.jobs i
        = { jobAt w.jobs i with state := if cmd = "bg" then BG else FG } ∧
      ∀ k, k ≠ i → jobAt (do_bgfg w [cmd, arg] killRet []).2.jobs k = jobAt w.jobs k) := by
  have hlen : ∀ {p i}, getjobpid w.jobs p = some i → i < w.jobs.length := by
    intro p i hjob
    obtain ⟨h1, _, _, h2⟩ := getjobpid_some hjob
    exact lt_length_of_pid_ne_zero (Or.inl (by omega))
  refine ⟨fun p n i hjob => ?_, fun p n i hjob => ?_, fun p code i hjob => ?_,
    fun cmd arg i killRet hres => ?_⟩
  · have hj : (sigchld_handler w [(p, .stopped n)]).2.jobs =
        w.jobs.set i { jobAt w.jobs i with state := ST } := by
      rw [sigchld_handler_stopped hjob]; rfl
    rw [hj]
    exact ⟨jobAt_set_self _ _ (hlen hjob), fun k hk => jobAt_set_ne _ _ hk⟩
  · rw [(sigchld_handler_removed hjob).1 n]
    exact ⟨jobAt_set_self _ _ (hlen hjob), fun k hk => jobAt_set_ne _ _ hk⟩
  · rw [(sigchld_handler_removed hjob).2 code]
    exact ⟨jobAt_set_self _ _ (hlen hjob), fun k hk => jobAt_set_ne _ _ hk⟩
  · rw [do_bgfg_resolved hres, (bgfgResume_nil w _ i killRet).1]
    exact ⟨jobAt_set_self _ _ (resolves_lt_length hres), fun k hk => jobAt_set_ne _ _ hk⟩

/-- C13, amended, on the shell whose job 1 (pid 100) has been launched in the background
and stopped: "fg %1" takes it from Stopped to Foreground, "bg %1" to Background, and a
termination notification removes it. -/
theorem transitions_of_job_operations_witness :
    getjobpid (run (initWorld 0) launchAndStop).2.jobs 100 = some 0 ∧
    resolves (run (initWorld 0) launchAndStop).2.jobs "%1" 0 ∧
    (jobAt (run (initWorld 0) launchAndStop).2.jobs 0).state = ST ∧
    jobAt (do_bgfg (run (initWorld 0) launchAndStop).2 ["fg", "%1"] 0 []).2.jobs 0 =
      { jobAt (run (initWorld 0) launchAndStop).2.jobs 0 with
        state := if "fg" = "bg" then BG else FG } ∧
    jobAt (sigchld_handler (run (initWorld 0) launchAndStop).2 [(100, .exited 0)]).2.jobs 0 =
      clearjob (jobAt (run (initWorld 0) launchAndStop).2.jobs 0) :=
  ⟨by decide, by decide, by decide,
    ((transitions_of_job_operations (run (initWorld 0) launchAndStop).2).2.2.2
      "fg" "%1" 0 0 (by decide)).1,
    ((transitions_of_job_operations (run (initWorld 0) launchAndStop).2).2.2.1
      100 0 0 (by decide)).1⟩

/-! ## C21: pids under addjob and deletejob -/

theorem uniquePids_set_clear {jobs : List job_t} (h : uniquePids jobs) (i : Nat) :
    uniquePids (jobs.set i (clearjob (jobAt jobs i))) := by
  intro a ha b hb hab hocc
  rw [jobAt_set, jobAt_set] at hocc ⊢
  by_cases h1 : a = i ∧ i < jobs.length
  · rw [if_pos h1] at hocc
    exact absurd rfl hocc.1
  · by_cases h2 : b = i ∧ i < jobs.length
    · rw [if_pos h2] at hocc
      exact absurd rfl hocc.2
    · rw [if_neg h1, if_neg h2] at hocc ⊢
      exact h a ha b hb hab hocc

theorem uniquePids_set_new {jobs : List job_t} (h : uniquePids jobs) (i : Nat) (x : job_t)
    (hx : ∀ k, k < MAXJOBS → (jobAt jobs k).pid ≠ x.pid) : uniquePids (jobs.set i x) := by
  intro a ha b hb hab hocc
  rw [jobAt_set, jobAt_set] at hocc ⊢
  by_cases h1 : a = i ∧ i < jobs.length
  · have h2 : ¬ (b = i ∧ i < jobs.length) := fun h2 => hab (h1.1.trans h2.1.symm)
    rw [if_pos h1, if_neg h2]
    exact fun e => hx b hb e.symm
  · by_cases h2 : b = i ∧ i < jobs.length
    · rw [if_neg h1, if_pos h2]
      exact hx a ha
    · rw [if_neg h1, if_neg h2] at hocc ⊢
      exact h a ha b hb hab hocc

theorem uniquePids_deletejob {w : World} (h : uniquePids w.jobs) (pid : Int) :
    uniquePids (deletejob w pid).2.jobs := by
  rcases deletejob_cases w pid with ⟨_, h2, _⟩ | ⟨i, _, _, _, h4⟩
  · rw [h2]; exact h
  · rw [h4]; exact uniquePids_set_clear h i

theorem uniquePids_addjob {w : World} (h : uniquePids w.jobs) (pid state : Int)
    (cmdline : List Char) (hnew : getjobpid w.jobs pid = none) :
    uniquePids (addjob w pid state cmdline).2.jobs := by
  rcases addjob_cases w pid state cmdline with ⟨_, h2, _⟩ | ⟨i, _, hp, _, h4, _⟩
  · rw [h2]; exact h
  · rw [h4]
    refine uniquePids_set_new h i _ (fun k hk e => ?_)
    unfold getjobpid at hnew
    rw [if_neg (by omega)] at hnew
    have := scan_none hnew k hk
    simp only [beq_eq_false_iff_ne, ne_eq] at this
    exact this e

theorem uniquePids_applyOps :
    ∀ (ops : List JobOp) (w : World), uniquePids w.jobs → addsNewPids w ops = true →
      ∀ k, uniquePids (applyOps w (ops.take k)).jobs := by
  intro ops
  induction ops with
  | nil => intro w h _ k; simpa [applyOps] using h
  | cons op ops ih =>
    intro w h hnew k
    cases k with
    | zero => simpa [applyOps] using h
    | succ k =>
      simp only [List.take_succ_cons, applyOps]
      cases op with
      | add pid state cmdline =>
        simp only [addsNewPids, Bool.and_eq_true, decide_eq_true_eq] at hnew
        exact ih _ (uniquePids_addjob h pid state cmdline hnew.1) hnew.2 k
      | delete pid =>
        simp only [addsNewPids] at hnew
        exact ih _ (uniquePids_deletejob h pid) hnew k

theorem uniquePids_initWorld (v : Int) : uniquePids (initWorld v).jobs := by
  intro a ha b _ _ hocc
  exact absurd (initjobs_zeroJobs_pid a ha) hocc.1

/-- C21, as stated, fails: addjob stores whatever pid it is given without looking for it
in the table, so two calls addjob(5) on the freshly initialised table both succeed and
leave slots 0 and 1 occupied with pid 5. -/
theorem addjob_twice_duplicates_pid :
    (addjob (initWorld 0) 5 BG []).1 = 1 ∧
    (addjob (addjob (initWorld 0) 5 BG []).2 5 BG []).1 = 1 ∧
    (jobAt (applyOps (initWorld 0) [.add 5 BG [], .add 5 BG []]).jobs 0).pid = 5 ∧
    (jobAt (applyOps (initWorld 0) [.add 5 BG [], .add 5 BG []]).jobs 1).pid = 5 ∧
    ¬ uniquePids (applyOps (initWorld 0) [.add 5 BG [], .add 5 BG []]).jobs := by
  refine ⟨by decide, by decide, by decide, by decide, ?_⟩
  intro h
  exact h 0 (by decide) 1 (by decide) (by decide) (by decide) (by decide)

/-- C21, amended: for every sequence of addjob/deletejob calls starting from the freshly
initialised table in which every addjob is called with a pid that no slot of the table
holds at that moment, at every point in the sequence no two occupied slots hold the same
pid. -/
theorem pids_unique_while_adds_are_new (verbose : Int) (ops : List JobOp)
    (hnew : addsNewPids (initWorld verbose) ops = true) (k : Nat) :
    uniquePids (applyOps (initWorld verbose) (ops.take k)).jobs :=
  uniquePids_applyOps ops (initWorld verbose) (uniquePids_initWorld verbose) hnew k

/-- C21, amended, on the calls of `wrapOps`, which add pids 1..17 once each and remove
pid 2. -/
theorem pids_unique_while_adds_are_new_witness :
    addsNewPids (initWorld 0) wrapOps = true ∧
    uniquePids (applyOps (initWorld 0) (wrapOps.take 18)).jobs :=
  ⟨by decide, pids_unique_while_adds_are_new 0 wrapOps (by decide) 18⟩

/-! ## C22: the id counter under addjob -/

theorem jidsPositive_applyOps :
    ∀ (ops : List JobOp) (w : World),
      (1 ≤ w.nextjid ∧ ∀ k, k < MAXJOBS → (jobAt w.jobs k).pid ≠ 0 → 1 ≤ (jobAt w.jobs k).jid) →
      1 ≤ (applyOps w ops).nextjid ∧
        ∀ k, k < MAXJOBS → (jobAt (applyOps w ops).jobs k).pid ≠ 0 →
          1 ≤ (jobAt (applyOps w ops).jobs k).jid := by
  intro ops
  induction ops with
  | nil => intro w h; simpa [applyOps] using h
  | cons op ops ih =>
    intro w h
    simp only [applyOps]
    apply ih
    cases op with
    | add pid state cmdline =>
      simp only [applyOp]
      rcases addjob_cases w pid state cmdline with ⟨_, h2, h3, _⟩ | ⟨i, _, _, _, h4, h5⟩
      · rw [h2, h3]; exact h
      · rw [h4, h5]
        refine ⟨by split <;> omega, fun k hk => ?_⟩
        rw [jobAt_set]
        by_cases hki : k = i ∧ i < w.jobs.length
        · rw [if_pos hki]; exact fun _ => h.1
        · rw [if_neg hki]; exact h.2 k hk
    | delete pid =>
      simp only [applyOp]
      rcases deletejob_cases w pid with ⟨_, h2, _⟩ | ⟨i, _, _, _, h4⟩
      · rw [h2]; exact h
      · rw [h4]
        refine ⟨?_, fun k hk => ?_⟩
        · have := (maxjidFrom_ge (w.jobs.set i (clearjob (jobAt w.jobs i))) MAXJOBS 0 0).1
          show 1 ≤ maxjid _ + 1
          unfold maxjid
          omega
        · show (jobAt (w.jobs.set i (clearjob (jobAt w.jobs i))) k).pid ≠ 0 →
            1 ≤ (jobAt (w.jobs.set i (clearjob (jobAt w.jobs i))) k).jid
          rw [jobAt_set]
          by_cases hki : k = i ∧ i < w.jobs.length
          · rw [if_pos hki]; exact fun hc => absurd rfl hc
          · rw [if_neg hki]; exact h.2 k hk

/-- C22, as stated, fails in its last part: after sixteen adds (jids 1..16, the counter
wrapped to 1) the removal of pid 1 sets nextjid to maxjid(jobs) + 1 = 17, and the next
successful addjob gives its job the jid 17, which is not in 1..16. -/
theorem addjob_assigns_jid_seventeen :
    (applyOps (initWorld 0) (beyondOps.take 17)).nextjid = 17 ∧
    (addjob (applyOps (initWorld 0) (beyondOps.take 17)) 17 BG []).1 = 1 ∧
    (jobAt (applyOps (initWorld 0) beyondOps).jobs 0).pid = 17 ∧
    (jobAt (applyOps (initWorld 0) beyondOps).jobs 0).jid = 17 ∧
    ¬ (jobAt (applyOps (initWorld 0) beyondOps).jobs 0).jid ≤ MAXJOBS := by
  refine ⟨by decide, by decide, by decide, by decide, by decide⟩

/-- C22, amended: for every table of MAXJOBS slots and every counter value, a successful
addjob puts the new job in the first free slot with jid equal to nextjid before the call,
and leaves nextjid equal to that value plus one, or to 1 when that value plus one exceeds
MAXJOBS = 16; so after a successful add made with nextjid >= 0 the counter is in 1..16.
In every state reached from the freshly initialised table by addjob and deletejob calls
nextjid >= 1 and every occupied slot has jid >= 1 (a jid is not bounded by 16). -/
theorem addjob_assigns_counter_and_wraps :
    (∀ (w : World) (pid state : Int) (cmdline : List Char),
      w.jobs.length = MAXJOBS → (addjob w pid state cmdline).1 = 1 →
      ∃ i, i < MAXJOBS ∧ (jobAt w.jobs i).pid = 0 ∧
        (∀ m, m < i → (jobAt w.jobs m).pid ≠ 0) ∧
        (jobAt (addjob w pid state cmdline).2.jobs i).pid = pid ∧
        (jobAt (addjob w pid state cmdline).2.jobs i).jid = w.nextjid ∧
        (addjob w pid state cmdline).2.nextjid =
          (if w.nextjid + 1 > MAXJOBS then 1 else w.nextjid + 1) ∧
        (0 ≤ w.nextjid → 1 ≤ (addjob w pid state cmdline).2.nextjid ∧
          (addjob w pid state cmdline).2.nextjid ≤ MAXJOBS)) ∧
    (∀ (verbose : Int) (ops : List JobOp),
      1 ≤ (applyOps (initWorld verbose) ops).nextjid ∧
      ∀ k, k < MAXJOBS → (jobAt (applyOps (initWorld verbose) ops).jobs k).pid ≠ 0 →
        1 ≤ (jobAt (applyOps (initWorld verbose) ops).jobs k).jid) := by
  constructor
  · intro w pid state cmdline hlen hok
    rcases addjob_cases w pid state cmdline with ⟨h1, _⟩ | ⟨i, hs, _, _, h4, h5⟩
    · rw [h1] at hok; exact absurd hok (by decide)
    · obtain ⟨hi, hp, hfirst⟩ := scan_some hs
      have hi2 : i < w.jobs.length := by rw [hlen]; exact hi
      refine ⟨i, hi, by simpa using hp, fun m hm => by simpa using hfirst m hm, ?_, ?_, h5, ?_⟩
      · rw [h4, jobAt_set_self _ _ hi2]
      · rw [h4, jobAt_set_self _ _ hi2]
      · intro h0
        rw [h5]
        unfold MAXJOBS
        split <;> omega
  · intro verbose ops
    refine jidsPositive_applyOps ops (initWorld verbose) ⟨le_refl _, fun k hk hocc => ?_⟩
    exact absurd (initjobs_zeroJobs_pid k hk) hocc

/-- C22, amended, on the seventeenth add of `beyondOps`: made with nextjid = 17, it stores
jid 17 in slot 0 and wraps the counter to 1. -/
theorem addjob_assigns_counter_and_wraps_witness :
    (applyOps (initWorld 0) (beyondOps.take 17)).jobs.length = MAXJOBS ∧
    (addjob (applyOps (initWorld 0) (beyondOps.take 17)) 17 BG []).1 = 1 ∧
    ∃ i, i < MAXJOBS ∧ (jobAt (applyOps (initWorld 0) (beyondOps.take 17)).jobs i).pid = 0 ∧
        (∀ m, m < i → (jobAt (applyOps (initWorld 0) (beyondOps.take 17)).jobs m).pid ≠ 0) ∧
        (jobAt (addjob (applyOps (initWorld 0) (beyondOps.take 17)) 17 BG []).2.jobs i).pid
          = 17 ∧
        (jobAt (addjob (applyOps (initWorld 0) (beyondOps.take 17)) 17 BG []).2.jobs i).jid
          = (applyOps (initWorld 0) (beyondOps.take 17)).nextjid ∧
        (addjob (applyOps (initWorld 0) (beyondOps.take 17)) 17 BG []).2.nextjid =
          (if (applyOps (initWorld 0) (beyondOps.take 17)).nextjid + 1 > MAXJOBS then 1
            else (applyOps (initWorld 0) (beyondOps.take 17)).nextjid + 1) ∧
        (0 ≤ (applyOps (initWorld 0) (beyondOps.take 17)).nextjid →
          1 ≤ (addjob (applyOps (initWorld 0) (beyondOps.take 17)) 17 BG []).2.nextjid ∧
          (addjob (applyOps (initWorld 0) (beyondOps.take 17)) 17 BG []).2.nextjid
            ≤ MAXJOBS) :=
  ⟨by decide, by decide,
    addjob_assigns_counter_and_wraps.1 (applyOps (initWorld 0) (beyondOps.take 17)) 17 BG []
      (by decide) (by decide)⟩

/-! ## C36: looking up the job addjob stored -/

theorem cstr_cstr (buf : List Char) : cstr (cstr buf) = cstr buf := by
  unfold cstr
  induction buf with
  | nil => rfl
  | cons c cs ih =>
    by_cases hc : (c != NUL) = true
    · simp only [List.takeWhile_cons, hc, if_true]
      rw [ih]
    · simp [List.takeWhile_cons, hc]

theorem cstr_append_nul (a rest : List Char) (ha : cstr a = a) :
    cstr (a ++ [NUL] ++ rest) = a := by
  unfold cstr at ha ⊢
  induction a with
  | nil => simp [List.takeWhile_cons]
  | cons c cs ih =>
    by_cases hc : (c != NUL) = true
    · simp only [List.takeWhile_cons, hc, if_true, List.cons.injEq, true_and] at ha
      simp only [List.cons_append, List.takeWhile_cons, hc, if_true]
      rw [ih ha]
    · simp [List.takeWhile_cons, hc] at ha

theorem cstr_strcpy (dst src : List Char) : cstr (strcpy dst src) = cstr src := by
  unfold strcpy
  exact cstr_append_nul _ _ (cstr_cstr src)

/-- C36: for every table of MAXJOBS slots and every pid >= 1 that no slot holds, if addjob
returns 1 then the new job is in the lowest-indexed slot that was empty, getjobpid finds
that slot and the job in it has the pid, the state and the command line given, pid2jid
gives its jid (nextjid before the call), getjobjid of that jid finds the same slot when
the jid is at least 1 and no other slot has it, and every other slot is unchanged. -/
theorem lookup_finds_added_job (w : World) (pid state : Int) (cmdline : List Char)
    (hlen : w.jobs.length = MAXJOBS) (hpid : 1 ≤ pid)
    (hnew : ∀ k, k < MAXJOBS → (jobAt w.jobs k).pid ≠ pid)
    (hok : (addjob w pid state cmdline).1 = 1) :
    ∃ i, i < MAXJOBS ∧ (jobAt w.jobs i).pid = 0 ∧
      (∀ m, m < i → (jobAt w.jobs m).pid ≠ 0) ∧
      getjobpid (addjob w pid state cmdline).2.jobs pid = some i ∧
      (jobAt (addjob w pid state cmdline).2.jobs i).pid = pid ∧
      (jobAt (addjob w pid state cmdline).2.jobs i).state = state ∧
      cstr (jobAt (addjob w pid state cmdline).2.jobs i).cmdline = cstr cmdline ∧
      (jobAt (addjob w pid state cmdline).2.jobs i).jid = w.nextjid ∧
      pid2jid (addjob w pid state cmdline).2 pid = w.nextjid ∧
      (1 ≤ w.nextjid →
        (∀ k, k < MAXJOBS → k ≠ i → (jobAt w.jobs k).jid ≠ w.nextjid) →
        getjobjid (addjob w pid state cmdline).2.jobs w.nextjid = some i) ∧
      (∀ k, k < MAXJOBS → k ≠ i →
        jobAt (addjob w pid state cmdline).2.jobs k = jobAt w.jobs k) := by
  rcases addjob_cases w pid state cmdline with ⟨h1, _⟩ | ⟨i, hs, _, _, h4, _⟩
  · rw [h1] at hok; exact absurd hok (by decide)
  · obtain ⟨hi, hp, hfirst⟩ := scan_some hs
    have hi2 : i < w.jobs.length := by rw [hlen]; exact hi
    have hat : jobAt (addjob w pid state cmdline).2.jobs i =
        ⟨pid, w.nextjid, state, strcpy (jobAt w.jobs i).cmdline cmdline⟩ := by
      rw [h4, jobAt_set_self _ _ hi2]
    have hother : ∀ k, k ≠ i →
        jobAt (addjob w pid state cmdline).2.jobs k = jobAt w.jobs k := by
      intro k hk
      rw [h4, jobAt_set_ne _ _ hk]
    have hscan : scan (fun j => j.pid == pid) (addjob w pid state cmdline).2.jobs = some i := by
      apply scan_eq_some hi
      · rw [hat]; simp
      · intro m hm
        rw [hother m (by omega)]
        simpa using hnew m (by omega)
    refine ⟨i, hi, by simpa using hp, fun m hm => by simpa using hfirst m hm, ?_, ?_, ?_, ?_,
      ?_, ?_, ?_, fun k _ hk => hother k hk⟩
    · unfold getjobpid
      rw [if_neg (by omega), hscan]
    · rw [hat]
    · rw [hat]
    · rw [hat]; exact cstr_strcpy _ _
    · rw [hat]
    · unfold pid2jid
      rw [if_neg (by omega), hscan]
      show (jobAt (addjob w pid state cmdline).2.jobs i).jid = w.nextjid
      rw [hat]
    · intro hj huniq
      unfold getjobjid
      rw [if_neg (by omega)]
      apply scan_eq_some hi
      · rw [hat]; simp
      · intro m hm
        rw [hother m (by omega)]
        simpa using huniq m (by omega) (by omega)

/-- C36 on the fresh table: addjob(100, BG, "sleep 5 &\n") fills slot 0 with jid 1. -/
theorem lookup_finds_added_job_witness :
    (addjob (initWorld 0) 100 BG "sleep 5 &\n".toList).1 = 1 ∧
    ∃ i, i < MAXJOBS ∧ (jobAt (initWorld 0).jobs i).pid = 0 ∧
      (∀ m, m < i → (jobAt (initWorld 0).jobs m).pid ≠ 0) ∧
      getjobpid (addjob (initWorld 0) 100 BG "sleep 5 &\n".toList).2.jobs 100 = some i ∧
      (jobAt (addjob (initWorld 0) 100 BG "sleep 5 &\n".toList).2.jobs i).pid = 100 ∧
      (jobAt (addjob (initWorld 0) 100 BG "sleep 5 &\n".toList).2.jobs i).state = BG ∧
      cstr (jobAt (addjob (initWorld 0) 100 BG "sleep 5 &\n".toList).2.jobs i).cmdline =
        cstr "sleep 5 &\n".toList ∧
      (jobAt (addjob (initWorld 0) 100 BG "sleep 5 &\n".toList).2.jobs i).jid =
        (initWorld 0).nextjid ∧
      pid2jid (addjob (initWorld 0) 100 BG "sleep 5 &\n".toList).2 100 =
        (initWorld 0).nextjid ∧
      (1 ≤ (initWorld 0).nextjid →
        (∀ k, k < MAXJOBS → k ≠ i → (jobAt (initWorld 0).jobs k).jid ≠ (initWorld 0).nextjid) →
        getjobjid (addjob (initWorld 0) 100 BG "sleep 5 &\n".toList).2.jobs
          (initWorld 0).nextjid = some i) ∧
      (∀ k, k < MAXJOBS → k ≠ i →
        jobAt (addjob (initWorld 0) 100 BG "sleep 5 &\n".toList).2.jobs k =
          jobAt (initWorld 0).jobs k) :=
  ⟨by decide,
    lookup_finds_added_job (initWorld 0) 100 BG "sleep 5 &\n".toList (by decide) (by decide)
      (by decide) (by decide)⟩

end Bsh

namespace Puzzles

set_option maxRecDepth 100000

/-! ## Facts about the 32-bit operations -/

theorem toInt_of_lt {x : Nat} (h : x < 2147483648) : toInt x = (x : Int) := by
  unfold toInt; rw [if_pos h]

theorem toInt_of_ge {x : Nat} (h : 2147483648 ≤ x) : toInt x = (x : Int) - 4294967296 := by
  unfold toInt; rw [if_neg (by omega)]

theorem sar_of_lt {x : Nat} (h : x < 2147483648) (n : Nat) : sar x n = x / 2 ^ n := by
  unfold sar
  rw [toInt_of_lt h]
  have h1 : (x : Int) / 2 ^ n = ((x / 2 ^ n : Nat) : Int) := by push_cast; rfl
  rw [h1]
  unfold ofInt
  have h2 : x / 2 ^ n ≤ x := Nat.div_le_self _ _
  generalize x / 2 ^ n = k at h2 ⊢
  omega

theorem sar_of_ge {x : Nat} (h : 2147483648 ≤ x) (hx : x < 4294967296) {n : Nat}
    (hn : n ≤ 31) : sar x n = x / 2 ^ n + (4294967296 - 2 ^ (32 - n)) := by
  unfold sar
  rw [toInt_of_ge h]
  have hq : (2 : Nat) ^ (32 - n) * 2 ^ n = 4294967296 := by
    rw [← Nat.pow_add, Nat.sub_add_cancel (by omega)]
  have h1 : ((x : Int) - 4294967296) / 2 ^ n =
      ((x / 2 ^ n : Nat) : Int) - ((2 ^ (32 - n) : Nat) : Int) := by
    have h2 : ((x : Int) - 4294967296) = (x : Int) + (-((2 ^ (32 - n) : Nat) : Int)) * 2 ^ n := by
      have : ((2 ^ (32 - n) * 2 ^ n : Nat) : Int) = 4294967296 := by rw [hq]; rfl
      push_cast at this ⊢
      linarith
    rw [h2, Int.add_mul_ediv_right _ _ (by positivity)]
    push_cast
    ring
  rw [h1]
  unfold ofInt
  have hk : x / 2 ^ n < 2 ^ (32 - n) := by
    rw [Nat.div_lt_iff_lt_mul (Nat.two_pow_pos _), hq]; exact hx
  have hq2 : 2 ^ (32 - n) ≤ 4294967296 := by
    rw [← hq]; exact Nat.le_mul_of_pos_right _ (Nat.two_pow_pos _)
  generalize x / 2 ^ n = k at hk ⊢
  generalize 2 ^ (32 - n) = q at hk hq2 ⊢
  omega

theorem sar_31 {x : Nat} (hx : x < 4294967296) :
    sar x 31 = if x < 2147483648 then 0 else 4294967295 := by
  split
  · next h => rw [sar_of_lt h]; norm_num; omega
  · next h => rw [sar_of_ge (by omega) hx (by omega)]; norm_num; omega

theorem and_ones {x : Nat} (hx : x < 4294967296) : x &&& 4294967295 = x :=
  Nat.and_pow_two_sub_one_of_lt_two_pow (n := 32) hx

theorem bnot_lt (x : Nat) : bnot x < 4294967296 := by unfold bnot; omega

theorem bnot_zero : bnot 0 = 4294967295 := rfl

theorem bnot_ones : bnot 4294967295 = 0 := rfl

/-! ## C24: bitFit -/

theorem bitFit_eq (x n : Nat) (hx : x < 4294967296) (h1 : 1 ≤ n) (h32 : n ≤ 32) :
    bitFit x n = lnot ((if x < 2147483648 then x else 4294967295 - x) / 2 ^ (n - 1)) := by
  have hy : add ((bnot x) &&& (sar x 31)) (x &&& (bnot (sar x 31))) =
      if x < 2147483648 then x else 4294967295 - x := by
    rw [sar_31 hx]
    split
    · rw [Nat.and_zero, bnot_zero, and_ones hx]; unfold add; omega
    · rw [bnot_ones, Nat.and_zero, and_ones (bnot_lt x)]; unfold add bnot; omega
  have hn : add n (bnot 0) = n - 1 := by unfold add bnot; omega
  unfold bitFit
  simp only []
  rw [hy, hn, sar_of_lt (by split <;> omega)]

/-- C24: for every 32-bit pattern x and every n with 1 <= n <= 32, bitFit(x, n) is 1 if
the two's-complement value of x lies in -2^(n-1) .. 2^(n-1) - 1 and 0 otherwise; and
bitFit(5, 3) = 0, bitFit(-4, 3) = 1. -/
theorem bitFit_one_iff_fits (x n : Nat) (hx : x < 4294967296) (h1 : 1 ≤ n) (h32 : n ≤ 32) :
    bitFit x n =
      (if -(2 : Int) ^ (n - 1) ≤ toInt x ∧ toInt x ≤ 2 ^ (n - 1) - 1 then 1 else 0) ∧
    bitFit 5 3 = 0 ∧ bitFit (ofInt (-4)) 3 = 1 := by
  refine ⟨?_, by decide, by decide⟩
  rw [bitFit_eq x n hx h1 h32]
  have hp : 0 < 2 ^ (n - 1) := Nat.two_pow_pos _
  have hc : (2 : Int) ^ (n - 1) = ((2 ^ (n - 1) : Nat) : Int) := by push_cast; rfl
  rw [hc]
  unfold lnot toInt
  simp only [Nat.div_eq_zero_iff hp]
  generalize 2 ^ (n - 1) = p at hp ⊢
  split_ifs <;> omega

/-- C24 at x = -4 (pattern 0xFFFFFFFC), n = 3. -/
theorem bitFit_one_iff_fits_witness :
    bitFit 4294967292 3 =
      (if -(2 : Int) ^ (3 - 1) ≤ toInt 4294967292 ∧ toInt 4294967292 ≤ 2 ^ (3 - 1) - 1
        then 1 else 0) ∧
    bitFit 5 3 = 0 ∧ bitFit (ofInt (-4)) 3 = 1 :=
  bitFit_one_iff_fits 4294967292 3 (by decide) (by decide) (by decide)

/-! ## C25: addOverflow -/

theorem msb_eq {t : Nat} (ht : t < 4294967296) : t.testBit 31 = decide (2147483648 ≤ t) := by
  rw [Nat.testBit_to_div_mod]
  congr 1
  apply propext
  norm_num
  omega

theorem add_lt (x y : Nat) : add x y < 4294967296 := by unfold add; omega

theorem lnot_sar_31 {t : Nat} (ht : t < 4294967296) :
    lnot (sar t 31) = if t < 2147483648 then 1 else 0 := by
  rw [sar_31 ht]
  unfold lnot
  split <;> simp

/-- C25: for all 32-bit patterns x and y, with the sum computed modulo 2^32,
addOverflow(x, y) is 1 if the exact sum of the two's-complement values lies in
-2^31 .. 2^31 - 1 and 0 otherwise; and addOverflow(0x80000000, 0x80000000) = 0,
addOverflow(0x80000000, 0x70000000) = 1. -/
theorem addOverflow_one_iff_sum_fits (x y : Nat) (hx : x < 4294967296) (hy : y < 4294967296) :
    addOverflow x y =
      (if -2147483648 ≤ toInt x + toInt y ∧ toInt x + toInt y ≤ 2147483647 then 1 else 0) ∧
    addOverflow 0x80000000 0x80000000 = 0 ∧ addOverflow 0x80000000 0x70000000 = 1 := by
  refine ⟨?_, by decide, by decide⟩
  have hs := add_lt x y
  have ht : ((add x y) ^^^ x) &&& ((add x y) ^^^ y) < 4294967296 :=
    Nat.and_lt_two_pow (n := 32) _ (Nat.xor_lt_two_pow (n := 32) hs hy)
  have hbit := msb_eq ht
  rw [Nat.testBit_and, Nat.testBit_xor, Nat.testBit_xor, msb_eq hs, msb_eq hx, msb_eq hy]
    at hbit
  unfold addOverflow
  simp only []
  rw [lnot_sar_31 ht]
  have hsum : add x y = (x + y) % 4294967296 := rfl
  unfold toInt
  generalize ((add x y) ^^^ x) &&& ((add x y) ^^^ y) = t at hbit ⊢
  generalize add x y = s at hbit hsum hs
  by_cases h1 : 2147483648 ≤ s <;> by_cases h2 : 2147483648 ≤ x <;>
    by_cases h3 : 2147483648 ≤ y <;> simp [h1, h2, h3] at hbit <;> split_ifs <;> omega

/-- C25 at x = 0x80000000 (-2^31) and y = 0x70000000. -/
theorem addOverflow_one_iff_sum_fits_witness :
    addOverflow 2147483648 1879048192 =
      (if -2147483648 ≤ toInt 2147483648 + toInt 1879048192 ∧
          toInt 2147483648 + toInt 1879048192 ≤ 2147483647 then 1 else 0) ∧
    addOverflow 0x80000000 0x80000000 = 0 ∧ addOverflow 0x80000000 0x70000000 = 1 :=
  addOverflow_one_iff_sum_fits 2147483648 1879048192 (by decide) (by decide)

/-! ## C26: shiftLogical -/

theorem shiftLogical_mask {n : Nat} (hn : n ≤ 31) :
    bnot (shl (sar (shl 1 31) n) 1) = 2 ^ (32 - n) - 1 := by
  interval_cases n <;> rfl

theorem div_lt_pow {x n : Nat} (hx : x < 4294967296) (hn : n ≤ 31) :
    x / 2 ^ n < 2 ^ (32 - n) := by
  have hq : (2 : Nat) ^ (32 - n) * 2 ^ n = 4294967296 := by
    rw [← Nat.pow_add, Nat.sub_add_cancel (by omega)]
  rw [Nat.div_lt_iff_lt_mul (Nat.two_pow_pos _), hq]; exact hx

/-- C26: for every 32-bit pattern x and every n with 0 <= n <= 31, shiftLogical(x, n) is
the pattern of x, read as an unsigned number, divided by 2^n, so its top n bits are zero;
and shiftLogical(0x87654321, 4) = 0x08765432. -/
theorem shiftLogical_is_unsigned_shift (x n : Nat) (hx : x < 4294967296) (hn : n ≤ 31) :
    shiftLogical x n = x / 2 ^ n ∧ shiftLogical x n < 2 ^ (32 - n) ∧
    shiftLogical 0x87654321 4 = 0x08765432 := by
  have hk := div_lt_pow hx hn
  have hmain : shiftLogical x n = x / 2 ^ n := by
    unfold shiftLogical
    simp only []
    rw [shiftLogical_mask hn, Nat.and_pow_two_sub_one_eq_mod]
    by_cases h : x < 2147483648
    · rw [sar_of_lt h, Nat.mod_eq_of_lt hk]
    · rw [sar_of_ge (by omega) hx hn]
      have hq : 4294967296 - 2 ^ (32 - n) = 2 ^ (32 - n) * (2 ^ n - 1) := by
        rw [Nat.mul_sub, ← Nat.pow_add, Nat.sub_add_cancel (by omega), Nat.mul_one]
      rw [hq, Nat.add_mul_mod_self_left, Nat.mod_eq_of_lt hk]
  refine ⟨hmain, ?_, by decide⟩
  rw [hmain]; exact hk

/-- C26 at x = 0x87654321, n = 4. -/
theorem shiftLogical_is_unsigned_shift_witness :
    shiftLogical 2271560481 4 = 2271560481 / 2 ^ 4 ∧
    shiftLogical 2271560481 4 < 2 ^ (32 - 4) ∧
    shiftLogical 0x87654321 4 = 0x08765432 :=
  shiftLogical_is_unsigned_shift 2271560481 4 (by decide) (by decide)

/-! ## C28: signMagnitude -/

theorem xor_ones {a : Nat} (ha : a < 4294967296) : a ^^^ 4294967295 = 4294967295 - a := by
  apply Nat.eq_of_testBit_eq
  intro i
  have h1 : (4294967295 : Nat) = 2 ^ 32 - 1 := rfl
  have h2 : 4294967295 - a = 2 ^ 32 - (a + 1) := by omega
  rw [Nat.testBit_xor, h2, Nat.testBit_two_pow_sub_succ (n := 32) ha, h1,
    Nat.testBit_two_pow_sub_one]
  by_cases hi : i < 32
  · simp [hi]
  · have h32 : (2 : Nat) ^ 32 ≤ 2 ^ i := Nat.pow_le_pow_right (by decide) (by omega)
    have : a < 2 ^ i := lt_of_lt_of_le ha h32
    simp [hi, Nat.testBit_lt_two_pow this]

theorem or_msb {a : Nat} (ha : a < 2147483648) : a ||| 2147483648 = 2147483648 + a := by
  have := Nat.mul_add_lt_is_or (i := 31) (b := a) ha 1
  rw [Nat.or_comm]
  simpa using this.symm

/-- C28: for every 32-bit pattern x whose two's-complement value is above -2^31, the most
significant bit of signMagnitude(x) is 1 exactly when the value is negative and the low
31 bits are the absolute value; and signMagnitude(-5) = 0x80000005, signMagnitude(0) = 0. -/
theorem signMagnitude_sign_and_magnitude (x : Nat) (hx : x < 4294967296)
    (hmin : -2147483648 < toInt x) :
    signMagnitude x < 4294967296 ∧
    signMagnitude x / 2147483648 = (if toInt x < 0 then 1 else 0) ∧
    signMagnitude x % 2147483648 = (toInt x).natAbs ∧
    signMagnitude (ofInt (-5)) = 0x80000005 ∧ signMagnitude 0 = 0 := by
  have hval : signMagnitude x =
      if x < 2147483648 then x else 2147483648 + (4294967296 - x) := by
    unfold signMagnitude
    simp only []
    rw [sar_31 hx]
    split
    · show (add x 0) ^^^ 0 ||| 0 = x
      rw [Nat.or_zero, Nat.xor_zero]; unfold add; omega
    · next h =>
      have hx2 : 2147483648 < x := by unfold toInt at hmin; rw [if_neg h] at hmin; omega
      have hadd : add x 4294967295 = x - 1 := by unfold add; omega
      have hsign : shl 4294967295 31 = 2147483648 := rfl
      rw [hadd, hsign, xor_ones (by omega), or_msb (by omega)]
      omega
  unfold toInt at hmin ⊢
  refine ⟨?_, ?_, ?_, by decide, by decide⟩ <;> rw [hval] <;>
    split_ifs at hmin ⊢ <;> omega

/-- C28 at x = -5 (pattern 0xFFFFFFFB). -/
theorem signMagnitude_sign_and_magnitude_witness :
    signMagnitude 4294967291 < 4294967296 ∧
    signMagnitude 4294967291 / 2147483648 = (if toInt 4294967291 < 0 then 1 else 0) ∧
    signMagnitude 4294967291 % 2147483648 = (toInt 4294967291).natAbs ∧
    signMagnitude (ofInt (-5)) = 0x80000005 ∧ signMagnitude 0 = 0 :=
  signMagnitude_sign_and_magnitude 4294967291 (by decide) (by decide)

/-! ## C23: fp_twice -/

theorem and_msb {a : Nat} (ha : a < 4294967296) :
    a &&& 2147483648 = if a < 2147483648 then 0 else 2147483648 := by
  apply Nat.eq_of_testBit_eq
  intro i
  have h1 : (2147483648 : Nat) = 2 ^ 31 := rfl
  rw [Nat.testBit_and]
  by_cases hi : i = 31
  · subst hi
    rw [msb_eq ha]
    split
    · next h => simp; omega
    · next h => rw [h1, Nat.testBit_two_pow_self]; simp; omega
  · have h2 : Nat.testBit 2147483648 i = false := by
      rw [h1]; exact Nat.testBit_two_pow_of_ne (Ne.symm hi)
    rw [h2]
    split <;> simp [h2]

theorem fp_twice_eq (uf : Nat) (h : uf < 4294967296) :
    fp_twice uf =
      if uf = 0 then uf
      else if expOf uf = 0 then signOf uf * 2147483648 + 2 * fracOf uf
      else if expOf uf = 255 then uf
      else uf + 8388608 := by
  have hexp : (shr uf 23) &&& 0xFF = expOf uf := by
    unfold shr expOf
    rw [Nat.shiftRight_eq_div_pow]
    exact Nat.and_pow_two_sub_one_eq_mod _ 8
  have hle : expOf uf < 256 := by unfold expOf; omega
  unfold fp_twice
  simp only []
  rw [hexp]
  unfold lnot
  by_cases h0 : uf = 0
  · simp [h0]
  · rw [if_neg h0, if_neg (by decide), if_neg h0]
    by_cases he : expOf uf = 0
    · rw [if_pos he, if_pos (by decide), if_pos he]
      have hs : shl 1 31 = 2147483648 := rfl
      rw [hs, and_msb h]
      unfold expOf at he
      unfold shl signOf fracOf
      rw [Nat.shiftLeft_eq]
      split
      · rw [Nat.zero_or]; omega
      · rw [Nat.or_comm, or_msb (by omega)]; omega
    · rw [if_neg he, if_neg (by decide), if_neg he]
      by_cases hf : expOf uf = 255
      · rw [if_pos hf, if_pos hf]
      · rw [if_neg hf, if_neg hf]
        have hs : shl 1 23 = 8388608 := rfl
        rw [hs]
        unfold expOf at he hf hle
        unfold add
        omega

/-- C23: what fp_twice returns, for every 32-bit pattern uf.  A NaN is returned as it is,
and whenever the exponent field is not 254 the result is the pattern of 2*f (`twiceBits`).
With exponent field 254 the result is uf + 2^23: exponent field 255 with the fraction of
uf kept, which is the infinity of the same sign only when the fraction is zero and is a
NaN, different from the pattern of 2*f, when it is not (0x7F7FFFFF gives 0x7FFFFFFF). -/
theorem fp_twice_keeps_fraction_at_exponent_254 (uf : Nat) (h : uf < 4294967296) :
    (isNaN uf → fp_twice uf = uf) ∧
    (expOf uf ≠ 254 → fp_twice uf = twiceBits uf) ∧
    (expOf uf = 254 →
      fp_twice uf = mkFloat (signOf uf) 255 (fracOf uf) ∧
      (fracOf uf = 0 → fp_twice uf = twiceBits uf) ∧
      (fracOf uf ≠ 0 → isNaN (fp_twice uf) ∧ fp_twice uf ≠ twiceBits uf)) := by
  rw [fp_twice_eq uf h]
  unfold isNaN twiceBits mkFloat
  refine ⟨?_, ?_, ?_⟩
  · rintro ⟨h1, h2⟩
    have h0 : uf ≠ 0 := by rintro rfl; exact absurd h1 (by decide)
    rw [if_neg h0, if_neg (by omega), if_pos h1]
  · intro h254
    by_cases h0 : uf = 0
    · subst h0; decide
    · rw [if_neg h0]
      by_cases he : expOf uf = 0
      · rw [if_pos he, if_neg (by omega), if_pos he]
      · rw [if_neg he, if_neg he]
        by_cases hf : expOf uf = 255
        · rw [if_pos hf, if_pos hf]
        · have hlt : expOf uf < 254 := by
            have : expOf uf < 256 := by unfold expOf; omega
            omega
          rw [if_neg hf, if_neg hf, if_pos hlt]
          unfold expOf signOf fracOf
          omega
  · intro h254
    have h0 : uf ≠ 0 := by rintro rfl; exact absurd h254 (by decide)
    rw [if_neg h0, if_neg (by omega), if_neg (by omega), if_neg (by omega), if_neg (by omega),
      if_neg (by omega)]
    unfold expOf at h254
    unfold expOf signOf fracOf
    refine ⟨by omega, fun hz => by omega, fun hnz => ⟨⟨by omega, by omega⟩, by omega⟩⟩

/-- C23 at uf = 0x7F7FFFFF, the largest finite float: fp_twice returns 0x7FFFFFFF. -/
theorem fp_twice_keeps_fraction_at_exponent_254_witness :
    fp_twice 2139095039 = 2147483647 ∧ twiceBits 2139095039 = 2139095040 ∧
    expOf 2139095039 = 254 ∧ fracOf 2139095039 ≠ 0 ∧
    isNaN (fp_twice 2139095039) ∧ fp_twice 2139095039 ≠ twiceBits 2139095039 :=
  ⟨by decide, by decide, by decide, by decide,
    ((fp_twice_keeps_fraction_at_exponent_254 2139095039 (by decide)).2.2 (by decide)).2.2
      (by decide)⟩

/-! ## C27: byteSwitch -/

theorem shl_three {n : Nat} (hn : n ≤ 3) : shl n 3 = 8 * n := by
  unfold shl; rw [Nat.shiftLeft_eq]; omega

theorem shl_lt (a k : Nat) : shl a k < 4294967296 := by unfold shl; omega

theorem testBit_ge_32 {a i : Nat} (ha : a < 4294967296) (hi : 32 ≤ i) : a.testBit i = false := by
  have h32 : (2 : Nat) ^ 32 ≤ 2 ^ i := Nat.pow_le_pow_right (by decide) hi
  exact Nat.testBit_lt_two_pow (lt_of_lt_of_le ha h32)

theorem byte_and_sar {x n : Nat} (hx : x < 4294967296) (hn : n ≤ 3) :
    0xFF &&& (sar x (8 * n)) = byteOf x n := by
  rw [Nat.and_comm]
  have h1 : sar x (8 * n) &&& 0xFF = sar x (8 * n) % 2 ^ 8 :=
    Nat.and_pow_two_sub_one_eq_mod _ 8
  rw [h1]
  unfold byteOf
  by_cases h : x < 2147483648
  · rw [sar_of_lt h]; rfl
  · rw [sar_of_ge (by omega) hx (by omega)]
    interval_cases n <;> norm_num <;> omega

theorem testBit_byteOf (x k j : Nat) :
    (byteOf x k).testBit j = (decide (j < 8) && x.testBit (8 * k + j)) := by
  unfold byteOf
  have h : x / 2 ^ (8 * k) % 256 = (x >>> (8 * k)) % 2 ^ 8 := by
    rw [Nat.shiftRight_eq_div_pow]; rfl
  rw [h, Nat.testBit_mod_two_pow, Nat.testBit_shiftRight]

theorem testBit_shl_byte (b n i : Nat) :
    (shl b (8 * n)).testBit i =
      (decide (i < 32) && (decide (8 * n ≤ i) && b.testBit (i - 8 * n))) := by
  unfold shl
  have h : (4294967296 : Nat) = 2 ^ 32 := rfl
  rw [h, Nat.testBit_mod_two_pow, Nat.testBit_shiftLeft]

theorem testBit_FF (j : Nat) : Nat.testBit 0xFF j = decide (j < 8) :=
  Nat.testBit_two_pow_sub_one 8 j

theorem testBit_ones (j : Nat) : Nat.testBit 4294967295 j = decide (j < 32) :=
  Nat.testBit_two_pow_sub_one 32 j

theorem byteSwitch_lt (x n m : Nat) (hx : x < 4294967296) : byteSwitch x n m < 4294967296 := by
  unfold byteSwitch
  simp only []
  exact Nat.or_lt_two_pow (n := 32)
    (lt_of_le_of_lt Nat.and_le_left hx)
    (Nat.or_lt_two_pow (n := 32) (shl_lt _ _) (shl_lt _ _))

theorem testBit_byteSwitch (x n m i : Nat) (hx : x < 4294967296) (hn : n ≤ 3) (hm : m ≤ 3)
    (hi : i < 32) :
    (byteSwitch x n m).testBit i = x.testBit (8 * swapped n m (i / 8) + i % 8) := by
  unfold byteSwitch
  simp only []
  rw [shl_three hn, shl_three hm, byte_and_sar hx hn, byte_and_sar hx hm, bnot_zero]
  simp only [Nat.testBit_or, Nat.testBit_and, Nat.testBit_xor, testBit_shl_byte, testBit_FF, testBit_ones, testBit_byteOf, hi, decide_True,
    Bool.true_and, Bool.xor_true]
  unfold swapped
  by_cases c1 : 8 * n ≤ i <;> by_cases c2 : i - 8 * n < 8 <;> by_cases c3 : 8 * m ≤ i <;>
    by_cases c4 : i - 8 * m < 8 <;>
    simp only [c1, c2, c3, c4, decide_True, decide_False, Bool.true_and, Bool.false_and,
      Bool.or_false, Bool.false_or, Bool.not_true, Bool.not_false, Bool.and_true,
      Bool.and_false, Bool.or_self, Bool.or_true, Bool.true_or] <;>
    split_ifs <;>
    first
      | omega
      | (congr 1; omega)
      | (have e1 : 8 * m + (i - 8 * n) = 8 * m + i % 8 := by omega
         have e2 : 8 * n + (i - 8 * m) = 8 * m + i % 8 := by omega
         rw [e1, e2, Bool.or_self])

theorem swapped_le {n m k : Nat} (hn : n ≤ 3) (hm : m ≤ 3) (hk : k ≤ 3) :
    swapped n m k ≤ 3 := by
  unfold swapped; split_ifs <;> omega

theorem swapped_swapped (n m k : Nat) : swapped n m (swapped n m k) = k := by
  unfold swapped; split_ifs <;> omega

theorem byteOf_byteSwitch (x n m k : Nat) (hx : x < 4294967296) (hn : n ≤ 3) (hm : m ≤ 3)
    (hk : k ≤ 3) : byteOf (byteSwitch x n m) k = byteOf x (swapped n m k) := by
  apply Nat.eq_of_testBit_eq
  intro j
  rw [testBit_byteOf, testBit_byteOf]
  by_cases hj : j < 8
  · rw [testBit_byteSwitch x n m (8 * k + j) hx hn hm (by omega)]
    have e1 : (8 * k + j) / 8 = k := by omega
    have e2 : (8 * k + j) % 8 = j := by omega
    rw [e1, e2]
  · simp [hj]

theorem byteSwitch_byteSwitch (x n m : Nat) (hx : x < 4294967296) (hn : n ≤ 3) (hm : m ≤ 3) :
    byteSwitch (byteSwitch x n m) n m = x := by
  have h1 := byteSwitch_lt x n m hx
  have h2 := byteSwitch_lt (byteSwitch x n m) n m h1
  apply Nat.eq_of_testBit_eq
  intro i
  by_cases hi : i < 32
  · have hs := swapped_le hn hm (show i / 8 ≤ 3 by omega)
    rw [testBit_byteSwitch _ n m i h1 hn hm hi,
      testBit_byteSwitch x n m _ hx hn hm (by omega)]
    have e1 : (8 * swapped n m (i / 8) + i % 8) / 8 = swapped n m (i / 8) := by omega
    have e2 : (8 * swapped n m (i / 8) + i % 8) % 8 = i % 8 := by omega
    rw [e1, e2, swapped_swapped]
    congr 1
    omega
  · rw [testBit_ge_32 h2 (by omega), testBit_ge_32 hx (by omega)]

/-- C27: for every 32-bit pattern x and all n, m in 0..3 (n = m and byte 3 included), byte
n of byteSwitch(x, n, m) is byte m of x, byte m is byte n of x, and every other byte is
that of x; the result is a 32-bit pattern, and switching the same bytes again gives x
back; and byteSwitch(0x12345678, 1, 3) = 0x56341278. -/
theorem byteSwitch_swaps_bytes (x n m : Nat) (hx : x < 4294967296) (hn : n ≤ 3) (hm : m ≤ 3) :
    byteOf (byteSwitch x n m) n = byteOf x m ∧
    byteOf (byteSwitch x n m) m = byteOf x n ∧
    (∀ k, k ≤ 3 → k ≠ n → k ≠ m → byteOf (byteSwitch x n m) k = byteOf x k) ∧
    byteSwitch x n m < 4294967296 ∧
    byteSwitch (byteSwitch x n m) n m = x ∧
    byteSwitch 0x12345678 1 3 = 0x56341278 := by
  refine ⟨?_, ?_, fun k hk h1 h2 => ?_, byteSwitch_lt x n m hx,
    byteSwitch_byteSwitch x n m hx hn hm, by decide⟩
  · rw [byteOf_byteSwitch x n m n hx hn hm hn]; unfold swapped; rw [if_pos rfl]
  · rw [byteOf_byteSwitch x n m m hx hn hm hm]; unfold swapped
    by_cases h : m = n
    · rw [if_pos h, h]
    · rw [if_neg h, if_pos rfl]
  · rw [byteOf_byteSwitch x n m k hx hn hm hk]; unfold swapped; rw [if_neg h1, if_neg h2]

/-- C27 at x = 0x12345678, n = 1, m = 3. -/
theorem byteSwitch_swaps_bytes_witness :
    byteOf (byteSwitch 305419896 1 3) 1 = byteOf 305419896 3 ∧
    byteOf (byteSwitch 305419896 1 3) 3 = byteOf 305419896 1 ∧
    (∀ k, k ≤ 3 → k ≠ 1 → k ≠ 3 → byteOf (byteSwitch 305419896 1 3) k = byteOf 305419896 k) ∧
    byteSwitch 305419896 1 3 < 4294967296 ∧
    byteSwitch (byteSwitch 305419896 1 3) 1 3 = 305419896 ∧
    byteSwitch 0x12345678 1 3 = 0x56341278 :=
  byteSwitch_swaps_bytes 305419896 1 3 (by decide) (by decide) (by decide)

/-! ## The pattern of 2*f and the value it stands for -/

/-- Below exponent field 254 the pattern `twiceBits uf` stands for twice the number uf
stands for. -/
theorem floatValue_twiceBits (uf : Nat) (he : expOf uf < 254) :
    floatValue (twiceBits uf) = 2 * floatValue uf := by
  unfold twiceBits
  rw [if_neg (by omega)]
  by_cases h0 : expOf uf = 0
  · rw [if_pos h0]
    have hs : signOf (signOf uf * 2147483648 + 2 * fracOf uf) = signOf uf := by
      unfold signOf fracOf; omega
    by_cases hf : 2 * fracOf uf < 8388608
    · have e1 : expOf (signOf uf * 2147483648 + 2 * fracOf uf) = 0 := by
        unfold fracOf at hf; unfold expOf signOf fracOf; omega
      have e2 : fracOf (signOf uf * 2147483648 + 2 * fracOf uf) = 2 * fracOf uf := by
        unfold fracOf at hf; unfold signOf fracOf; omega
      unfold floatValue
      rw [hs, e1, e2, h0]
      generalize (if signOf uf = 1 then (-1 : ℚ) else 1) = sg
      rw [if_pos rfl]
      push_cast
      ring
    · have e1 : expOf (signOf uf * 2147483648 + 2 * fracOf uf) = 1 := by
        unfold fracOf at hf; unfold expOf signOf fracOf; omega
      have e2 : fracOf (signOf uf * 2147483648 + 2 * fracOf uf) + 8388608 = 2 * fracOf uf := by
        unfold fracOf at hf; unfold signOf fracOf; omega
      have e3 : ((8388608 : ℚ) + (fracOf (signOf uf * 2147483648 + 2 * fracOf uf) : ℚ)) =
          2 * (fracOf uf : ℚ) := by
        have := congrArg (fun n : Nat => (n : ℚ)) e2
        simp only [Nat.cast_add, Nat.cast_mul, Nat.cast_ofNat] at this
        linarith
      unfold floatValue
      rw [hs, e1, h0]
      generalize (if signOf uf = 1 then (-1 : ℚ) else 1) = sg
      rw [if_neg (by decide), if_pos rfl, e3]
      ring
  · rw [if_neg h0, if_pos he]
    have hfr : fracOf uf < 8388608 := by unfold fracOf; omega
    have hsg : signOf uf < 2 := by unfold signOf; omega
    have hs : signOf (mkFloat (signOf uf) (expOf uf + 1) (fracOf uf)) = signOf uf := by
      generalize expOf uf = e at he h0 ⊢
      generalize fracOf uf = f at hfr ⊢
      generalize signOf uf = s at hsg ⊢
      unfold mkFloat
      show (s * 2147483648 + (e + 1) * 8388608 + f) / 2147483648 % 2 = s
      omega
    have e1 : expOf (mkFloat (signOf uf) (expOf uf + 1) (fracOf uf)) = expOf uf + 1 := by
      generalize expOf uf = e at he h0 ⊢
      generalize fracOf uf = f at hfr ⊢
      generalize signOf uf = s at hsg ⊢
      unfold mkFloat
      show (s * 2147483648 + (e + 1) * 8388608 + f) / 8388608 % 256 = e + 1
      omega
    have e2 : fracOf (mkFloat (signOf uf) (expOf uf + 1) (fracOf uf)) = fracOf uf := by
      generalize expOf uf = e at he h0 ⊢
      generalize fracOf uf = f at hfr ⊢
      generalize signOf uf = s at hsg ⊢
      unfold mkFloat
      show (s * 2147483648 + (e + 1) * 8388608 + f) % 8388608 = f
      omega
    unfold floatValue
    rw [hs, e1, e2]
    generalize (if signOf uf = 1 then (-1 : ℚ) else 1) = sg
    rw [if_neg (by omega), if_neg h0, pow_succ]
    ring

/-- At exponent field 254 twice the number is at least 2^128 in absolute value, beyond
every finite single-precision number. -/
theorem floatValue_overflows (uf : Nat) (he : expOf uf = 254) :
    (2 : ℚ) ^ 128 ≤ 2 * |floatValue uf| := by
  have h1 : |(if signOf uf = 1 then (-1 : ℚ) else 1)| = 1 := by
    split <;> simp
  have h2 : (0 : ℚ) ≤ (fracOf uf : ℚ) := Nat.cast_nonneg _
  unfold floatValue
  rw [he, abs_mul, h1, one_mul, if_neg (by decide), abs_of_nonneg (by positivity)]
  have h3 : ((8388608 : ℚ) + fracOf uf) * 2 ^ 254 / 2 ^ 150 =
      ((8388608 : ℚ) + fracOf uf) * 2 ^ 104 := by
    rw [mul_div_assoc]
    congr 1
    norm_num
  rw [h3]
  have h4 : (2 : ℚ) ^ 128 = 2 * (8388608 * 2 ^ 104) := by norm_num
  rw [h4]
  have h5 : (0 : ℚ) < 2 ^ 104 := by positivity
  nlinarith

end Puzzles

namespace Command

set_option maxRecDepth 100000

/-! ## The third loop of command_parse -/

theorem fillLoop_eq :
    ∀ (rest : List Char) (last_char : Char) (word : List Char) (done : List (List Char)),
      ((last_char = ' ' ∨ last_char = '&') ∧ word = [] ∨
        ¬ (last_char = ' ' ∨ last_char = '&') ∧ word ≠ []) →
      (rest = [] → word = []) →
      fillLoop rest last_char word done =
        done ++ ((rest.splitOnP (fun c => c == ' ' || c == '&')).modifyHead
          (fun w => word ++ w)).filter (fun w => !w.isEmpty) := by
  intro rest
  induction rest with
  | nil =>
    intro last_char word done _ hw
    rw [hw rfl]
    simp [fillLoop, List.splitOnP_nil, List.modifyHead]
  | cons c rest ih =>
    intro last_char word done hinv _
    obtain ⟨h, t, hsplit⟩ : ∃ h t, rest.splitOnP (fun c => c == ' ' || c == '&') = h :: t := by
      cases hs : rest.splitOnP (fun c => c == ' ' || c == '&') with
      | nil => exact absurd hs (List.splitOnP_ne_nil _ _)
      | cons h t => exact ⟨h, t, rfl⟩
    unfold fillLoop
    by_cases hc : c = ' ' ∨ c = '&'
    · have hp : (c == ' ' || c == '&') = true := by
        rcases hc with h1 | h1 <;> simp [h1]
      rw [if_neg (not_not.2 hc), List.splitOnP_cons, if_pos hp]
      rcases hinv with ⟨hl, hw⟩ | ⟨hl, hw⟩
      · have hl2 : ¬ (last_char ≠ ' ' ∧ last_char ≠ '&') := by
          rcases hl with h1 | h1 <;> simp [h1]
        rw [if_neg hl2, hw, ih c [] done (Or.inl ⟨hc, rfl⟩) (fun _ => rfl), hsplit]
        simp [List.modifyHead]
      · have hl2 : last_char ≠ ' ' ∧ last_char ≠ '&' := by
          constructor <;> intro h1 <;> exact hl (by simp [h1])
        rw [if_pos hl2, ih c [] (done ++ [word]) (Or.inl ⟨hc, rfl⟩) (fun _ => rfl), hsplit]
        simp [List.modifyHead, hw]
    · have hp : ¬ (c == ' ' || c == '&') = true := by
        simp only [Bool.or_eq_true, beq_iff_eq]; exact hc
      rw [if_pos hc, List.splitOnP_cons, if_neg hp]
      by_cases hr : rest = []
      · subst hr
        rw [if_pos rfl]
        simp [fillLoop, List.splitOnP_nil, List.modifyHead]
      · rw [if_neg hr, ih c (word ++ [c]) done (Or.inr ⟨hc, by simp⟩) (fun h => absurd h hr),
          hsplit]
        simp [List.modifyHead]

theorem fillLoop_line (line : List Char) : fillLoop line ' ' [] [] = wordsOf line := by
  rw [fillLoop_eq line ' ' [] [] (Or.inl ⟨Or.inl rfl, rfl⟩) (fun _ => rfl)]
  unfold wordsOf
  cases hs : line.splitOnP (fun c => c == ' ' || c == '&') with
  | nil => simp [List.modifyHead]
  | cons h t => simp [List.modifyHead]

/-! ## The first loop of command_parse -/

theorem exists_ne_space_iff (rest : List Char) :
    (∃ d, d ∈ rest ∧ d ≠ ' ') ↔ ∃ j, j < rest.length ∧ rest.getD j ' ' ≠ ' ' := by
  constructor
  · rintro ⟨d, hd, hne⟩
    obtain ⟨j, hj, rfl⟩ := List.mem_iff_getElem.1 hd
    exact ⟨j, hj, by rw [List.getD_eq_getElem _ _ hj]; exact hne⟩
  · rintro ⟨j, hj, hne⟩
    rw [List.getD_eq_getElem _ _ hj] at hne
    exact ⟨rest[j], List.getElem_mem _, hne⟩

theorem misplacedAmp_nil : ¬ misplacedAmp [] := by
  rintro ⟨i, hi, _⟩
  simp at hi

theorem misplacedAmp_cons (c : Char) (rest : List Char) :
    misplacedAmp (c :: rest) ↔ (c = '&' ∧ ∃ d, d ∈ rest ∧ d ≠ ' ') ∨ misplacedAmp rest := by
  rw [exists_ne_space_iff]
  constructor
  · rintro ⟨i, hi, hamp, j, hj, hij, hne⟩
    cases j with
    | zero => omega
    | succ j =>
      rw [List.getD_cons_succ] at hne
      simp only [List.length_cons] at hi hj
      cases i with
      | zero =>
        rw [List.getD_cons_zero] at hamp
        exact Or.inl ⟨hamp, j, by omega, hne⟩
      | succ i =>
        rw [List.getD_cons_succ] at hamp
        exact Or.inr ⟨i, by omega, hamp, j, by omega, by omega, hne⟩
  · rintro (⟨hc, j, hj, hne⟩ | ⟨i, hi, hamp, j, hj, hij, hne⟩)
    · exact ⟨0, by simp, by rw [List.getD_cons_zero]; exact hc, j + 1, by simpa using hj,
        by omega, by rw [List.getD_cons_succ]; exact hne⟩
    · exact ⟨i + 1, by simpa using hi, by rw [List.getD_cons_succ]; exact hamp, j + 1,
        by simpa using hj, by omega, by rw [List.getD_cons_succ]; exact hne⟩

theorem misplacedAmp_ne_space {rest : List Char} (h : misplacedAmp rest) :
    ∃ d, d ∈ rest ∧ d ≠ ' ' := by
  obtain ⟨_, _, _, j, hj, _, hne⟩ := h
  exact (exists_ne_space_iff rest).2 ⟨j, hj, hne⟩

theorem countLoop_none :
    ∀ (rest : List Char) (foreground space word_count : Int),
      countLoop rest foreground space word_count = none ↔
        (foreground = 0 ∧ ∃ d, d ∈ rest ∧ d ≠ ' ') ∨ (foreground ≠ 0 ∧ misplacedAmp rest) := by
  intro rest
  induction rest with
  | nil =>
    intro foreground space word_count
    simp [countLoop, misplacedAmp_nil]
  | cons c rest ih =>
    intro foreground space word_count
    unfold countLoop
    by_cases h1 : foreground = 0 ∧ c ≠ ' '
    · rw [if_pos h1]
      exact ⟨fun _ => Or.inl ⟨h1.1, c, List.mem_cons_self _ _, h1.2⟩, fun _ => rfl⟩
    · rw [if_neg h1]
      simp only []
      rw [ih, misplacedAmp_cons]
      by_cases hf : foreground = 0
      · have hc : c = ' ' := by
          by_contra hne; exact h1 ⟨hf, hne⟩
        have hamp : c ≠ '&' := by rw [hc]; decide
        rw [if_neg hamp]
        constructor
        · rintro (⟨_, d, hd, hne⟩ | ⟨h, _⟩)
          · exact Or.inl ⟨hf, d, List.mem_cons_of_mem _ hd, hne⟩
          · exact absurd hf h
        · rintro (⟨_, d, hd, hne⟩ | ⟨h, _⟩)
          · rcases List.mem_cons.1 hd with rfl | hd
            · exact absurd hc hne
            · exact Or.inl ⟨hf, d, hd, hne⟩
          · exact absurd hf h
      · by_cases hamp : c = '&'
        · rw [if_pos hamp]
          constructor
          · rintro (⟨_, hex⟩ | ⟨h, _⟩)
            · exact Or.inr ⟨hf, Or.inl ⟨hamp, hex⟩⟩
            · exact absurd rfl h
          · rintro (⟨h, _⟩ | ⟨_, ⟨_, hex⟩ | hm⟩)
            · exact absurd h hf
            · exact Or.inl ⟨rfl, hex⟩
            · exact Or.inl ⟨rfl, misplacedAmp_ne_space hm⟩
        · rw [if_neg hamp]
          constructor
          · rintro (⟨h, _⟩ | ⟨_, hm⟩)
            · exact absurd h hf
            · exact Or.inr ⟨hf, Or.inr hm⟩
          · rintro (⟨h, _⟩ | ⟨_, ⟨h, _⟩ | hm⟩)
            · exact absurd h hf
            · exact absurd h hamp
            · exact Or.inr ⟨hf, hm⟩

theorem command_parse_none_iff (line : List Char) :
    (command_parse line).1 = none ↔ misplacedAmp line := by
  have h := countLoop_none line 1 1 0
  unfold command_parse
  cases hc : countLoop line 1 1 0 with
  | none =>
    simp only [true_iff]
    rcases h.1 hc with ⟨h0, _⟩ | ⟨_, hm⟩
    · exact absurd h0 (by decide)
    · exact hm
  | some r =>
    constructor
    · intro hn; cases hn
    · intro hm
      have := h.2 (Or.inr ⟨by decide, hm⟩)
      rw [hc] at this
      cases this

theorem splitOnP_mem_not (p : Char → Bool) :
    ∀ (l : List Char) (w : List Char), w ∈ l.splitOnP p → ∀ c, c ∈ w → p c = false := by
  intro l
  induction l with
  | nil =>
    intro w hw c hc
    rw [List.splitOnP_nil] at hw
    simp at hw
    subst hw
    simp at hc
  | cons x xs ih =>
    intro w hw c hc
    rw [List.splitOnP_cons] at hw
    by_cases hx : p x = true
    · rw [if_pos hx] at hw
      rcases List.mem_cons.1 hw with rfl | hw
      · simp at hc
      · exact ih w hw c hc
    · rw [if_neg hx] at hw
      cases hs : xs.splitOnP p with
      | nil => exact absurd hs (List.splitOnP_ne_nil _ _)
      | cons h t =>
        rw [hs] at hw ih
        simp only [List.modifyHead] at hw
        rcases List.mem_cons.1 hw with rfl | hw
        · rcases List.mem_cons.1 hc with rfl | hc
          · simpa using hx
          · exact ih h (List.mem_cons_self _ _) c hc
        · exact ih w (List.mem_cons_of_mem _ hw) c hc

theorem wordsOf_mem {line w : List Char} (hw : w ∈ wordsOf line) :
    w ≠ [] ∧ ' ' ∉ w ∧ '&' ∉ w := by
  unfold wordsOf at hw
  obtain ⟨h1, h2⟩ := List.mem_filter.1 hw
  have h3 := splitOnP_mem_not _ line w h1
  refine ⟨?_, fun h => ?_, fun h => ?_⟩
  · intro h; subst h; simp at h2
  · have := h3 ' ' h; simp at this
  · have := h3 '&' h; simp at this

/-! ## C29: the lines command_parse rejects -/

theorem not_misplacedAmp_of_not_mem {line : List Char} (h : '&' ∉ line) :
    ¬ misplacedAmp line := by
  rintro ⟨i, hi, hamp, _⟩
  rw [List.getD_eq_getElem _ _ hi] at hamp
  exact h (hamp ▸ List.getElem_mem _)

theorem not_misplacedAmp_append :
    ∀ (pre post : List Char), '&' ∉ pre → (∀ c, c ∈ post → c = ' ') →
      ¬ misplacedAmp (pre ++ '&' :: post) := by
  intro pre
  induction pre with
  | nil =>
    intro post _ hpost
    rw [List.nil_append, misplacedAmp_cons]
    rintro (⟨_, d, hd, hne⟩ | hm)
    · exact hne (hpost d hd)
    · obtain ⟨d, hd, hne⟩ := misplacedAmp_ne_space hm
      exact hne (hpost d hd)
  | cons c pre ih =>
    intro post hpre hpost
    rw [List.cons_append, misplacedAmp_cons]
    rintro (⟨hc, _⟩ | hm)
    · exact hpre (hc ▸ List.mem_cons_self _ _)
    · exact ih post (fun h => hpre (List.mem_cons_of_mem _ h)) hpost hm

/-- C29: for every command line, command_parse returns NULL if and only if the line has
an ampersand that is followed, somewhere later in the line, by a character other than a
space: a second ampersand (a repetition) or a character of a word (the ampersand is not
after the last word).  So every line with no ampersand, and every line whose single
ampersand is followed only by spaces, yields a command array. -/
theorem command_parse_null_iff_ampersand_misplaced (line : List Char) :
    ((command_parse line).1 = none ↔ misplacedAmp line) ∧
    ('&' ∉ line → (command_parse line).1 ≠ none) ∧
    (∀ pre post, line = pre ++ '&' :: post → '&' ∉ pre → (∀ c, c ∈ post → c = ' ') →
      (command_parse line).1 ≠ none) := by
  refine ⟨command_parse_none_iff line, fun h hn => ?_, fun pre post hl hpre hpost hn => ?_⟩
  · exact not_misplacedAmp_of_not_mem h ((command_parse_none_iff line).1 hn)
  · rw [hl] at hn
    exact not_misplacedAmp_append pre post hpre hpost ((command_parse_none_iff _).1 hn)

/-- C29 on the test line "   nano&  ": one ampersand after the last word, then spaces. -/
theorem command_parse_null_iff_ampersand_misplaced_witness :
    "   nano&  ".toList = "   nano".toList ++ '&' :: "  ".toList ∧
    '&' ∉ "   nano".toList ∧ (∀ c, c ∈ "  ".toList → c = ' ') ∧
    (command_parse "   nano&  ".toList).1 ≠ none :=
  ⟨by decide, by decide, by decide,
    (command_parse_null_iff_ampersand_misplaced "   nano&  ".toList).2.2
      "   nano".toList "  ".toList (by decide) (by decide) (by decide)⟩

/-- The sixteen lines of `command_test.c`: command_parse returns NULL on the third,
fourth and twelfth to fifteenth, and an array on the others. -/
theorem command_lines_verdicts :
    COMMAND_LINES.map (fun l => decide ((command_parse l.toList).1 = none)) =
      [false, false, true, true, false, false, false, false, false, false, false,
        true, true, true, true, false] := by
  decide

/-! ## C30: the words command_parse returns -/

/-- C30: for every line on which command_parse returns an array, the array is the list
of the maximal runs of characters other than space and ampersand of the line, from left
to right; no element is empty or contains a space or an ampersand. -/
theorem command_parse_returns_words_in_order (line : List Char) (words : List (List Char))
    (h : (command_parse line).1 = some words) :
    words = wordsOf line ∧ ∀ w, w ∈ words → w ≠ [] ∧ ' ' ∉ w ∧ '&' ∉ w := by
  have hw : words = wordsOf line := by
    unfold command_parse at h
    cases hc : countLoop line 1 1 0 with
    | none => rw [hc] at h; cases h
    | some r =>
      rw [hc] at h
      simp only [Option.some.injEq] at h
      rw [← h, fillLoop_line]
  refine ⟨hw, fun w hmem => ?_⟩
  rw [hw] at hmem
  exact wordsOf_mem hmem

/-- C30 on the test line " This    has    a    lot of   spaces&     ". -/
theorem command_parse_returns_words_in_order_witness :
    (command_parse " This    has    a    lot of   spaces&     ".toList).1 =
      some ["This".toList, "has".toList, "a".toList, "lot".toList, "of".toList,
        "spaces".toList] ∧
    ["This".toList, "has".toList, "a".toList, "lot".toList, "of".toList, "spaces".toList] =
      wordsOf " This    has    a    lot of   spaces&     ".toList ∧
    ∀ w, w ∈ ["This".toList, "has".toList, "a".toList, "lot".toList, "of".toList,
        "spaces".toList] → w ≠ [] ∧ ' ' ∉ w ∧ '&' ∉ w :=
  ⟨by decide, command_parse_returns_words_in_order _ _ (by decide)⟩

/-! ## The allocations of command_parse hold what the third loop writes -/

theorem allocLoop_eq_fillLoop :
    ∀ (rest : List Char) (last_char : Char) (word : List Char) (done : List (List Char)),
      ((last_char = ' ' ∨ last_char = '&') ∧ word = [] ∨
        ¬ (last_char = ' ' ∨ last_char = '&') ∧ word ≠ []) →
      allocLoop rest last_char word.length (done.map (fun w => w.length + 1)) =
        (fillLoop rest last_char word done).map (fun w => w.length + 1) := by
  intro rest
  induction rest with
  | nil => intro last_char word done _; simp [allocLoop, fillLoop]
  | cons c rest ih =>
    intro last_char word done hinv
    unfold allocLoop fillLoop
    by_cases hc : c = ' ' ∨ c = '&'
    · rw [if_neg (not_not.2 hc), if_neg (not_not.2 hc)]
      rcases hinv with ⟨hl, hw⟩ | ⟨hl, hw⟩
      · have hl2 : ¬ (last_char ≠ ' ' ∧ last_char ≠ '&') := by
          rcases hl with h1 | h1 <;> simp [h1]
        rw [if_neg hl2, if_neg hl2, hw]
        exact ih c [] done (Or.inl ⟨hc, rfl⟩)
      · have hl2 : last_char ≠ ' ' ∧ last_char ≠ '&' := by
          constructor <;> intro h1 <;> exact hl (by simp [h1])
        rw [if_pos hl2, if_pos hl2]
        have := ih c [] (done ++ [word]) (Or.inl ⟨hc, rfl⟩)
        simpa using this
    · rw [if_pos hc, if_pos hc]
      have hlen : (word ++ [c]).length = word.length + 1 := by simp
      by_cases hr : rest = []
      · subst hr
        rw [if_pos rfl, if_pos rfl]
        simp [allocLoop, fillLoop]
      · rw [if_neg hr, if_neg hr, ← hlen]
        exact ih c (word ++ [c]) done (Or.inr ⟨hc, by simp⟩)

theorem countLoop_eq_length :
    ∀ (rest : List Char) (foreground space word_count : Int) (last_char : Char)
      (word : List Char) (done : List (List Char)) (r : Int × Int),
      ((last_char = ' ' ∨ last_char = '&') ∧ word = [] ∨
        ¬ (last_char = ' ' ∨ last_char = '&') ∧ word ≠ []) →
      (rest = [] → word = []) →
      (foreground ≠ 0 → (space = 0 ↔ ¬ (last_char = ' ' ∨ last_char = '&'))) →
      (foreground = 0 → (last_char = ' ' ∨ last_char = '&')) →
      word_count = (done.length : Int) + (if word = [] then 0 else 1) →
      countLoop rest foreground space word_count = some r →
      r.2 = ((fillLoop rest last_char word done).length : Int) := by
  intro rest
  induction rest with
  | nil =>
    intro foreground space word_count last_char word done r _ hw _ _ hwc h
    simp only [countLoop, Option.some.injEq] at h
    subst h
    simp [fillLoop, hwc, hw rfl]
  | cons c rest ih =>
    intro foreground space word_count last_char word done r hinv _ hsp hfg hwc h
    unfold countLoop at h
    by_cases h1 : foreground = 0 ∧ c ≠ ' '
    · rw [if_pos h1] at h; cases h
    · rw [if_neg h1] at h
      simp only [] at h
      unfold fillLoop
      by_cases hc : c = ' ' ∨ c = '&'
      · have hnew : decide (c ≠ ' ' ∧ c ≠ '&' ∧ space ≠ 0) = false := by
          rcases hc with h2 | h2 <;> simp [h2]
        rw [hnew] at h
        simp only [Bool.false_eq_true, if_false] at h
        rw [if_neg (not_not.2 hc)]
        have hfg1 : (if c = '&' then 0 else foreground) = 0 → (c = ' ' ∨ c = '&') :=
          fun _ => hc
        have hsp1 : (if c = '&' then 0 else foreground) ≠ 0 →
            ((if c = ' ' then 1 else space) = 0 ↔ ¬ (c = ' ' ∨ c = '&')) := by
          intro hne
          have hamp : c ≠ '&' := by
            intro h2; rw [if_pos h2] at hne; exact hne rfl
          have hspc : c = ' ' := by
            rcases hc with h2 | h2
            · exact h2
            · exact absurd h2 hamp
          rw [if_pos hspc]
          constructor
          · intro h3; exact absurd h3 (by decide)
          · intro h3; exact absurd hc h3
        rcases hinv with ⟨hl, hw⟩ | ⟨hl, hw⟩
        · have hl2 : ¬ (last_char ≠ ' ' ∧ last_char ≠ '&') := by
            rcases hl with h2 | h2 <;> simp [h2]
          rw [if_neg hl2, hw]
          refine ih _ _ _ c [] done r (Or.inl ⟨hc, rfl⟩) (fun _ => rfl) hsp1 hfg1 ?_ h
          rw [hwc, hw]
        · have hl2 : last_char ≠ ' ' ∧ last_char ≠ '&' := by
            constructor <;> intro h2 <;> exact hl (by simp [h2])
          rw [if_pos hl2]
          refine ih _ _ _ c [] (done ++ [word]) r (Or.inl ⟨hc, rfl⟩) (fun _ => rfl) hsp1 hfg1 ?_ h
          rw [hwc, if_neg hw]
          simp
      · have hspc : c ≠ ' ' := fun h2 => hc (Or.inl h2)
        have hamp : c ≠ '&' := fun h2 => hc (Or.inr h2)
        have hf : foreground ≠ 0 := fun h2 => h1 ⟨h2, hspc⟩
        rw [if_neg hamp, if_neg hspc] at h
        rw [if_pos hc]
        have hwc1 : (if decide (c ≠ ' ' ∧ c ≠ '&' ∧ space ≠ 0) = true then word_count + 1
            else word_count) = (done.length : Int) + 1 := by
          rcases hinv with ⟨hl, hw⟩ | ⟨hl, hw⟩
          · have hs0 : space ≠ 0 := fun h2 => ((hsp hf).1 h2) hl
            rw [if_pos (by simp [hspc, hamp, hs0]), hwc, hw]
            simp
          · have hs0 : space = 0 := (hsp hf).2 hl
            rw [if_neg (by simp [hs0]), hwc, if_neg hw]
        have hsp1 : foreground ≠ 0 →
            ((if decide (c ≠ ' ' ∧ c ≠ '&' ∧ space ≠ 0) = true then 0 else space) = 0 ↔
              ¬ (c = ' ' ∨ c = '&')) := by
          intro _
          constructor
          · intro _; exact hc
          · intro _
            by_cases hs0 : space = 0
            · rw [if_neg (by simp [hs0]), hs0]
            · rw [if_pos (by simp [hspc, hamp, hs0])]
        rw [hwc1] at h
        by_cases hr : rest = []
        · subst hr
          rw [if_pos rfl]
          simp only [countLoop, Option.some.injEq] at h
          subst h
          simp [fillLoop]
        · rw [if_neg hr]
          refine ih _ _ _ c (word ++ [c]) done r (Or.inr ⟨hc, by simp⟩)
            (fun h2 => absurd h2 hr) hsp1 (fun h2 => absurd h2 hf) ?_ h
          simp

/-- The memory command_parse allocates is the memory it writes: when it returns an
array, `word_count` is the number of the strings (the array of `word_count + 1` pointers
has one slot for each and one for the NULL), and the buffer allocated for each string has
the length of the string plus one, for its NUL. -/
theorem command_parse_allocations_fit (line : List Char) (foreground word_count : Int)
    (h : countLoop line 1 1 0 = some (foreground, word_count)) :
    word_count = ((fillLoop line ' ' [] []).length : Int) ∧
    allocLoop line ' ' 0 [] = (fillLoop line ' ' [] []).map (fun w => w.length + 1) := by
  constructor
  · exact countLoop_eq_length line 1 1 0 ' ' [] [] _ (Or.inl ⟨Or.inl rfl, rfl⟩) (fun _ => rfl)
      (fun _ => by simp) (fun h0 => absurd h0 (by decide)) (by simp) h
  · exact allocLoop_eq_fillLoop line ' ' [] [] (Or.inl ⟨Or.inl rfl, rfl⟩)

/-! ## C31: the foreground flag -/

theorem countLoop_foreground :
    ∀ (rest : List Char) (foreground space word_count : Int) (r : Int × Int),
      countLoop rest foreground space word_count = some r →
      r.1 = if '&' ∈ rest then 0 else foreground := by
  intro rest
  induction rest with
  | nil =>
    intro foreground space word_count r h
    simp only [countLoop, Option.some.injEq] at h
    subst h
    simp
  | cons c rest ih =>
    intro foreground space word_count r h
    unfold countLoop at h
    by_cases h1 : foreground = 0 ∧ c ≠ ' '
    · rw [if_pos h1] at h; cases h
    · rw [if_neg h1] at h
      simp only [] at h
      have h2 := ih _ _ _ r h
      rw [h2]
      by_cases hc : c = '&'
      · have hm : '&' ∈ c :: rest := by rw [hc]; exact List.mem_cons_self _ _
        rw [if_pos hc, if_pos hm]
        split <;> rfl
      · rw [if_neg hc]
        by_cases hm : '&' ∈ rest
        · rw [if_pos hm, if_pos (List.mem_cons_of_mem _ hm)]
        · rw [if_neg hm, if_neg]
          intro hmem
          rcases List.mem_cons.1 hmem with h3 | h3
          · exact hc h3.symm
          · exact hm h3

theorem command_parse_foreground (line : List Char) (words : List (List Char))
    (h : (command_parse line).1 = some words) :
    (command_parse line).2 = if '&' ∈ line then 0 else 1 := by
  unfold command_parse at h ⊢
  cases hc : countLoop line 1 1 0 with
  | none => rw [hc] at h; cases h
  | some r => exact countLoop_foreground line 1 1 0 r hc

/-- C31: for every line on which command_parse returns an array, the value stored in
`*foreground` is 0 if the line has an ampersand (which is then after its last word,
followed only by spaces) and 1 if the line contains no ampersand; "nano&" and "nano &"
are background, "ls -l   facs-labs       " is foreground. -/
theorem command_parse_reports_foreground (line : List Char) (words : List (List Char))
    (h : (command_parse line).1 = some words) :
    ('&' ∈ line → (command_parse line).2 = 0) ∧
    ('&' ∉ line → (command_parse line).2 = 1) ∧
    command_parse "nano&".toList = (some ["nano".toList], 0) ∧
    command_parse "nano &".toList = (some ["nano".toList], 0) ∧
    command_parse "ls -l   facs-labs       ".toList =
      (some ["ls".toList, "-l".toList, "facs-labs".toList], 1) := by
  have hf := command_parse_foreground line words h
  refine ⟨fun hm => ?_, fun hm => ?_, by decide, by decide, by decide⟩
  · rw [hf, if_pos hm]
  · rw [hf, if_neg hm]

/-- C31 on the test line "space space     &   ". -/
theorem command_parse_reports_foreground_witness :
    (command_parse "space space     &   ".toList).1 =
      some ["space".toList, "space".toList] ∧
    '&' ∈ "space space     &   ".toList ∧
    (command_parse "space space     &   ".toList).2 = 0 :=
  ⟨by decide, by decide,
    (command_parse_reports_foreground "space space     &   ".toList
      ["space".toList, "space".toList] (by decide)).1 (by decide)⟩


/-! ## C37: printing a parsed command and parsing it again -/

theorem command_print_eq_intercalate :
    ∀ (words : List (List Char)), command_print words = [' '].intercalate words := by
  intro words
  induction words with
  | nil => rfl
  | cons w ws ih =>
    cases ws with
    | nil => simp [command_print, List.intercalate]
    | cons w1 ws =>
      unfold command_print
      rw [ih]
      simp [List.intercalate, List.intersperse]

theorem wordsOf_command_print :
    ∀ (words : List (List Char)), (∀ w, w ∈ words → w ≠ [] ∧ ' ' ∉ w ∧ '&' ∉ w) →
      wordsOf (command_print words) = words := by
  intro words
  induction words with
  | nil => intro _; simp [command_print, wordsOf, List.splitOnP_nil]
  | cons w ws ih =>
    intro hw
    obtain ⟨h1, h2, h3⟩ := hw w (List.mem_cons_self _ _)
    have hnp : ∀ x, x ∈ w → ¬ ((x == ' ' || x == '&') = true) := by
      intro x hx hp
      simp only [Bool.or_eq_true, beq_iff_eq] at hp
      rcases hp with rfl | rfl
      · exact h2 hx
      · exact h3 hx
    have hne : (!w.isEmpty) = true := by
      cases w with
      | nil => exact absurd rfl h1
      | cons a t => rfl
    cases ws with
    | nil =>
      unfold command_print wordsOf
      rw [List.splitOnP_eq_single _ _ hnp]
      simp [hne]
    | cons w1 ws =>
      have ih2 := ih (fun v hv => hw v (List.mem_cons_of_mem _ hv))
      unfold command_print
      unfold wordsOf at ih2 ⊢
      rw [List.append_assoc, List.singleton_append,
        List.splitOnP_first _ _ hnp ' ' (by decide), List.filter_cons, if_pos hne, ih2]

theorem command_print_no_amp :
    ∀ (words : List (List Char)), (∀ w, w ∈ words → w ≠ [] ∧ ' ' ∉ w ∧ '&' ∉ w) →
      '&' ∉ command_print words := by
  intro words
  induction words with
  | nil => intro _; simp [command_print]
  | cons w ws ih =>
    intro hw
    obtain ⟨_, _, h3⟩ := hw w (List.mem_cons_self _ _)
    cases ws with
    | nil => simpa [command_print] using h3
    | cons w1 ws =>
      have ih2 := ih (fun v hv => hw v (List.mem_cons_of_mem _ hv))
      unfold command_print
      intro hm
      rcases List.mem_append.1 hm with hm | hm
      · rcases List.mem_append.1 hm with hm | hm
        · exact h3 hm
        · simp at hm
      · exact ih2 hm

theorem command_print_head :
    ∀ (words : List (List Char)), (∀ w, w ∈ words → w ≠ [] ∧ ' ' ∉ w ∧ '&' ∉ w) →
      ∀ t, command_print words ≠ ' ' :: t := by
  intro words hw t h
  cases words with
  | nil => simp [command_print] at h
  | cons w ws =>
    obtain ⟨h1, h2, _⟩ := hw w (List.mem_cons_self _ _)
    cases w with
    | nil => exact h1 rfl
    | cons a w =>
      have ha : a = ' ' := by
        cases ws with
        | nil => simp [command_print] at h; exact h.1
        | cons w1 ws => simp [command_print] at h; exact h.1
      exact h2 (ha ▸ List.mem_cons_self _ _)

theorem command_print_last :
    ∀ (words : List (List Char)), (∀ w, w ∈ words → w ≠ [] ∧ ' ' ∉ w ∧ '&' ∉ w) →
      ∀ t, command_print words ≠ t ++ [' '] := by
  intro words
  induction words with
  | nil => intro _ t h; simp [command_print] at h
  | cons w ws ih =>
    intro hw t h
    obtain ⟨h1, h2, _⟩ := hw w (List.mem_cons_self _ _)
    cases ws with
    | nil =>
      simp only [command_print] at h
      exact h2 (h ▸ List.mem_append_right _ (List.mem_singleton_self _))
    | cons w1 ws =>
      have ih2 := ih (fun v hv => hw v (List.mem_cons_of_mem _ hv))
      obtain ⟨h3, _, _⟩ := hw w1 (List.mem_cons_of_mem _ (List.mem_cons_self _ _))
      have hne : command_print (w1 :: ws) ≠ [] := by
        intro he
        have := wordsOf_command_print (w1 :: ws) (fun v hv => hw v (List.mem_cons_of_mem _ hv))
        rw [he] at this
        simp [wordsOf, List.splitOnP_nil] at this
      unfold command_print at h
      obtain ⟨init, a, hia⟩ : ∃ init a, command_print (w1 :: ws) = init ++ [a] :=
        ⟨_, _, (List.dropLast_append_getLast hne).symm⟩
      rw [hia, ← List.append_assoc] at h
      have := List.append_inj_right' h rfl
      simp only [List.cons.injEq, and_true] at this
      rw [this] at hia
      exact ih2 init hia

theorem command_parse_words {line : List Char} {words : List (List Char)}
    (h : (command_parse line).1 = some words) :
    words = wordsOf line ∧ ∀ w, w ∈ words → w ≠ [] ∧ ' ' ∉ w ∧ '&' ∉ w := by
  have hw : words = wordsOf line := by
    unfold command_parse at h
    cases hc : countLoop line 1 1 0 with
    | none => rw [hc] at h; cases h
    | some r =>
      rw [hc] at h
      simp only [Option.some.injEq] at h
      rw [← h, fillLoop_line]
  refine ⟨hw, fun w hmem => ?_⟩
  rw [hw] at hmem
  exact wordsOf_mem hmem

/-- C37: for every line on which command_parse returns an array, the text command_print
writes for the array is its words joined by single spaces, it neither starts nor ends with
a space and nothing (no newline) is written after the last word, and command_parse on
that text returns the same array with `*foreground` = 1. -/
theorem command_print_then_parse_is_identity (line : List Char) (words : List (List Char))
    (h : (command_parse line).1 = some words) :
    command_print words = [' '].intercalate words ∧
    (∀ t, command_print words ≠ ' ' :: t) ∧
    (∀ t, command_print words ≠ t ++ [' ']) ∧
    command_parse (command_print words) = (some words, 1) := by
  have hw := (command_parse_words h).2
  refine ⟨command_print_eq_intercalate words, command_print_head words hw,
    command_print_last words hw, ?_⟩
  have hamp := command_print_no_amp words hw
  have hnn : (command_parse (command_print words)).1 ≠ none := fun hn =>
    not_misplacedAmp_of_not_mem hamp ((command_parse_none_iff _).1 hn)
  cases hp : (command_parse (command_print words)).1 with
  | none => exact absurd hp hnn
  | some ws =>
    have h1 := (command_parse_words hp).1
    have h2 := command_parse_foreground _ ws hp
    rw [if_neg hamp] at h2
    rw [wordsOf_command_print words hw] at h1
    rw [h1] at hp
    exact Prod.ext hp h2

/-- C37 on the test line " ls        -l   fcs-labs    ": the text printed is
"ls -l fcs-labs". -/
theorem command_print_then_parse_is_identity_witness :
    (command_parse " ls        -l   fcs-labs    ".toList).1 =
      some ["ls".toList, "-l".toList, "fcs-labs".toList] ∧
    command_print ["ls".toList, "-l".toList, "fcs-labs".toList] = "ls -l fcs-labs".toList ∧
    command_parse (command_print ["ls".toList, "-l".toList, "fcs-labs".toList]) =
      (some ["ls".toList, "-l".toList, "fcs-labs".toList], 1) :=
  ⟨by decide, by decide,
    (command_print_then_parse_is_identity " ls        -l   fcs-labs    ".toList
      ["ls".toList, "-l".toList, "fcs-labs".toList] (by decide)).2.2.2⟩

end Command

namespace Cachesim

set_option maxRecDepth 100000

/-! ## C33: getTagBits and getIndexBits -/

theorem mask_of_count {c : Nat} (hc : c < 32) :
    not32 ((not32 0 <<< c) % 4294967296) = 2 ^ c - 1 := by
  interval_cases c <;> rfl

theorem toULL_of_lt {x : Nat} (h : x < 2147483648) : toULL x = x := by
  unfold toULL; rw [if_pos h]

theorem toInt32_of_lt {v : Nat} (h : v < 2147483648) : toInt32 v = (v : Int) := by
  unfold toInt32
  have : v % 4294967296 = v := Nat.mod_eq_of_lt (by omega)
  rw [this, if_pos h]

theorem toInt32_range (v : Nat) : -2147483648 ≤ toInt32 v ∧ toInt32 v < 2147483648 := by
  unfold toInt32
  split <;> omega

theorem toInt32_of_mod {v : Nat} (h : v % 4294967296 = 0) : toInt32 v = 0 := by
  unfold toInt32; rw [h]; rfl

theorem two_pow_and_mod (k : Nat) (x : Nat) (j : Nat) (hj : j ≤ k) :
    (2 ^ k &&& x) % 2 ^ j = 0 := by
  apply Nat.eq_of_testBit_eq
  intro i
  rw [Nat.testBit_mod_two_pow, Nat.testBit_and, Nat.testBit_two_pow, Nat.zero_testBit]
  by_cases hi : i < j
  · have : ¬ k = i := by omega
    simp [this]
  · simp [hi]

theorem pow_lt_of_le_31 {c : Nat} (hc : c < 32) : 2 ^ c - 1 < 2147483648 := by
  have h1 : (2 : Nat) ^ c ≤ 2 ^ 31 := Nat.pow_le_pow_right (by decide) (by omega)
  have h2 : (2 : Nat) ^ 31 = 2147483648 := rfl
  omega

theorem shl32_defined (m : Machine) (x : Nat) {c : Nat} (hc : c < 32) :
    shl32 m x (c : Int) = (x <<< c) % 4294967296 := by
  unfold shl32
  rw [if_pos ⟨by omega, by omega⟩, Int.toNat_ofNat]

theorem shr64_defined (m : Machine) (x : Nat) {n : Nat} (hn : n < 64) :
    shr64 m x (n : Int) = x >>> n := by
  unfold shr64
  rw [if_pos ⟨by omega, by omega⟩, Int.toNat_ofNat]

theorem getTagBits_of_wide (m : Machine) (address : Nat) (s E b : Int)
    (ha : address < 18446744073709551616) (hsb : s + b < 64) (hw : 32 < s + b) :
    getTagBits m address s E b = ((address >>> (b + s).toNat : Nat) : Int) := by
  obtain ⟨n, hn⟩ := Int.eq_ofNat_of_zero_le (show 0 ≤ b + s by omega)
  have hn1 : 32 < n := by omega
  have hn2 : n < 64 := by omega
  have hc : (64 : Int) - (b + s) = ((64 - n : Nat) : Int) := by omega
  unfold getTagBits
  simp only []
  rw [hc, shl32_defined m _ (by omega : 64 - n < 32), mask_of_count (by omega),
    toULL_of_lt (pow_lt_of_le_31 (by omega)), hn, shr64_defined m _ hn2, Int.toNat_ofNat,
    Nat.and_pow_two_sub_one_eq_mod]
  have hlt : address >>> n < 2 ^ (64 - n) := by
    rw [Nat.shiftRight_eq_div_pow, Nat.div_lt_iff_lt_mul (Nat.two_pow_pos _), ← Nat.pow_add,
      Nat.sub_add_cancel (by omega)]
    exact ha
  rw [Nat.mod_eq_of_lt hlt]
  apply toInt32_of_lt
  have h1 : (2 : Nat) ^ (64 - n) ≤ 2 ^ 31 := Nat.pow_le_pow_right (by decide) (by omega)
  have h2 : (2 : Nat) ^ 31 = 2147483648 := rfl
  omega

theorem getTagBits_of_high_bit (m : Machine) (s E b : Int) (hs : 0 ≤ s) (hb : 0 ≤ b)
    (hsb : s + b < 32) : getTagBits m (2 ^ ((b + s).toNat + 32)) s E b = 0 := by
  obtain ⟨n, hn⟩ := Int.eq_ofNat_of_zero_le (show 0 ≤ b + s by omega)
  unfold getTagBits
  simp only []
  rw [hn, shr64_defined m _ (by omega : n < 64), Int.toNat_ofNat, Nat.shiftRight_eq_div_pow,
    Nat.pow_div (by omega) (by decide), Nat.add_sub_cancel_left]
  exact toInt32_of_mod (two_pow_and_mod 32 _ 32 (le_refl _))

theorem getTagBits_zero (m : Machine) (s E b : Int) (hs : 0 ≤ s) (hb : 0 ≤ b)
    (hsb : s + b < 64) : getTagBits m 0 s E b = 0 := by
  obtain ⟨n, hn⟩ := Int.eq_ofNat_of_zero_le (show 0 ≤ b + s by omega)
  unfold getTagBits
  simp only []
  rw [hn, shr64_defined m _ (by omega : n < 64), Nat.zero_shiftRight, Nat.zero_and]
  rfl

theorem getIndexBits_eq (m : Machine) (address : Nat) (s E b : Int) (hs : 0 ≤ s)
    (hs32 : s < 32) :
    getIndexBits m address s E b = ((shr64 m address b % 2 ^ s.toNat : Nat) : Int) := by
  obtain ⟨k, hk⟩ := Int.eq_ofNat_of_zero_le hs
  have hk32 : k < 32 := by omega
  unfold getIndexBits
  simp only []
  rw [hk, shl32_defined m _ hk32, mask_of_count hk32, toULL_of_lt (pow_lt_of_le_31 hk32),
    Nat.and_pow_two_sub_one_eq_mod, Int.toNat_ofNat]
  apply toInt32_of_lt
  have h1 := Nat.mod_lt (shr64 m address (k : Int)) (Nat.two_pow_pos k)
  have h2 := pow_lt_of_le_31 hk32
  omega

/-- C33: what getTagBits returns, whatever the machine yields for an undefined shift.  For
all s, b >= 0 with 32 < s + b < 64 it is address >> (b+s), the top 64-(b+s) bits.  It is
always an `int`, so it cannot hold more than 32 bits: for s + b < 32 the address
2^(b+s+32) has tag 0 and not address >> (b+s) = 2^32, and it has the tag and the set
index of address 0 although the two are in different memory blocks. -/
theorem getTagBits_is_cut_to_an_int (m : Machine) (s E b : Int) (hs : 0 ≤ s) (hb : 0 ≤ b)
    (hsb : s + b < 64) :
    (∀ address, address < 18446744073709551616 → 32 < s + b →
      getTagBits m address s E b = ((address >>> (b + s).toNat : Nat) : Int)) ∧
    (∀ address, -2147483648 ≤ getTagBits m address s E b ∧
      getTagBits m address s E b < 2147483648) ∧
    (s + b < 32 →
      getTagBits m (2 ^ ((b + s).toNat + 32)) s E b ≠
        (((2 ^ ((b + s).toNat + 32)) >>> (b + s).toNat : Nat) : Int) ∧
      getTagBits m (2 ^ ((b + s).toNat + 32)) s E b = getTagBits m 0 s E b ∧
      getIndexBits m (2 ^ ((b + s).toNat + 32)) s E b = getIndexBits m 0 s E b ∧
      (2 ^ ((b + s).toNat + 32)) >>> b.toNat ≠ 0 >>> b.toNat) := by
  refine ⟨fun address ha hw => getTagBits_of_wide m address s E b ha hsb hw,
    fun address => toInt32_range _, fun hlt => ?_⟩
  obtain ⟨k, hk⟩ := Int.eq_ofNat_of_zero_le hs
  obtain ⟨j, hj⟩ := Int.eq_ofNat_of_zero_le hb
  subst hk hj
  have hbs : ((j : Int) + (k : Int)).toNat = j + k := by omega
  have hpos : ∀ a c : Nat, c ≤ a → (2 ^ a) >>> c ≠ 0 >>> c := by
    intro a c hc
    rw [Nat.zero_shiftRight, Nat.shiftRight_eq_div_pow, Nat.pow_div hc (by decide)]
    exact Nat.pos_iff_ne_zero.1 (Nat.two_pow_pos _)
  refine ⟨?_, ?_, ?_, ?_⟩
  · rw [getTagBits_of_high_bit m _ E _ hs hb hlt, Nat.shiftRight_eq_div_pow,
      Nat.pow_div (by omega) (by decide), Nat.add_sub_cancel_left]
    decide
  · rw [getTagBits_of_high_bit m _ E _ hs hb hlt, getTagBits_zero m _ E _ hs hb hsb]
  · rw [getIndexBits_eq m _ _ E _ hs (by omega), getIndexBits_eq m _ _ E _ hs (by omega),
      shr64_defined m _ (by omega : j < 64), shr64_defined m _ (by omega : j < 64), hbs,
      Int.toNat_ofNat, Nat.zero_shiftRight, Nat.zero_mod, Nat.shiftRight_eq_div_pow,
      Nat.pow_div (by omega) (by decide)]
    have : j + k + 32 - j = k + 32 := by omega
    rw [this, Nat.pow_add, Nat.mul_mod_right]
  · rw [hbs, Int.toNat_ofNat]
    exact hpos _ _ (by omega)

/-- C33 at s = 1, b = 10 on the machine that masks the shift count: the address 2^43 has
tag 0 and set index 0, as the address 0 has. -/
theorem getTagBits_is_cut_to_an_int_witness :
    getTagBits x86 (2 ^ 43) 1 4 10 = 0 ∧ getIndexBits x86 (2 ^ 43) 1 4 10 = 0 ∧
    getTagBits x86 (2 ^ (((10 : Int) + 1).toNat + 32)) 1 4 10 ≠
      (((2 ^ (((10 : Int) + 1).toNat + 32)) >>> ((10 : Int) + 1).toNat : Nat) : Int) ∧
    getTagBits x86 (2 ^ (((10 : Int) + 1).toNat + 32)) 1 4 10 = getTagBits x86 0 1 4 10 ∧
    getIndexBits x86 (2 ^ (((10 : Int) + 1).toNat + 32)) 1 4 10 = getIndexBits x86 0 1 4 10 ∧
    (2 ^ (((10 : Int) + 1).toNat + 32)) >>> (10 : Int).toNat ≠ 0 >>> (10 : Int).toNat :=
  ⟨by decide, by decide,
    (getTagBits_is_cut_to_an_int x86 1 4 10 (by decide) (by decide) (by decide)).2.2
      (by decide)⟩

/-! ## The loops of accessCache -/

theorem getElem?_lineAt {set : List cacheLine} {j : Nat} (hj : j < set.length) :
    set[j]? = some (lineAt set j) := by
  unfold lineAt
  rw [List.getD_eq_getElem _ _ hj, List.getElem?_eq_getElem hj]

theorem lineAt_set (set : List cacheLine) (j k : Nat) (x : cacheLine) (hj : j < set.length) :
    lineAt (set.set j x) k = if k = j then x else lineAt set k := by
  unfold lineAt
  by_cases hk : k = j
  · subst hk
    rw [if_pos rfl, List.getD_eq_getElem _ _ (by simpa using hj)]
    simp
  · rw [if_neg hk]
    simp [List.getD_eq_getElem?_getD, List.getElem?_set_ne (Ne.symm hk)]

theorem hitLoop_spec (set : List cacheLine) (tag : Int) :
    ∀ (n j : Nat), j + n ≤ set.length →
      (hitLoop set tag n j = some none ∧
        ∀ k, j ≤ k → k < j + n → ¬ ((lineAt set k).tag = tag ∧ (lineAt set k).validBit = 1)) ∨
      (∃ k, hitLoop set tag n j = some (some k) ∧ j ≤ k ∧ k < j + n ∧
        (lineAt set k).tag = tag ∧ (lineAt set k).validBit = 1 ∧
        ∀ k', j ≤ k' → k' < k →
          ¬ ((lineAt set k').tag = tag ∧ (lineAt set k').validBit = 1)) := by
  intro n
  induction n with
  | zero =>
    intro j _
    exact Or.inl ⟨rfl, fun k h1 h2 => by omega⟩
  | succ n ih =>
    intro j hlen
    unfold hitLoop
    rw [getElem?_lineAt (by omega : j < set.length)]
    simp only []
    by_cases hm : (lineAt set j).tag = tag ∧ (lineAt set j).validBit = 1
    · rw [if_pos hm]
      exact Or.inr ⟨j, rfl, le_refl _, by omega, hm.1, hm.2, fun k' h1 h2 => by omega⟩
    · rw [if_neg hm]
      rcases ih (j + 1) (by omega) with ⟨h1, h2⟩ | ⟨k, h1, h2, h3, h4, h5, h6⟩
      · refine Or.inl ⟨h1, fun k hk1 hk2 => ?_⟩
        by_cases hkj : k = j
        · subst hkj; exact hm
        · exact h2 k (by omega) (by omega)
      · refine Or.inr ⟨k, h1, by omega, by omega, h4, h5, fun k' hk1 hk2 => ?_⟩
        by_cases hkj : k' = j
        · subst hkj; exact hm
        · exact h6 k' (by omega) hk2

theorem slotLoop_spec (set : List cacheLine) :
    ∀ (n j r : Nat), j + n ≤ set.length → r ≤ j →
      (∃ k, slotLoop set n j r = some (.invalid k) ∧ j ≤ k ∧ k < j + n ∧
        (lineAt set k).validBit = 0 ∧
        ∀ k', j ≤ k' → k' < k → (lineAt set k').validBit ≠ 0) ∨
      (∃ k, slotLoop set n j r = some (.lru k) ∧
        (∀ k', j ≤ k' → k' < j + n → (lineAt set k').validBit ≠ 0) ∧
        (k = r ∨ (j ≤ k ∧ k < j + n)) ∧
        (lineAt set k).timeStamp.tv_usec ≤ (lineAt set r).timeStamp.tv_usec ∧
        (k ≠ r → (lineAt set k).timeStamp.tv_usec < (lineAt set r).timeStamp.tv_usec) ∧
        (∀ k', j ≤ k' → k' < j + n →
          (lineAt set k).timeStamp.tv_usec ≤ (lineAt set k').timeStamp.tv_usec) ∧
        (∀ k', j ≤ k' → k' < k →
          (lineAt set k).timeStamp.tv_usec < (lineAt set k').timeStamp.tv_usec)) := by
  intro n
  induction n with
  | zero =>
    intro j r _ _
    exact Or.inr ⟨r, rfl, fun k' h1 h2 => by omega, Or.inl rfl, le_refl _,
      fun h => absurd rfl h, fun k' h1 h2 => by omega, fun k' h1 h2 => by omega⟩
  | succ n ih =>
    intro j r hlen hr
    unfold slotLoop
    rw [getElem?_lineAt (by omega : j < set.length),
      getElem?_lineAt (by omega : r < set.length)]
    simp only []
    by_cases hv : (lineAt set j).validBit = 0
    · rw [if_pos hv]
      exact Or.inl ⟨j, rfl, le_refl _, by omega, hv, fun k' h1 h2 => by omega⟩
    · rw [if_neg hv]
      by_cases hd : (lineAt set r).timeStamp.tv_usec - (lineAt set j).timeStamp.tv_usec > 0
      · rw [if_pos hd]
        rcases ih (j + 1) j (by omega) (by omega) with
          ⟨k, h1, h2, h3, h4, h5⟩ | ⟨k, h1, h2, h3, h4, h5, h6, h7⟩
        · refine Or.inl ⟨k, h1, by omega, by omega, h4, fun k' hk1 hk2 => ?_⟩
          by_cases hkj : k' = j
          · subst hkj; exact hv
          · exact h5 k' (by omega) hk2
        · refine Or.inr ⟨k, h1, fun k' hk1 hk2 => ?_, ?_, by omega, fun _ => by omega,
            fun k' hk1 hk2 => ?_, fun k' hk1 hk2 => ?_⟩
          · by_cases hkj : k' = j
            · subst hkj; exact hv
            · exact h2 k' (by omega) (by omega)
          · rcases h3 with h3 | h3
            · exact Or.inr ⟨by omega, by omega⟩
            · exact Or.inr ⟨by omega, by omega⟩
          · by_cases hkj : k' = j
            · subst hkj; exact h4
            · exact h6 k' (by omega) (by omega)
          · by_cases hkj : k' = j
            · subst hkj; exact h5 (by omega)
            · exact h7 k' (by omega) hk2
      · rw [if_neg hd]
        rcases ih (j + 1) r (by omega) (by omega) with
          ⟨k, h1, h2, h3, h4, h5⟩ | ⟨k, h1, h2, h3, h4, h5, h6, h7⟩
        · refine Or.inl ⟨k, h1, by omega, by omega, h4, fun k' hk1 hk2 => ?_⟩
          by_cases hkj : k' = j
          · subst hkj; exact hv
          · exact h5 k' (by omega) hk2
        · refine Or.inr ⟨k, h1, fun k' hk1 hk2 => ?_, ?_, h4, h5,
            fun k' hk1 hk2 => ?_, fun k' hk1 hk2 => ?_⟩
          · by_cases hkj : k' = j
            · subst hkj; exact hv
            · exact h2 k' (by omega) (by omega)
          · rcases h3 with h3 | h3
            · exact Or.inl h3
            · exact Or.inr ⟨by omega, by omega⟩
          · by_cases hkj : k' = j
            · subst hkj; omega
            · exact h6 k' (by omega) (by omega)
          · by_cases hkj : k' = j
            · subst hkj
              have := h5 (by omega)
              omega
            · exact h7 k' (by omega) hk2


theorem updateLine_eq {cache : List (List cacheLine)} {index j : Nat} {set : List cacheLine}
    (f : cacheLine → cacheLine) (hset : cache[index]? = some set) (hj : j < set.length) :
    updateLine cache index j f = some (cache.set index (set.set j (f (lineAt set j)))) := by
  unfold updateLine
  rw [hset]
  simp only []
  rw [getElem?_lineAt hj]

theorem index_in_range (m : Machine) (address : Nat) (s E b : Int) (hs : 0 ≤ s) (hs32 : s < 32)
    (cache : List (List cacheLine)) (hwf : wellFormed s E cache) :
    ¬ getIndexBits m address s E b < 0 ∧
    ∃ set, cache[(getIndexBits m address s E b).toNat]? = some set ∧ set ∈ cache ∧
      set.length = E.toNat ∧ (getIndexBits m address s E b).toNat < cache.length := by
  rw [getIndexBits_eq m address s E b hs hs32]
  have hlt0 := Nat.mod_lt (shr64 m address b) (Nat.two_pow_pos s.toNat)
  have hlt : shr64 m address b % 2 ^ s.toNat < cache.length := by rw [hwf.1]; exact hlt0
  refine ⟨by omega, ?_⟩
  rw [Int.toNat_ofNat]
  refine ⟨_, List.getElem?_eq_getElem hlt, List.getElem_mem _, ?_, hlt⟩
  exact (hwf.2 _ (List.getElem_mem _)).1

/-- The three ways accessCache ends on a well-formed cache with at least one line per
set: a hit on the first valid line with the tag, a fill of the first invalid line, or the
eviction of the first line with the smallest `tv_usec`. -/
theorem accessCache_cases (m : Machine) (now : timeval) (address : Nat) (s E b : Int)
    (st : Sim) (hs : 0 ≤ s) (hs32 : s < 32) (hE : 1 ≤ E) (hwf : wellFormed s E st.cache) :
    ∃ set, st.cache[(getIndexBits m address s E b).toNat]? = some set ∧
      set ∈ st.cache ∧ set.length = E.toNat ∧
      (getIndexBits m address s E b).toNat < st.cache.length ∧
      ((∃ k, k < E.toNat ∧
          ((lineAt set k).tag = getTagBits m address s E b ∧ (lineAt set k).validBit = 1) ∧
          (∀ k', k' < k → ¬ ((lineAt set k').tag = getTagBits m address s E b ∧
            (lineAt set k').validBit = 1)) ∧
          accessCache m now address s E b st =
            some { st with
              cache := st.cache.set (getIndexBits m address s E b).toNat
                (set.set k { lineAt set k with timeStamp := now }),
              hits := st.hits + 1, accessCacheInfo := "hit" }) ∨
       ((∀ k, k < E.toNat → ¬ ((lineAt set k).tag = getTagBits m address s E b ∧
            (lineAt set k).validBit = 1)) ∧
        ∃ k, k < E.toNat ∧ (lineAt set k).validBit = 0 ∧
          (∀ k', k' < k → (lineAt set k').validBit ≠ 0) ∧
          accessCache m now address s E b st =
            some { st with
              cache := st.cache.set (getIndexBits m address s E b).toNat
                (set.set k { validBit := 1, tag := getTagBits m address s E b,
                             timeStamp := now }),
              misses := st.misses + 1, accessCacheInfo := "miss" }) ∨
       ((∀ k, k < E.toNat → ¬ ((lineAt set k).tag = getTagBits m address s E b ∧
            (lineAt set k).validBit = 1)) ∧
        (∀ k, k < E.toNat → (lineAt set k).validBit ≠ 0) ∧
        ∃ k, k < E.toNat ∧
          (∀ k', k' < E.toNat →
            (lineAt set k).timeStamp.tv_usec ≤ (lineAt set k').timeStamp.tv_usec) ∧
          (∀ k', k' < k →
            (lineAt set k).timeStamp.tv_usec < (lineAt set k').timeStamp.tv_usec) ∧
          accessCache m now address s E b st =
            some { st with
              cache := st.cache.set (getIndexBits m address s E b).toNat
                (set.set k { lineAt set k with tag := getTagBits m address s E b,
                                               timeStamp := now }),
              evict := st.evict + 1, misses := st.misses + 1,
              accessCacheInfo := "miss eviction" })) := by
  obtain ⟨hneg, set, hset, hmem, hlen, hidx⟩ := index_in_range m address s E b hs hs32 st.cache hwf
  have hE1 : 1 ≤ E.toNat := by omega
  refine ⟨set, hset, hmem, hlen, hidx, ?_⟩
  unfold accessCache
  simp only []
  rw [if_neg hneg, hset]
  simp only []
  rcases hitLoop_spec set (getTagBits m address s E b) E.toNat 0 (by omega) with
    ⟨h1, h2⟩ | ⟨k, h1, _, h3, h4, h5, h6⟩
  · rw [h1]
    simp only []
    have hno : ∀ k, k < E.toNat → ¬ ((lineAt set k).tag = getTagBits m address s E b ∧
        (lineAt set k).validBit = 1) := fun k hk => h2 k (Nat.zero_le _) (by omega)
    rcases slotLoop_spec set E.toNat 0 0 (by omega) (le_refl _) with
      ⟨k, g1, _, g3, g4, g5⟩ | ⟨k, g1, g2, g3, _, _, g6, g7⟩
    · rw [g1]
      simp only []
      rw [updateLine_eq _ hset (by omega : k < set.length)]
      exact Or.inr (Or.inl ⟨hno, k, by omega, g4, fun k' hk' => g5 k' (Nat.zero_le _) hk', rfl⟩)
    · rw [g1]
      simp only []
      have hk : k < E.toNat := by
        rcases g3 with g3 | g3 <;> omega
      rw [updateLine_eq _ hset (by omega : k < set.length)]
      exact Or.inr (Or.inr ⟨hno, fun k' hk' => g2 k' (Nat.zero_le _) (by omega), k, hk,
        fun k' hk' => g6 k' (Nat.zero_le _) (by omega),
        fun k' hk' => g7 k' (Nat.zero_le _) hk', rfl⟩)
  · rw [h1]
    simp only []
    rw [updateLine_eq _ hset (by omega : k < set.length)]
    exact Or.inl ⟨k, by omega, ⟨h4, h5⟩, fun k' hk' => h6 k' (Nat.zero_le _) hk', rfl⟩


theorem lineAt_mem {set : List cacheLine} {k : Nat} (hk : k < set.length) :
    lineAt set k ∈ set :=
  List.getElem?_mem (getElem?_lineAt hk)

theorem wellFormed_set {s E : Int} {cache : List (List cacheLine)} (hwf : wellFormed s E cache)
    {set : List cacheLine} (hmem : set ∈ cache) (index k : Nat) (x : cacheLine)
    (hx : x.validBit = 0 ∨ x.validBit = 1) :
    wellFormed s E (cache.set index (set.set k x)) := by
  refine ⟨by rw [List.length_set]; exact hwf.1, fun set' hset' => ?_⟩
  rcases List.mem_or_eq_of_mem_set hset' with h | h
  · exact hwf.2 set' h
  · subst h
    refine ⟨by rw [List.length_set]; exact (hwf.2 set hmem).1, fun line hline => ?_⟩
    rcases List.mem_or_eq_of_mem_set hline with h | h
    · exact (hwf.2 set hmem).2 line h
    · subst h; exact hx

theorem valid_of_ne_zero {s E : Int} {cache : List (List cacheLine)}
    (hwf : wellFormed s E cache) {set : List cacheLine} (hmem : set ∈ cache) {k : Nat}
    (hk : k < set.length) (h : (lineAt set k).validBit ≠ 0) : (lineAt set k).validBit = 1 := by
  rcases (hwf.2 set hmem).2 _ (lineAt_mem hk) with h0 | h1
  · exact absurd h0 h
  · exact h1

/-- After accessCache the cache is well formed, the set of the address is the old one
with one line replaced, and that line is valid and has the tag of the address. -/
theorem accessCache_result (m : Machine) (now : timeval) (address : Nat) (s E b : Int)
    (st : Sim) (hs : 0 ≤ s) (hs32 : s < 32) (hE : 1 ≤ E) (hwf : wellFormed s E st.cache) :
    ∃ st1 set k x, accessCache m now address s E b st = some st1 ∧
      st.cache[(getIndexBits m address s E b).toNat]? = some set ∧
      k < E.toNat ∧ set.length = E.toNat ∧
      (getIndexBits m address s E b).toNat < st.cache.length ∧
      st1.cache = st.cache.set (getIndexBits m address s E b).toNat (set.set k x) ∧
      x.tag = getTagBits m address s E b ∧ x.validBit = 1 ∧
      wellFormed s E st1.cache ∧
      st1.evict - st.evict ≤ st1.misses - st.misses ∧ st.hits ≤ st1.hits := by
  obtain ⟨set, hset, hmem, hlen, hidx, hcases⟩ := accessCache_cases m now address s E b st hs hs32 hE hwf
  rcases hcases with ⟨k, hk, hm, _, hacc⟩ | ⟨_, k, hk, _, _, hacc⟩ | ⟨_, hv, k, hk, _, _, hacc⟩
  · exact ⟨_, set, k, _, hacc, hset, hk, hlen, hidx, rfl, hm.1, hm.2,
      wellFormed_set hwf hmem _ _ _ (Or.inr hm.2), by simp, by simp⟩
  · exact ⟨_, set, k, _, hacc, hset, hk, hlen, hidx, rfl, rfl, rfl,
      wellFormed_set hwf hmem _ _ _ (Or.inr rfl), by simp, by simp⟩
  · have hv1 := valid_of_ne_zero hwf hmem (by omega : k < set.length) (hv k hk)
    exact ⟨_, set, k, _, hacc, hset, hk, hlen, hidx, rfl, rfl, hv1,
      wellFormed_set hwf hmem _ _ _ (Or.inr hv1), by simp, by simp⟩

theorem runCache_total (m : Machine) (s E b : Int) (hs : 0 ≤ s) (hs32 : s < 32) (hE : 1 ≤ E) :
    ∀ (trace : List Access) (st : Sim), wellFormed s E st.cache →
      ∃ st1, runCache m s E b trace st = some st1 ∧ wellFormed s E st1.cache ∧
        st1.evict - st.evict ≤ st1.misses - st.misses ∧ st.hits ≤ st1.hits := by
  intro trace
  induction trace with
  | nil => intro st hwf; exact ⟨st, rfl, hwf, by simp, le_refl _⟩
  | cons a rest ih =>
    intro st hwf
    unfold runCache
    by_cases hM : a.type = 'M'
    · rw [if_pos hM]
      obtain ⟨st1, _, _, _, h1, _, _, _, _, _, _, _, hwf1, he, hh⟩ :=
        accessCache_result m a.now a.address s E b
          { st with hits := st.hits + 1, accessCacheInfo := "" } hs hs32 hE hwf
      rw [h1]
      simp only []
      obtain ⟨st2, h2, hwf2, he2, hh2⟩ := ih st1 hwf1
      simp only [] at he hh
      exact ⟨st2, h2, hwf2, by omega, by omega⟩
    · rw [if_neg hM]
      by_cases hS : a.type = 'S' ∨ a.type = 'L'
      · rw [if_pos hS]
        obtain ⟨st1, _, _, _, h1, _, _, _, _, _, _, _, hwf1, he, hh⟩ :=
          accessCache_result m a.now a.address s E b
            { st with accessCacheInfo := "" } hs hs32 hE hwf
        rw [h1]
        simp only []
        obtain ⟨st2, h2, hwf2, he2, hh2⟩ := ih st1 hwf1
        simp only [] at he hh
        exact ⟨st2, h2, hwf2, by omega, by omega⟩
      · rw [if_neg hS]
        exact ih { st with accessCacheInfo := "" } hwf

/-- The first four lines of `sampleTrace` take the fresh cache to `crossSecond`. -/
theorem sampleTrace_reaches_crossSecond :
    runCache x86 1 2 10 (sampleTrace.take 4) freshSim = some crossSecond := by
  decide

/-! ## C32: the line accessCache evicts -/

/-- C32: what accessCache does when every line of the addressed set is valid and none
holds the tag, on a well-formed cache with E >= 1.  It reports "miss eviction", counts one
miss and one eviction, and replaces the tag and the time stamp of one line, leaving the
other lines and sets as they were: the first line of the set whose `tv_usec` is smallest.
The seconds of the time stamps are not looked at, so this is the least recently used line
only while all time stamps of the set lie in the same second. -/
theorem accessCache_evicts_smallest_tv_usec (m : Machine) (now : timeval) (address : Nat)
    (s E b : Int) (st : Sim) (hs : 0 ≤ s) (hs32 : s < 32) (hE : 1 ≤ E)
    (hwf : wellFormed s E st.cache)
    (hfull : ∀ set, st.cache[(getIndexBits m address s E b).toNat]? = some set →
      ∀ k, k < E.toNat → (lineAt set k).validBit = 1 ∧
        (lineAt set k).tag ≠ getTagBits m address s E b) :
    ∃ set k, st.cache[(getIndexBits m address s E b).toNat]? = some set ∧ k < E.toNat ∧
      (∀ k', k' < E.toNat →
        (lineAt set k).timeStamp.tv_usec ≤ (lineAt set k').timeStamp.tv_usec) ∧
      (∀ k', k' < k →
        (lineAt set k).timeStamp.tv_usec < (lineAt set k').timeStamp.tv_usec) ∧
      accessCache m now address s E b st =
        some { st with
          cache := st.cache.set (getIndexBits m address s E b).toNat
            (set.set k { lineAt set k with tag := getTagBits m address s E b,
                                           timeStamp := now }),
          evict := st.evict + 1, misses := st.misses + 1,
          accessCacheInfo := "miss eviction" } := by
  obtain ⟨set, hset, _, _, _, hcases⟩ := accessCache_cases m now address s E b st hs hs32 hE hwf
  have hf := hfull set hset
  rcases hcases with ⟨k, hk, hm, _, _⟩ | ⟨_, k, hk, hv, _, _⟩ | ⟨_, _, k, hk, h1, h2, hacc⟩
  · exact absurd hm.1 (hf k hk).2
  · rw [(hf k hk).1] at hv; exact absurd hv (by decide)
  · exact ⟨set, k, hset, hk, h1, h2, hacc⟩

/-- C32 on the last line of `sampleTrace`, in the state `crossSecond`: line 0 of set 0 was
last accessed at 10 s + 900100 us, earlier than line 1 (11 s + 100 us), and accessCache
replaces line 1. -/
theorem accessCache_evicts_smallest_tv_usec_witness :
    earlier (lineAt (crossSecond.cache.getD 0 []) 0).timeStamp
      (lineAt (crossSecond.cache.getD 0 []) 1).timeStamp ∧
    accessCache x86 { tv_sec := 11, tv_usec := 200 } 8192 1 2 10 crossSecond =
      some { crossSecond with
        cache :=
          [[{ validBit := 1, tag := 0, timeStamp := { tv_sec := 10, tv_usec := 900100 } },
            { validBit := 1, tag := 4, timeStamp := { tv_sec := 11, tv_usec := 200 } }],
           [{ validBit := 0, tag := 0, timeStamp := { tv_sec := 10, tv_usec := 0 } },
            { validBit := 0, tag := 0, timeStamp := { tv_sec := 10, tv_usec := 0 } }]],
        evict := 1, misses := 3, accessCacheInfo := "miss eviction" } ∧
    ∃ set k, crossSecond.cache[(getIndexBits x86 8192 1 2 10).toNat]? = some set ∧
      k < (2 : Int).toNat ∧
      (∀ k', k' < (2 : Int).toNat →
        (lineAt set k).timeStamp.tv_usec ≤ (lineAt set k').timeStamp.tv_usec) ∧
      (∀ k', k' < k →
        (lineAt set k).timeStamp.tv_usec < (lineAt set k').timeStamp.tv_usec) ∧
      accessCache x86 { tv_sec := 11, tv_usec := 200 } 8192 1 2 10 crossSecond =
        some { crossSecond with
          cache := crossSecond.cache.set (getIndexBits x86 8192 1 2 10).toNat
            (set.set k { lineAt set k with tag := getTagBits x86 8192 1 2 10,
                                           timeStamp := { tv_sec := 11, tv_usec := 200 } }),
          evict := crossSecond.evict + 1, misses := crossSecond.misses + 1,
          accessCacheInfo := "miss eviction" } :=
  ⟨by decide, by decide,
    accessCache_evicts_smallest_tv_usec x86 { tv_sec := 11, tv_usec := 200 } 8192 1 2 10
      crossSecond (by decide) (by decide) (by decide) (by decide) (by decide)⟩

/-! ## C34: the counters -/

/-- C34: on a well-formed cache (`2^s` sets of `E >= 1` lines, valid bits 0 or 1, with
0 <= s < 32) every call of accessCache returns, and it adds 1 to exactly one of hits and
misses: to hits if and only if some valid line of the addressed set holds the tag; it
adds 1 to evict if and only if it was a miss and every line of the set was valid, and it
changes the counters in no other way.  So runCache returns on every trace, and the
evictions it adds are at most the misses it adds. -/
theorem every_access_is_counted_once (m : Machine) (s E b : Int) (st : Sim)
    (hs : 0 ≤ s) (hs32 : s < 32) (hE : 1 ≤ E) (hwf : wellFormed s E st.cache) :
    (∀ (now : timeval) (address : Nat),
      ∃ set st1, st.cache[(getIndexBits m address s E b).toNat]? = some set ∧
        accessCache m now address s E b st = some st1 ∧
        ((∃ k, k < E.toNat ∧ (lineAt set k).tag = getTagBits m address s E b ∧
            (lineAt set k).validBit = 1) →
          st1.hits = st.hits + 1 ∧ st1.misses = st.misses ∧ st1.evict = st.evict) ∧
        (¬ (∃ k, k < E.toNat ∧ (lineAt set k).tag = getTagBits m address s E b ∧
            (lineAt set k).validBit = 1) →
          st1.hits = st.hits ∧ st1.misses = st.misses + 1 ∧
          ((∀ k, k < E.toNat → (lineAt set k).validBit = 1) → st1.evict = st.evict + 1) ∧
          (¬ (∀ k, k < E.toNat → (lineAt set k).validBit = 1) → st1.evict = st.evict))) ∧
    (∀ trace : List Access,
      ∃ st1, runCache m s E b trace st = some st1 ∧
        st1.evict - st.evict ≤ st1.misses - st.misses) := by
  constructor
  · intro now address
    obtain ⟨set, hset, hmem, hlen, _, hcases⟩ :=
      accessCache_cases m now address s E b st hs hs32 hE hwf
    rcases hcases with ⟨k, hk, hm, _, hacc⟩ | ⟨hno, k, hk, hv, _, hacc⟩ |
      ⟨hno, hv, k, hk, _, _, hacc⟩
    · refine ⟨set, _, hset, hacc, fun _ => ⟨rfl, rfl, rfl⟩, fun hn => ?_⟩
      exact absurd ⟨k, hk, hm.1, hm.2⟩ hn
    · refine ⟨set, _, hset, hacc, fun ⟨k', hk', h1, h2⟩ => absurd ⟨h1, h2⟩ (hno k' hk'),
        fun _ => ⟨rfl, rfl, fun hall => ?_, fun _ => rfl⟩⟩
      rw [hall k hk] at hv
      exact absurd hv (by decide)
    · refine ⟨set, _, hset, hacc, fun ⟨k', hk', h1, h2⟩ => absurd ⟨h1, h2⟩ (hno k' hk'),
        fun _ => ⟨rfl, rfl, fun _ => rfl, fun hnall => ?_⟩⟩
      exact absurd (fun k' hk' => valid_of_ne_zero hwf hmem (by omega) (hv k' hk')) hnall
  · intro trace
    obtain ⟨st1, h1, _, h3, _⟩ := runCache_total m s E b hs hs32 hE trace st hwf
    exact ⟨st1, h1, h3⟩

/-- C34 on `sampleTrace` from the fresh cache: 2 hits, 3 misses, 1 eviction. -/
theorem every_access_is_counted_once_witness :
    wellFormed 1 2 freshSim.cache ∧
    (runCache x86 1 2 10 sampleTrace freshSim).map (fun st => (st.hits, st.misses, st.evict)) =
      some (2, 3, 1) ∧
    ∃ st1, runCache x86 1 2 10 sampleTrace freshSim = some st1 ∧
      st1.evict - freshSim.evict ≤ st1.misses - freshSim.misses :=
  ⟨by decide, by decide,
    (every_access_is_counted_once x86 1 2 10 freshSim (by decide) (by decide) (by decide)
      (by decide)).2 sampleTrace⟩

/-! ## C35: a repeated access -/

theorem map_set_eq {α β : Type} (f : α → β) (l : List α) (n : Nat) (a x : α)
    (h : l[n]? = some x) (hf : f a = f x) : (l.set n a).map f = l.map f := by
  apply List.ext_getElem?
  intro i
  rw [List.getElem?_map, List.getElem?_map, List.getElem?_set]
  by_cases hi : n = i
  · subst hi
    rw [if_pos rfl, h]
    have hn : n < l.length := by
      by_contra hc
      rw [List.getElem?_eq_none (by omega)] at h
      cases h
    rw [if_pos hn]
    simp [hf]
  · rw [if_neg hi]

/-- C35: on a well-formed cache with E >= 1 (and 0 <= s < 32), after one call of
accessCache for an address, a call for any address with the same tag and the same set
index returns, reports "hit", adds 1 to hits and nothing to misses and evict, and leaves
every tag and valid bit of the cache as it was. -/
theorem repeated_access_hits (m : Machine) (now1 now2 : timeval) (a1 a2 : Nat) (s E b : Int)
    (st : Sim) (hs : 0 ≤ s) (hs32 : s < 32) (hE : 1 ≤ E) (hwf : wellFormed s E st.cache)
    (htag : getTagBits m a2 s E b = getTagBits m a1 s E b)
    (hidx : getIndexBits m a2 s E b = getIndexBits m a1 s E b) :
    ∃ st1 st2, accessCache m now1 a1 s E b st = some st1 ∧
      accessCache m now2 a2 s E b st1 = some st2 ∧
      st2.accessCacheInfo = "hit" ∧ st2.hits = st1.hits + 1 ∧
      st2.misses = st1.misses ∧ st2.evict = st1.evict ∧
      st2.cache.map (fun set => set.map (fun l => (l.validBit, l.tag))) =
        st1.cache.map (fun set => set.map (fun l => (l.validBit, l.tag))) := by
  obtain ⟨st1, set, k, x, h1, hset, hk, hlen, hidxlt, hcache, hxt, hxv, hwf1, _, _⟩ :=
    accessCache_result m now1 a1 s E b st hs hs32 hE hwf
  obtain ⟨set1, hset1, _, _, _, hcases⟩ :=
    accessCache_cases m now2 a2 s E b st1 hs hs32 hE hwf1
  have hset1' : set1 = set.set k x := by
    rw [hidx, hcache, List.getElem?_set_self hidxlt] at hset1
    exact (Option.some.inj hset1).symm
  have hx : lineAt set1 k = x := by
    rw [hset1', lineAt_set _ _ _ _ (by omega), if_pos rfl]
  have hmatch : (lineAt set1 k).tag = getTagBits m a2 s E b ∧ (lineAt set1 k).validBit = 1 := by
    rw [hx, htag]; exact ⟨hxt, hxv⟩
  rcases hcases with ⟨k2, hk2, _, _, hacc⟩ | ⟨hno, _⟩ | ⟨hno, _⟩
  · refine ⟨st1, _, h1, hacc, rfl, rfl, rfl, rfl, ?_⟩
    show (st1.cache.set _ _).map _ = _
    have hlen1 : set1.length = E.toNat := by rw [hset1', List.length_set]; exact hlen
    apply map_set_eq _ _ _ _ set1 hset1
    exact map_set_eq _ _ _ _ (lineAt set1 k2) (getElem?_lineAt (by omega)) rfl
  · exact absurd hmatch (hno k hk)
  · exact absurd hmatch (hno k hk)

/-- C35 in the state `crossSecond`: block 8192 is brought in, then its address 8200 (same
tag, same set) hits. -/
theorem repeated_access_hits_witness :
    getTagBits x86 8200 1 2 10 = getTagBits x86 8192 1 2 10 ∧
    getIndexBits x86 8200 1 2 10 = getIndexBits x86 8192 1 2 10 ∧
    ∃ st1 st2,
      accessCache x86 { tv_sec := 11, tv_usec := 200 } 8192 1 2 10 crossSecond = some st1 ∧
      accessCache x86 { tv_sec := 11, tv_usec := 300 } 8200 1 2 10 st1 = some st2 ∧
      st2.accessCacheInfo = "hit" ∧ st2.hits = st1.hits + 1 ∧
      st2.misses = st1.misses ∧ st2.evict = st1.evict ∧
      st2.cache.map (fun set => set.map (fun l => (l.validBit, l.tag))) =
        st1.cache.map (fun set => set.map (fun l => (l.validBit, l.tag))) :=
  ⟨by decide, by decide,
    repeated_access_hits x86 { tv_sec := 11, tv_usec := 200 } { tv_sec := 11, tv_usec := 300 }
      8192 8200 1 2 10 crossSecond (by decide) (by decide) (by decide) (by decide)
      (by decide) (by decide)⟩

end Cachesim
